import Mathlib

/-!
Verification development for the March Madness probability engine
(`MarchMadnessProbabilities.py`).

Shallow embedding conventions:
* Python dict-shaped `Team` records become the structure `Team`
  (`{name, seed}`); a missing `seed` key is modelled as seed `0`, which is
  exactly how the scoring code treats it (Python truthiness: `if seed:`).
  String-typed team entries are normalised to records at the ingestion
  boundary, mirroring `get_team_name` / `get_team_seed` which only ever
  read the `name` / `seed` fields.
* A `Game` is `{team1, team2, winner : Option Team}`.  Brackets loaded
  from JSON always contain a dict per game slot, so the Python guards
  `if not game:` (which fire only for `None` / `{}` entries that the
  loader never produces) have no counterpart here.
* A `Bracket` is a dict with keys `round1`..`round6` plus an overall
  `winner`; it is modelled as a list of rounds indexed by the position of
  the key in `ROUND_KEYS` (a bracket whose `rounds` list is shorter than 6
  models a dict missing later round keys: reading a missing key yields
  `[]`, exactly like `bracket.get(round_key, [])`, and writing to it is a
  no-op, like the `if parent_round not in hypothetical: continue` guard).
* Python floats are modelled as exact rationals (`ℚ`); Python ints as `ℤ`
  (scores, seeds) or `ℕ` (indices, counts).
* Outcome strings are lists of characters (`Pat := List Char`).
* Python dicts used as finite maps are modelled as insertion-ordered
  association lists, matching dict iteration order.
-/

namespace MM

/-- A team record: `{name: ..., seed: ...}`.  A missing seed is `0`. -/
structure Team where
  name : String
  seed : Int
deriving DecidableEq, Repr

/-- A game record: `{team1, team2, winner}`, each possibly absent/null. -/
structure Game where
  team1 : Option Team
  team2 : Option Team
  winner : Option Team
deriving DecidableEq, Repr

/-- The empty game record (used where Python would read a missing slot). -/
def defaultGame : Game := ⟨none, none, none⟩

/-- `ROUND_KEYS = ['round1', ..., 'round6']`. -/
def ROUND_KEYS : List String :=
  ["round1", "round2", "round3", "round4", "round5", "round6"]

/-- `GAMES_PER_ROUND = [32, 16, 8, 4, 2, 1]`. -/
def GAMES_PER_ROUND : List Nat := [32, 16, 8, 4, 2, 1]

/-- `ROUND_BIT_OFFSETS = [0, 32, 48, 56, 60, 62]`. -/
def ROUND_BIT_OFFSETS : List Nat := [0, 32, 48, 56, 60, 62]

/-- `TOTAL_BRACKET_BITS = 63`. -/
def TOTAL_BRACKET_BITS : Nat := 63

/-- A bracket: dict with keys `round1`..`round6` (modelled positionally)
and an overall `winner`. -/
structure Bracket where
  rounds : List (List Game)
  winner : Option Team
deriving DecidableEq, Repr

/-- `bracket.get(round_key, [])`. -/
def Bracket.getRound (b : Bracket) (key : String) : List Game :=
  b.rounds.getD (ROUND_KEYS.indexOf key) []

/-- Read the game at `bracket[round_key][i]` (empty record when absent). -/
def gameAt (b : Bracket) (key : String) (i : Nat) : Game :=
  (b.getRound key).getD i defaultGame

/-- Write the game at `bracket[round_key][i]` (no-op when the key or the
index is absent, like the guards in the Python propagation code). -/
def setGame (b : Bracket) (key : String) (i : Nat) (g : Game) : Bracket :=
  { b with rounds :=
      b.rounds.set (ROUND_KEYS.indexOf key) ((b.getRound key).set i g) }

/-- `get_team_name`: name of a team record, `None` for an absent team or
an empty name (Python truthiness collapses `''` and `None` at every use
site of the result). -/
def get_team_name : Option Team → Option String
  | none => none
  | some t => if t.name = "" then none else some t.name

/-- `get_winner_name`: winner's name of a game, normalised as in
`get_team_name`. -/
def get_winner_name (g : Game) : Option String :=
  get_team_name g.winner

/-- An entry of `teams_data`: a team row with a seed and the probability
columns that happen to be present. -/
structure TeamEntry where
  seed : Int
  probs : List (String × ℚ)
deriving DecidableEq, Repr

/-- `teams_data`: dict mapping team name to its row. -/
def TeamsData := List (String × TeamEntry)

/-- First-match association-list lookup (Python dict access). -/
def alookup {β : Type} (m : List (String × β)) (k : String) : Option β :=
  (m.find? (fun p => p.1 = k)).map (fun p => p.2)

/-- `get_team_seed`: seed for a team, preferring the `teams_data` row,
falling back to the record's own seed, with `0` for "unknown". -/
def get_team_seed (team : Option Team) (td : TeamsData) : Int :=
  match team with
  | none => 0
  | some t =>
    match get_team_name (some t) with
    | some nm =>
      match alookup td nm with
      | some row => row.seed
      | none => t.seed
    | none => t.seed

/-- `get_fixed_bit_position`: fixed bit position (0-62) of a game in the
63-bit full bracket string. -/
def get_fixed_bit_position (round_key : String) (game_index : Nat) : Nat :=
  ROUND_BIT_OFFSETS.getD (ROUND_KEYS.indexOf round_key) 0 + game_index

/-- `get_game_from_bit_position`: inverse of `get_fixed_bit_position`,
scanning rounds from the last to the first. -/
def get_game_from_bit_position (bit_position : Nat) : String × Nat :=
  go (List.range ROUND_KEYS.length).reverse
where
  go : List Nat → String × Nat
    | [] => (ROUND_KEYS.getD 0 "", bit_position)
    | idx :: rest =>
      if bit_position ≥ ROUND_BIT_OFFSETS.getD idx 0 then
        (ROUND_KEYS.getD idx "", bit_position - ROUND_BIT_OFFSETS.getD idx 0)
      else go rest

/-- Valid (round, game-index) addresses: round key in `ROUND_KEYS`, index
below that round's game count. -/
def valid_game_address (round_key : String) (game_index : Nat) : Prop :=
  round_key ∈ ROUND_KEYS ∧
    game_index < GAMES_PER_ROUND.getD (ROUND_KEYS.indexOf round_key) 0

instance : DecidablePred (fun p : String × Nat => valid_game_address p.1 p.2) :=
  fun _ => by unfold valid_game_address; infer_instance

/-- C10: `get_fixed_bit_position` and `get_game_from_bit_position` are
mutually inverse between the 63 valid (round, game) addresses and bit
positions 0..62. -/
theorem bit_position_round_trip :
    (∀ round_key ∈ ROUND_KEYS,
      ∀ game_index < GAMES_PER_ROUND.getD (ROUND_KEYS.indexOf round_key) 0,
        get_game_from_bit_position (get_fixed_bit_position round_key game_index)
          = (round_key, game_index)) ∧
    (∀ bit_position < TOTAL_BRACKET_BITS,
      valid_game_address (get_game_from_bit_position bit_position).1
          (get_game_from_bit_position bit_position).2 ∧
        get_fixed_bit_position (get_game_from_bit_position bit_position).1
          (get_game_from_bit_position bit_position).2 = bit_position) := by
  decide

/-! ## Scoring engine -/

/-- Scoring configuration (the `scoreForRound` / `seedFactor` arrays of
`scoring-config.json`; index 0 unused, indices 1-6 are rounds 1-6). -/
structure ScoringConfig where
  scoreForRound : List Int
  seedFactor : List Int
deriving DecidableEq, Repr

/-- Outcome strings: fixed-length sequences of characters. -/
abbrev Pat := List Char

/-- The per-game body of `compute_score`'s inner loop: the contribution
`(total_score, correct_picks, seed_bonus)` of one (result, pick) game
pair. -/
def score_game (cfg : ScoringConfig) (td : TeamsData) (apply_seed_bonus : Bool)
    (round_num : Nat) (result_game pick_game : Game) : Int × Nat × Int :=
  match get_winner_name result_game, get_winner_name pick_game with
  | some result_winner, some pick_winner =>
    if result_winner = pick_winner then
      let points := cfg.scoreForRound.getD round_num 0
      if apply_seed_bonus then
        let team1_seed := get_team_seed result_game.team1 td
        let team2_seed := get_team_seed result_game.team2 td
        let winner_seed := get_team_seed result_game.winner td
        if team1_seed ≠ 0 ∧ team2_seed ≠ 0 ∧ winner_seed ≠ 0 then
          let expected_winner_seed := min team1_seed team2_seed
          if winner_seed > expected_winner_seed then
            let upset_bonus :=
              (winner_seed - expected_winner_seed) * cfg.seedFactor.getD round_num 0
            (points + upset_bonus, 1, upset_bonus)
          else (points, 1, 0)
        else (points, 1, 0)
      else (points, 1, 0)
    else (0, 0, 0)
  | _, _ => (0, 0, 0)

/-- Componentwise addition of score triples. -/
def addT (a b : Int × Nat × Int) : Int × Nat × Int :=
  (a.1 + b.1, a.2.1 + b.2.1, a.2.2 + b.2.2)

/-- One round of `compute_score`: fold `score_game` over the paired games
(the `zip` truncation models the `i >= len(picks_round): continue`
guard). -/
def score_round (cfg : ScoringConfig) (td : TeamsData) (apply_seed_bonus : Bool)
    (round_num : Nat) (results_round picks_round : List Game) : Int × Nat × Int :=
  (results_round.zip picks_round).foldl
    (fun acc gp => addT acc (score_game cfg td apply_seed_bonus round_num gp.1 gp.2))
    (0, 0, 0)

/-- `compute_score`: score a picks bracket against a results bracket,
returning `(total_score, correct_picks, seed_bonus)`. -/
def compute_score (cfg : ScoringConfig) (td : TeamsData)
    (results_bracket picks_bracket : Bracket) (apply_seed_bonus : Bool) :
    Int × Nat × Int :=
  ROUND_KEYS.enum.foldl
    (fun acc q => addT acc (score_round cfg td apply_seed_bonus (q.1 + 1)
      (results_bracket.getRound q.2) (picks_bracket.getRound q.2)))
    (0, 0, 0)

/-- The games of one round lacking a winner (the body of
`find_remaining_games`' loop), as (round_key, game_index) pairs. -/
def remaining_in_round (results_bracket : Bracket) (round_key : String) :
    List (String × Nat) :=
  (results_bracket.getRound round_key).enum.filterMap (fun p =>
    if get_winner_name p.2 = none then some (round_key, p.1) else none)

/-- `find_remaining_games`: all (round_key, game_index) pairs without a
winner, in round-then-index order. -/
def find_remaining_games (results_bracket : Bracket) : List (String × Nat) :=
  ROUND_KEYS.foldl (fun remaining round_key =>
    remaining ++ remaining_in_round results_bracket round_key) []

/-- `get_feeder_games`: the two previous-round games feeding a game. -/
def get_feeder_games (round_key : String) (game_index : Nat) :
    Option (String × Nat × Nat) :=
  let round_num := ROUND_KEYS.indexOf round_key + 1
  if round_num = 1 then none
  else some (ROUND_KEYS.getD (round_num - 2) "", game_index * 2, game_index * 2 + 1)

/-- `get_parent_game_info`: the next-round game this game feeds, with the
slot (0 = team1, 1 = team2). -/
def get_parent_game_info (round_key : String) (game_index : Nat) :
    Option (String × Nat × Nat) :=
  let round_num := ROUND_KEYS.indexOf round_key + 1
  if round_num ≥ 6 then none
  else some (ROUND_KEYS.getD round_num "", game_index / 2, game_index % 2)

/-- One iteration of `create_hypothetical_bracket`'s loop: decide game
`remaining_games[i]` per `outcome_string[i]` (`'1'` means team1 wins) and
propagate the winner into the parent slot. -/
def apply_outcome_step (outcome_string : Pat) (b : Bracket)
    (q : Nat × String × Nat) : Bracket :=
  let game := gameAt b q.2.1 q.2.2
  match game.team1, game.team2 with
  | some t1, some t2 =>
    let winner := if outcome_string.getD q.1 ' ' = '1' then t1 else t2
    let b1 := setGame b q.2.1 q.2.2 { game with winner := some winner }
    match get_parent_game_info q.2.1 q.2.2 with
    | none => b1
    | some (parent_round, parent_index, slot) =>
      if ROUND_KEYS.indexOf parent_round < b1.rounds.length then
        if parent_index < (b1.getRound parent_round).length then
          let parent_game := gameAt b1 parent_round parent_index
          if slot = 0 then
            setGame b1 parent_round parent_index { parent_game with team1 := some winner }
          else
            setGame b1 parent_round parent_index { parent_game with team2 := some winner }
        else b1
      else b1
  | _, _ => b

/-- `create_hypothetical_bracket`: complete the results bracket according
to an outcome string, processing remaining games in order and finally
setting the overall winner from the championship game. -/
def create_hypothetical_bracket (results_bracket : Bracket)
    (remaining_games : List (String × Nat)) (outcome_string : Pat) : Bracket :=
  let hypo := remaining_games.enum.foldl (apply_outcome_step outcome_string) results_bracket
  { hypo with winner := (gameAt hypo "round6" 0).winner }

/-- The per-game body of `compute_score_delta`'s loop. -/
def delta_game (cfg : ScoringConfig) (td : TeamsData) (apply_seed_bonus : Bool)
    (round_num : Nat) (hypo_game pick_game : Game) : Int :=
  match get_winner_name hypo_game, get_winner_name pick_game with
  | some hypo_winner, some pick_winner =>
    if hypo_winner = pick_winner then
      let points := cfg.scoreForRound.getD round_num 0
      if apply_seed_bonus then
        let team1_seed := get_team_seed hypo_game.team1 td
        let team2_seed := get_team_seed hypo_game.team2 td
        let winner_seed := get_team_seed hypo_game.winner td
        if team1_seed ≠ 0 ∧ team2_seed ≠ 0 ∧ winner_seed ≠ 0 then
          let expected_winner_seed := min team1_seed team2_seed
          if winner_seed > expected_winner_seed then
            points + (winner_seed - expected_winner_seed) * cfg.seedFactor.getD round_num 0
          else points
        else points
      else points
    else 0
  | _, _ => 0

/-- `compute_score_delta`: score contribution of the remaining games
only. -/
def compute_score_delta (cfg : ScoringConfig) (td : TeamsData)
    (hypothetical_bracket picks_bracket : Bracket) (apply_seed_bonus : Bool)
    (remaining_games : List (String × Nat)) : Int :=
  remaining_games.foldl (fun delta q =>
    let round_num := ROUND_KEYS.indexOf q.1 + 1
    let picks_round := picks_bracket.getRound q.1
    if q.2 ≥ picks_round.length then delta
    else delta + delta_game cfg td apply_seed_bonus round_num
      (gameAt hypothetical_bracket q.1 q.2)
      (picks_round.getD q.2 defaultGame)) 0

/-- `compute_base_scores`: per-participant score of the results bracket
as-is, plus any star bonus. -/
def compute_base_scores (cfg : ScoringConfig) (td : TeamsData)
    (results_bracket : Bracket) (name_to_bracket : List (String × Bracket))
    (apply_seed_bonus : Bool) (bonus_stars : List (String × Int)) :
    List (String × Int) :=
  name_to_bracket.map (fun nb =>
    let score := (compute_score cfg td results_bracket nb.2 apply_seed_bonus).1
    match alookup bonus_stars nb.1 with
    | some b => (nb.1, score + b)
    | none => (nb.1, score))

/-! ## List lemmas for the scoring-equivalence proof -/

theorem list_getD_set {α : Type} (l : List α) (i j : Nat) (a d : α) :
    (l.set i a).getD j d = if i = j ∧ j < l.length then a else l.getD j d := by
  induction l generalizing i j with
  | nil => simp
  | cons x xs ih =>
    cases i with
    | zero =>
      cases j with
      | zero => simp
      | succ j' => simp
    | succ i' =>
      cases j with
      | zero => simp
      | succ j' =>
        simpa [Nat.succ_lt_succ_iff] using ih i' j'

theorem foldl_preserves {α β : Type} (P : α → Prop) (f : α → β → α) :
    ∀ (l : List β) (a : α), P a → (∀ x ∈ l, ∀ b, P b → P (f b x)) →
      P (l.foldl f a) := by
  intro l
  induction l with
  | nil => intro a ha _; exact ha
  | cons x xs ih =>
    intro a ha hstep
    exact ih (f a x) (hstep x (by simp) a ha)
      (fun y hy b hb => hstep y (by simp [hy]) b hb)

theorem sum_map_add_int {α : Type} (l : List α) (f g : α → Int) :
    (l.map (fun x => f x + g x)).sum = (l.map f).sum + (l.map g).sum := by
  induction l with
  | nil => simp
  | cons x xs ih => simp only [List.map_cons, List.sum_cons, ih]; ring

theorem foldl_addT_fst {β : Type} (f : β → Int × Nat × Int) :
    ∀ (l : List β) (acc : Int × Nat × Int),
      (l.foldl (fun a x => addT a (f x)) acc).1 =
        acc.1 + (l.map (fun x => (f x).1)).sum := by
  intro l
  induction l with
  | nil => simp
  | cons x xs ih =>
    intro acc
    rw [List.foldl_cons, ih]
    simp only [List.map_cons, List.sum_cons, addT]
    ring

theorem foldl_append_join {α β : Type} (f : α → List β) :
    ∀ (l : List α) (acc : List β),
      l.foldl (fun a x => a ++ f x) acc = acc ++ (l.map f).flatten := by
  intro l
  induction l with
  | nil => simp
  | cons x xs ih => intro acc; simp [ih]

theorem map_zip_range {α β γ : Type} (f : α → β → γ) (d1 : α) (d2 : β) :
    ∀ (xs : List α) (ys : List β),
      (xs.zip ys).map (fun p => f p.1 p.2) =
        (List.range (min xs.length ys.length)).map
          (fun i => f (xs.getD i d1) (ys.getD i d2)) := by
  intro xs
  induction xs with
  | nil => intro ys; simp
  | cons x xs ih =>
    intro ys
    cases ys with
    | nil => simp
    | cons y ys =>
      rw [List.zip_cons_cons, List.map_cons, ih ys]
      have hmin : min (x :: xs).length (y :: ys).length = min xs.length ys.length + 1 := by
        simp [Nat.succ_min_succ]
      rw [hmin, List.range_succ_eq_map, List.map_cons, List.map_map]
      refine congrArg₂ (· :: ·) (by simp) ?_
      apply List.map_congr_left
      intro i _
      simp [Function.comp]

theorem sum_range_cut (m : ℕ) (G : ℕ → Int) :
    ∀ n, ((List.range n).map (fun i => if i < m then G i else 0)).sum =
      ((List.range (min n m)).map G).sum := by
  intro n
  induction n with
  | zero => simp
  | succ n ih =>
    by_cases h : n < m
    · have hmin : min (n + 1) m = min n m + 1 := by
        rw [Nat.min_def, Nat.min_def]; split_ifs <;> omega
      have hmin' : min n m = n := by
        rw [Nat.min_def]; split_ifs <;> omega
      simp only [List.range_succ, List.map_append, List.sum_append, ih, hmin,
        hmin', List.map_cons, List.map_nil, List.sum_cons, List.sum_nil, if_pos h]
    · have hmin : min (n + 1) m = min n m := by
        rw [Nat.min_def, Nat.min_def]; split_ifs <;> omega
      simp only [List.range_succ, List.map_append, List.sum_append, ih, hmin,
        List.map_cons, List.map_nil, List.sum_cons, List.sum_nil, if_neg h]
      ring

theorem sum_filterMap_int {α β : Type} (fo : α → Option β) (g : β → Int) :
    ∀ l : List α, ((l.filterMap fo).map g).sum =
      (l.map (fun x => ((fo x).map g).getD 0)).sum := by
  intro l
  induction l with
  | nil => simp
  | cons x xs ih =>
    cases hfo : fo x <;>
      simp [List.filterMap_cons, hfo, ih]

theorem range_zip_filterMap {α β : Type} (c : α → Prop) [DecidablePred c] (d : α) :
    ∀ (l : List α) (u : Nat → β),
      ((List.range l.length).zip l).filterMap
          (fun p => if c p.2 then some (u p.1) else none) =
        (List.range l.length).filterMap
          (fun i => if c (l.getD i d) then some (u i) else none) := by
  intro l
  induction l with
  | nil => intro u; simp
  | cons x xs ih =>
    intro u
    have hzip : (List.range (x :: xs).length).zip (x :: xs) =
        (0, x) :: ((List.range xs.length).zip xs).map (fun p => (p.1 + 1, p.2)) := by
      rw [List.length_cons, List.range_succ_eq_map, List.zip_cons_cons,
        List.zip_map_left]
      exact congrArg ((0, x) :: ·) (List.map_congr_left (fun p _ => rfl))
    rw [hzip, List.length_cons, List.range_succ_eq_map, List.filterMap_cons,
      List.filterMap_cons, List.filterMap_map, List.filterMap_map]
    have htail : List.filterMap
        ((fun p : Nat × α => if c p.2 then some (u p.1) else none) ∘
          fun p => (p.1 + 1, p.2))
        ((List.range xs.length).zip xs) =
        List.filterMap
          ((fun i => if c ((x :: xs).getD i d) then some (u i) else none) ∘ Nat.succ)
          (List.range xs.length) :=
      (List.filterMap_congr (fun p _ => rfl)).trans
        ((ih (fun j => u (j + 1))).trans (List.filterMap_congr (fun i _ => rfl)))
    rw [htail]
    rfl

/-! ## Bracket update lemmas -/

theorem setGame_rounds_length (b : Bracket) (k : String) (i : Nat) (g : Game) :
    (setGame b k i g).rounds.length = b.rounds.length := by
  simp [setGame]

theorem getRound_congr_idx (b : Bracket) {k k' : String}
    (h : ROUND_KEYS.indexOf k = ROUND_KEYS.indexOf k') :
    b.getRound k = b.getRound k' := by
  simp [Bracket.getRound, h]

theorem getRound_setGame (b : Bracket) (k : String) (i : Nat) (g : Game)
    (k' : String) :
    (setGame b k i g).getRound k' =
      if ROUND_KEYS.indexOf k = ROUND_KEYS.indexOf k' ∧
          ROUND_KEYS.indexOf k' < b.rounds.length then
        (b.getRound k).set i g
      else b.getRound k' := by
  simp only [Bracket.getRound, setGame, list_getD_set]

theorem length_getRound_setGame (b : Bracket) (k : String) (i : Nat) (g : Game)
    (k' : String) :
    ((setGame b k i g).getRound k').length = (b.getRound k').length := by
  rw [getRound_setGame]
  split_ifs with h
  · rw [List.length_set, getRound_congr_idx b h.1]
  · rfl

theorem indexOf_inj_round_keys {k k' : String}
    (hk : ROUND_KEYS.indexOf k < ROUND_KEYS.length)
    (h : ROUND_KEYS.indexOf k = ROUND_KEYS.indexOf k') : k = k' := by
  have hk' : ROUND_KEYS.indexOf k' < ROUND_KEYS.length := h ▸ hk
  have h1 : ROUND_KEYS.get ⟨ROUND_KEYS.indexOf k, hk⟩ = k := List.indexOf_get hk
  have h2 : ROUND_KEYS.get ⟨ROUND_KEYS.indexOf k', hk'⟩ = k' := List.indexOf_get hk'
  rw [← h1, ← h2]
  congr 1
  exact Fin.ext h

theorem gameAt_setGame (b : Bracket) (k : String) (i : Nat) (g : Game)
    (k' : String) (i' : Nat) :
    gameAt (setGame b k i g) k' i' =
      if ROUND_KEYS.indexOf k = ROUND_KEYS.indexOf k' ∧
          ROUND_KEYS.indexOf k' < b.rounds.length ∧
          i = i' ∧ i' < (b.getRound k).length then
        g
      else gameAt b k' i' := by
  unfold gameAt
  rw [getRound_setGame]
  by_cases h1 : ROUND_KEYS.indexOf k = ROUND_KEYS.indexOf k' ∧
      ROUND_KEYS.indexOf k' < b.rounds.length
  · rw [if_pos h1, list_getD_set]
    by_cases h2 : i = i' ∧ i' < (b.getRound k).length
    · rw [if_pos h2, if_pos ⟨h1.1, h1.2, h2.1, h2.2⟩]
    · rw [if_neg h2, if_neg (by tauto), getRound_congr_idx b h1.1]
  · rw [if_neg h1, if_neg (by tauto)]

/-! ## Characterisation of `find_remaining_games` -/

theorem remaining_in_round_eq (b : Bracket) (rk : String) :
    remaining_in_round b rk =
      (List.range (b.getRound rk).length).filterMap
        (fun i => if get_winner_name (gameAt b rk i) = none then some (rk, i)
          else none) := by
  unfold remaining_in_round
  rw [List.enum_eq_zip_range,
    range_zip_filterMap (c := fun g => get_winner_name g = none)
      (d := defaultGame) (b.getRound rk) (fun i => (rk, i))]
  rfl

theorem mem_remaining_in_round {b : Bracket} {rk : String} {q : String × Nat} :
    q ∈ remaining_in_round b rk ↔
      q.1 = rk ∧ q.2 < (b.getRound rk).length ∧
        get_winner_name (gameAt b rk q.2) = none := by
  rw [remaining_in_round_eq, List.mem_filterMap]
  constructor
  · rintro ⟨i, hi, hopt⟩
    rw [List.mem_range] at hi
    split_ifs at hopt with hc
    cases hopt
    exact ⟨rfl, hi, hc⟩
  · rintro ⟨h1, h2, h3⟩
    refine ⟨q.2, List.mem_range.mpr h2, ?_⟩
    rw [← h1] at h3 ⊢
    rw [if_pos h3]

theorem find_remaining_eq_flatten (b : Bracket) :
    find_remaining_games b = (ROUND_KEYS.map (remaining_in_round b)).flatten := by
  unfold find_remaining_games
  rw [foldl_append_join]
  rfl

theorem mem_find_remaining {b : Bracket} {q : String × Nat} :
    q ∈ find_remaining_games b ↔
      q.1 ∈ ROUND_KEYS ∧ q.2 < (b.getRound q.1).length ∧
        get_winner_name (gameAt b q.1 q.2) = none := by
  rw [find_remaining_eq_flatten, List.mem_flatten]
  constructor
  · rintro ⟨l, hl, hq⟩
    rw [List.mem_map] at hl
    obtain ⟨rk, hrk, rfl⟩ := hl
    obtain ⟨h1, h2, h3⟩ := mem_remaining_in_round.mp hq
    subst h1
    exact ⟨hrk, h2, h3⟩
  · rintro ⟨h1, h2, h3⟩
    exact ⟨remaining_in_round b q.1, List.mem_map.mpr ⟨q.1, h1, rfl⟩,
      mem_remaining_in_round.mpr ⟨rfl, h2, h3⟩⟩

/-! ## Invariants of hypothetical-bracket construction -/

/-- Well-formedness of the results bracket at one remaining game: its
parent game (when it exists inside the bracket) is itself undecided.
This is the §3 bracket invariant that a decided game's feeders are
decided; it rules out propagation into an already-decided parent. -/
def parent_undecided (results : Bracket) (q : String × Nat) : Prop :=
  match get_parent_game_info q.1 q.2 with
  | none => True
  | some (pr, pi, _) =>
    pi < (results.getRound pr).length →
      get_winner_name (gameAt results pr pi) = none

instance parent_undecided_dec (results : Bracket) (q : String × Nat) :
    Decidable (parent_undecided results q) := by
  unfold parent_undecided
  rcases get_parent_game_info q.1 q.2 with _ | ⟨pr, pi, s⟩
  · exact isTrue trivial
  · dsimp only
    infer_instance

/-- Invariant carried through `create_hypothetical_bracket`'s loop: the
working bracket has the same shape as the results bracket and agrees with
it on every game that is not a remaining game. -/
def hypo_inv (results b : Bracket) : Prop :=
  b.rounds.length = results.rounds.length ∧
    (∀ k, (b.getRound k).length = (results.getRound k).length) ∧
    (∀ k i, (k, i) ∉ find_remaining_games results →
      gameAt b k i = gameAt results k i)

theorem hypo_inv_setGame {results b : Bracket} (hb : hypo_inv results b)
    {k : String} {i : Nat} (g : Game)
    (hmem : (k, i) ∈ find_remaining_games results) :
    hypo_inv results (setGame b k i g) := by
  obtain ⟨hlen, hround, hagree⟩ := hb
  refine ⟨by rw [setGame_rounds_length, hlen], fun k' => by
    rw [length_getRound_setGame, hround], fun k' i' hni => ?_⟩
  rw [gameAt_setGame]
  split_ifs with h
  · exfalso
    obtain ⟨hidx, _, hii, _⟩ := h
    have hkmem : k ∈ ROUND_KEYS := (mem_find_remaining.mp hmem).1
    have hklt : ROUND_KEYS.indexOf k < ROUND_KEYS.length :=
      List.indexOf_lt_length.mpr hkmem
    have : k = k' := indexOf_inj_round_keys hklt hidx
    exact hni (this ▸ hii ▸ hmem)
  · exact hagree k' i' hni

theorem parent_round_key_mem {rk : String} {gi : Nat} {pr : String} {pi slot : Nat}
    (hpar : get_parent_game_info rk gi = some (pr, pi, slot)) : pr ∈ ROUND_KEYS := by
  simp only [get_parent_game_info] at hpar
  split_ifs at hpar with hge
  cases hpar
  have hlt : ROUND_KEYS.indexOf rk + 1 < ROUND_KEYS.length := by
    simp only [ROUND_KEYS, List.length] at hge ⊢
    omega
  rw [List.getD_eq_getElem _ _ hlt]
  exact List.getElem_mem hlt

theorem apply_outcome_step_inv (results : Bracket) (outcome : Pat)
    (HW : ∀ q ∈ find_remaining_games results, parent_undecided results q)
    {b : Bracket} (j : Nat) (q : String × Nat)
    (hq : q ∈ find_remaining_games results) (hb : hypo_inv results b) :
    hypo_inv results (apply_outcome_step outcome b (j, q)) := by
  unfold apply_outcome_step
  dsimp only
  rcases h1 : (gameAt b q.1 q.2).team1 with _ | t1
  · exact hb
  rcases h2 : (gameAt b q.1 q.2).team2 with _ | t2
  · exact hb
  dsimp only
  set w := if outcome.getD j ' ' = '1' then t1 else t2 with hw
  have hb1 : hypo_inv results
      (setGame b q.1 q.2
        { team1 := some t1, team2 := some t2, winner := some w }) :=
    hypo_inv_setGame hb _ hq
  rcases hpar : get_parent_game_info q.1 q.2 with _ | ⟨pr, pi, slot⟩
  · exact hb1
  dsimp only
  have hparent_mem :
      pi < ((setGame b q.1 q.2
          { team1 := some t1, team2 := some t2, winner := some w }).getRound
            pr).length →
        (pr, pi) ∈ find_remaining_games results := by
    intro hg2
    apply mem_find_remaining.mpr
    have hlen : pi < (results.getRound pr).length := by
      rw [← hb1.2.1 pr]; exact hg2
    refine ⟨parent_round_key_mem hpar, hlen, ?_⟩
    have := HW q hq
    unfold parent_undecided at this
    rw [hpar] at this
    exact this hlen
  split_ifs with hg1 hg2 hslot
  · exact hypo_inv_setGame hb1 _ (hparent_mem hg2)
  · exact hypo_inv_setGame hb1 _ (hparent_mem hg2)
  · exact hb1
  · exact hb1

theorem create_hypothetical_inv (results : Bracket) (outcome : Pat)
    (HW : ∀ q ∈ find_remaining_games results, parent_undecided results q) :
    hypo_inv results
      (create_hypothetical_bracket results (find_remaining_games results) outcome) := by
  unfold create_hypothetical_bracket
  have hfold : hypo_inv results
      ((find_remaining_games results).enum.foldl (apply_outcome_step outcome) results) := by
    apply foldl_preserves (hypo_inv results)
    · exact ⟨rfl, fun _ => rfl, fun _ _ _ => rfl⟩
    · intro x hx b hb
      have hx2 : x.2 ∈ find_remaining_games results := by
        rw [List.enum_eq_zip_range] at hx
        exact (List.of_mem_zip hx).2
      have := apply_outcome_step_inv results outcome HW x.1 x.2 hx2 hb
      simpa using this
  exact ⟨hfold.1, hfold.2.1, hfold.2.2⟩

/-! ## Scoring equivalence (C1) -/

theorem score_game_no_winner (cfg : ScoringConfig) (td : TeamsData) (a : Bool)
    (r : Nat) (rg pg : Game) (h : get_winner_name rg = none) :
    score_game cfg td a r rg pg = (0, 0, 0) := by
  unfold score_game
  rw [h]

theorem delta_game_eq_score_game (cfg : ScoringConfig) (td : TeamsData) (a : Bool)
    (r : Nat) (hg pg : Game) :
    delta_game cfg td a r hg pg = (score_game cfg td a r hg pg).1 := by
  unfold delta_game score_game
  cases h1 : get_winner_name hg <;> cases h2 : get_winner_name pg <;>
    simp only [h1, h2] <;>
    first
      | rfl
      | (split_ifs <;> rfl)

/-- The per-element contribution of `compute_score_delta`'s loop. -/
def dstep (cfg : ScoringConfig) (td : TeamsData) (apply_seed_bonus : Bool)
    (hypothetical_bracket picks_bracket : Bracket) (q : String × Nat) : Int :=
  if q.2 ≥ (picks_bracket.getRound q.1).length then 0
  else delta_game cfg td apply_seed_bonus (ROUND_KEYS.indexOf q.1 + 1)
    (gameAt hypothetical_bracket q.1 q.2)
    ((picks_bracket.getRound q.1).getD q.2 defaultGame)

theorem compute_score_delta_eq_sum (cfg : ScoringConfig) (td : TeamsData)
    (hb pb : Bracket) (a : Bool) (l : List (String × Nat)) :
    compute_score_delta cfg td hb pb a l =
      (l.map (dstep cfg td a hb pb)).sum := by
  suffices h : ∀ (l : List (String × Nat)) (acc : Int),
      l.foldl (fun delta q =>
        let round_num := ROUND_KEYS.indexOf q.1 + 1
        let picks_round := pb.getRound q.1
        if q.2 ≥ picks_round.length then delta
        else delta + delta_game cfg td a round_num
          (gameAt hb q.1 q.2) (picks_round.getD q.2 defaultGame)) acc =
        acc + (l.map (dstep cfg td a hb pb)).sum by
    have h0 := h l 0
    unfold compute_score_delta
    rw [h0]
    ring
  intro l
  induction l with
  | nil => intro acc; simp
  | cons x xs ih =>
    intro acc
    rw [List.foldl_cons, ih]
    dsimp only
    by_cases hc : x.2 ≥ (pb.getRound x.1).length
    · rw [if_pos hc]
      simp only [List.map_cons, List.sum_cons, dstep, if_pos hc]
      ring
    · rw [if_neg hc]
      simp only [List.map_cons, List.sum_cons, dstep, if_neg hc]
      ring

theorem per_round_equivalence (cfg : ScoringConfig) (td : TeamsData) (a : Bool)
    (results picks hypo : Bracket) (hinv : hypo_inv results hypo)
    (rk : String) (round_num : Nat)
    (hidx : ROUND_KEYS.indexOf rk + 1 = round_num) :
    (score_round cfg td a round_num (hypo.getRound rk) (picks.getRound rk)).1 =
      (score_round cfg td a round_num (results.getRound rk) (picks.getRound rk)).1 +
        ((remaining_in_round results rk).map (dstep cfg td a hypo picks)).sum := by
  have hlen : (hypo.getRound rk).length = (results.getRound rk).length :=
    hinv.2.1 rk
  have hsr : ∀ R : List Game,
      (score_round cfg td a round_num R (picks.getRound rk)).1 =
        ((List.range (min R.length (picks.getRound rk).length)).map
          (fun i => (score_game cfg td a round_num (R.getD i defaultGame)
            ((picks.getRound rk).getD i defaultGame)).1)).sum := by
    intro R
    unfold score_round
    rw [foldl_addT_fst
      (fun gp : Game × Game => score_game cfg td a round_num gp.1 gp.2)]
    rw [map_zip_range
      (fun g1 g2 => (score_game cfg td a round_num g1 g2).1) defaultGame defaultGame]
    ring
  have hd : ((remaining_in_round results rk).map (dstep cfg td a hypo picks)).sum =
      ((List.range (min (results.getRound rk).length
          (picks.getRound rk).length)).map
        (fun i => if get_winner_name ((results.getRound rk).getD i defaultGame) = none
          then (score_game cfg td a round_num
            ((hypo.getRound rk).getD i defaultGame)
            ((picks.getRound rk).getD i defaultGame)).1
          else 0)).sum := by
    rw [remaining_in_round_eq, sum_filterMap_int]
    have hpoint : ∀ i ∈ List.range (results.getRound rk).length,
        (((if get_winner_name (gameAt results rk i) = none then some (rk, i)
            else none).map (dstep cfg td a hypo picks)).getD 0) =
          if i < (picks.getRound rk).length then
            (if get_winner_name ((results.getRound rk).getD i defaultGame) = none
              then (score_game cfg td a round_num
                ((hypo.getRound rk).getD i defaultGame)
                ((picks.getRound rk).getD i defaultGame)).1
              else 0)
          else 0 := by
      intro i _
      by_cases hwn : get_winner_name (gameAt results rk i) = none
      · rw [if_pos hwn, Option.map_some', Option.getD_some]
        unfold dstep
        dsimp only
        by_cases hp : i < (picks.getRound rk).length
        · rw [if_neg (by omega), if_pos hp]
          have hgw : get_winner_name ((results.getRound rk).getD i defaultGame) = none := hwn
          rw [if_pos hgw, hidx, delta_game_eq_score_game]
          rfl
        · rw [if_pos (by omega), if_neg hp]
      · rw [if_neg hwn, Option.map_none', Option.getD_none]
        have hgw : ¬ get_winner_name ((results.getRound rk).getD i defaultGame) = none := hwn
        by_cases hp : i < (picks.getRound rk).length
        · rw [if_pos hp, if_neg hgw]
        · rw [if_neg hp]
    rw [List.map_congr_left hpoint]
    rw [sum_range_cut]
  rw [hsr, hsr, hd, hlen]
  have hpt : ∀ i ∈ List.range (min (results.getRound rk).length
      (picks.getRound rk).length),
      (score_game cfg td a round_num ((hypo.getRound rk).getD i defaultGame)
        ((picks.getRound rk).getD i defaultGame)).1 =
      (score_game cfg td a round_num ((results.getRound rk).getD i defaultGame)
        ((picks.getRound rk).getD i defaultGame)).1 +
      (if get_winner_name ((results.getRound rk).getD i defaultGame) = none
        then (score_game cfg td a round_num
          ((hypo.getRound rk).getD i defaultGame)
          ((picks.getRound rk).getD i defaultGame)).1
        else 0) := by
    intro i hi
    rw [List.mem_range] at hi
    by_cases hwn : get_winner_name ((results.getRound rk).getD i defaultGame) = none
    · rw [if_pos hwn, score_game_no_winner cfg td a round_num _ _ hwn]
      ring_nf
    · rw [if_neg hwn]
      have hnotmem : (rk, i) ∉ find_remaining_games results := by
        intro hmem
        exact hwn (mem_find_remaining.mp hmem).2.2
      have hag : gameAt hypo rk i = gameAt results rk i :=
        hinv.2.2 rk i hnotmem
      unfold gameAt at hag
      rw [hag]
      ring
  rw [List.map_congr_left hpt, sum_map_add_int]

/-- C1: for every hypothetical bracket obtained by completing the results
bracket according to a {0,1} outcome string, and every picks bracket, the
full score `compute_score(hypothetical, picks)` equals the base score
`compute_score(results, picks)` plus
`compute_score_delta(hypothetical, picks, remaining_games)` over the
undetermined games, with the seed bonus uniformly enabled or disabled
(star bonuses play no part on either side).  The results bracket is
assumed to satisfy the §3 structural invariant that the parent of an
undecided game is itself undecided (`parent_undecided`). -/
theorem scoring_equivalence (cfg : ScoringConfig) (td : TeamsData) (a : Bool)
    (results picks : Bracket) (outcome : Pat)
    (hlen : outcome.length = (find_remaining_games results).length)
    (hbits : ∀ c ∈ outcome, c = '0' ∨ c = '1')
    (HW : ∀ q ∈ find_remaining_games results, parent_undecided results q) :
    (compute_score cfg td
        (create_hypothetical_bracket results (find_remaining_games results) outcome)
        picks a).1 =
      (compute_score cfg td results picks a).1 +
        compute_score_delta cfg td
          (create_hypothetical_bracket results (find_remaining_games results) outcome)
          picks a (find_remaining_games results) := by
  have hinv := create_hypothetical_inv results outcome HW
  set hypo := create_hypothetical_bracket results (find_remaining_games results) outcome
    with hhypo
  have hcs : ∀ b : Bracket, (compute_score cfg td b picks a).1 =
      ((ROUND_KEYS.enum).map (fun q => (score_round cfg td a (q.1 + 1)
        (b.getRound q.2) (picks.getRound q.2)).1)).sum := by
    intro b
    unfold compute_score
    rw [foldl_addT_fst]
    ring
  rw [hcs, hcs, compute_score_delta_eq_sum, find_remaining_eq_flatten]
  have henum : ROUND_KEYS.enum = [(0, "round1"), (1, "round2"), (2, "round3"),
      (3, "round4"), (4, "round5"), (5, "round6")] := rfl
  have hkeys : ROUND_KEYS = ["round1", "round2", "round3", "round4", "round5",
    "round6"] := rfl
  rw [henum, hkeys]
  simp only [List.map_cons, List.map_nil, List.sum_cons, List.sum_nil,
    List.flatten_cons, List.flatten_nil, List.map_append, List.sum_append,
    List.append_nil]
  rw [per_round_equivalence cfg td a results picks hypo hinv "round1" (0 + 1) (by decide),
    per_round_equivalence cfg td a results picks hypo hinv "round2" (1 + 1) (by decide),
    per_round_equivalence cfg td a results picks hypo hinv "round3" (2 + 1) (by decide),
    per_round_equivalence cfg td a results picks hypo hinv "round4" (3 + 1) (by decide),
    per_round_equivalence cfg td a results picks hypo hinv "round5" (4 + 1) (by decide),
    per_round_equivalence cfg td a results picks hypo hinv "round6" (5 + 1) (by decide)]
  ring

/-! ## Probability model (C6) -/

/-- The seed-based probability table (`SEED_PROBABILITIES`, loaded from
`seed_probabilities.csv`), modelled as an explicit parameter instead of a
module-level global. -/
def SeedProbs := List (Int × List (String × ℚ))

/-- `get_seed_probability`: probability for a seed reaching a round, or
`None` when the table or the entry is missing. -/
def get_seed_probability (sp : SeedProbs) (seed : Int) (prob_column : String) :
    Option ℚ :=
  match sp with
  | [] => none
  | _ =>
    match sp.find? (fun p => p.1 = seed) with
    | some row => alookup row.2 prob_column
    | none => none

/-- The `rounds_needed` map of `get_team_probability` (rounds from R64,
used for the 50/50 fallback). -/
def rounds_needed : List (String × Nat) :=
  [("prob_r32", 1), ("prob_r16", 2), ("prob_r8", 3), ("prob_r4", 4),
   ("prob_r2", 5), ("prob_win", 6)]

/-- `get_team_probability`: probability value from the team table, else
the seed-based fallback, else the `(1/2)^k` uniform default. -/
def get_team_probability (sp : SeedProbs) (team_name : String)
    (prob_column : String) (teams_data : TeamsData) : ℚ :=
  let default_prob : ℚ := (1 / 2) ^ ((alookup rounds_needed prob_column).getD 1)
  match alookup teams_data team_name with
  | some team_row =>
    match alookup team_row.probs prob_column with
    | some v => v
    | none =>
      if team_row.seed ≠ 0 then
        match get_seed_probability sp team_row.seed prob_column with
        | some v => v
        | none => default_prob
      else default_prob
  | none => default_prob

/-- One loser factor of `calculate_outcome_probability`'s round loops:
`loser = team2 if winner == team1 else team1`, multiplied only when the
loser's name is present. -/
def round_loser_factor (sp : SeedProbs) (td : TeamsData) (prob_column : String)
    (game : Game) : ℚ :=
  let winner := get_team_name game.winner
  let team1 := get_team_name game.team1
  let team2 := get_team_name game.team2
  let loser := if winner = team1 then team2 else team1
  match loser with
  | some nm => get_team_probability sp nm prob_column td
  | none => 1

/-- `calculate_outcome_probability`: probability of a completed bracket
outcome (champion's `prob_win`, championship loser's `prob_r2`, then the
losers of rounds 5, 4, 3, 2; round-1 losers contribute nothing). -/
def calculate_outcome_probability (sp : SeedProbs)
    (hypothetical_bracket : Bracket) (teams_data : TeamsData) : ℚ :=
  let p0 : ℚ := 1
  let p1 := match get_team_name hypothetical_bracket.winner with
    | some winner_name =>
      p0 * get_team_probability sp winner_name "prob_win" teams_data
    | none => p0
  let p2 := match (hypothetical_bracket.getRound "round6").head? with
    | some final_game => p1 * round_loser_factor sp teams_data "prob_r2" final_game
    | none => p1
  let p3 := (hypothetical_bracket.getRound "round5").foldl
    (fun p game => p * round_loser_factor sp teams_data "prob_r4" game) p2
  let p4 := (hypothetical_bracket.getRound "round4").foldl
    (fun p game => p * round_loser_factor sp teams_data "prob_r8" game) p3
  let p5 := (hypothetical_bracket.getRound "round3").foldl
    (fun p game => p * round_loser_factor sp teams_data "prob_r16" game) p4
  (hypothetical_bracket.getRound "round2").foldl
    (fun p game => p * round_loser_factor sp teams_data "prob_r32" game) p5

/-- The loser of a game, read off the spec's way: the team that reached
the game but is not its winner. -/
def spec_game_loser (game : Game) : Option String :=
  if get_team_name game.winner = get_team_name game.team2 then
    get_team_name game.team1
  else get_team_name game.team2

/-- The spec's §4.4 outcome-probability formula:
`P_win(champion) × P_r2(runner-up) × Π P_r4(round-5 losers) ×
Π P_r8(round-4 losers) × Π P_r16(round-3 losers) × Π P_r32(round-2
losers)`, with round-of-64 losers contributing no factor and each lookup
going through the `get_team_probability` fallback chain. -/
def spec_outcome_probability (sp : SeedProbs) (b : Bracket) (td : TeamsData) : ℚ :=
  let champion := (get_team_name b.winner).getD ""
  let final := (b.getRound "round6").getD 0 defaultGame
  let runner_up := (spec_game_loser final).getD ""
  get_team_probability sp champion "prob_win" td *
    get_team_probability sp runner_up "prob_r2" td *
    ((b.getRound "round5").map
      (fun g => get_team_probability sp ((spec_game_loser g).getD "") "prob_r4" td)).prod *
    ((b.getRound "round4").map
      (fun g => get_team_probability sp ((spec_game_loser g).getD "") "prob_r8" td)).prod *
    ((b.getRound "round3").map
      (fun g => get_team_probability sp ((spec_game_loser g).getD "") "prob_r16" td)).prod *
    ((b.getRound "round2").map
      (fun g => get_team_probability sp ((spec_game_loser g).getD "") "prob_r32" td)).prod

theorem foldl_mul_rat {α : Type} (f : α → ℚ) :
    ∀ (l : List α) (acc : ℚ),
      l.foldl (fun p x => p * f x) acc = acc * (l.map f).prod := by
  intro l
  induction l with
  | nil => intro acc; simp
  | cons x xs ih =>
    intro acc
    rw [List.foldl_cons, ih]
    simp only [List.map_cons, List.prod_cons]
    ring

/-- A game is properly decided: both team names present and distinct and
the winner is one of the two teams. -/
def properly_decided (g : Game) : Prop :=
  (get_team_name g.team1).isSome ∧ (get_team_name g.team2).isSome ∧
    get_team_name g.team1 ≠ get_team_name g.team2 ∧
    (get_team_name g.winner = get_team_name g.team1 ∨
      get_team_name g.winner = get_team_name g.team2)

instance properly_decided_dec (g : Game) : Decidable (properly_decided g) := by
  unfold properly_decided
  infer_instance

theorem loser_factor_eq (sp : SeedProbs) (td : TeamsData) (col : String)
    (g : Game) (h : properly_decided g) :
    round_loser_factor sp td col g =
      get_team_probability sp ((spec_game_loser g).getD "") col td := by
  obtain ⟨h1, h2, hne, hw⟩ := h
  unfold round_loser_factor spec_game_loser
  dsimp only
  rcases hw with hw | hw
  · rw [if_pos hw, if_neg (by rw [hw]; exact hne)]
    obtain ⟨n2, hn2⟩ := Option.isSome_iff_exists.mp h2
    rw [hn2]
    rfl
  · rw [if_pos hw]
    have hne1 : ¬ get_team_name g.winner = get_team_name g.team1 := by
      rw [hw]; exact fun hc => hne hc.symm
    rw [if_neg hne1]
    obtain ⟨n1, hn1⟩ := Option.isSome_iff_exists.mp h1
    rw [hn1]
    rfl

/-- C6: on a fully decided bracket (champion set, exactly one
championship game, every game of rounds 2-6 properly decided),
`calculate_outcome_probability` equals the spec's product formula, each
lookup using the `get_team_probability` fallback chain. -/
theorem outcome_probability_formula (sp : SeedProbs) (td : TeamsData)
    (b : Bracket) (hch : (get_team_name b.winner).isSome)
    (fg : Game) (hr6 : b.getRound "round6" = [fg])
    (hgames : ∀ rk ∈ ["round2", "round3", "round4", "round5", "round6"],
      ∀ g ∈ b.getRound rk, properly_decided g) :
    calculate_outcome_probability sp b td = spec_outcome_probability sp b td := by
  obtain ⟨ch, hchn⟩ := Option.isSome_iff_exists.mp hch
  unfold calculate_outcome_probability spec_outcome_probability
  rw [hchn, hr6]
  dsimp only
  simp only [List.head?_cons, List.getD_cons_zero]
  rw [foldl_mul_rat, foldl_mul_rat, foldl_mul_rat, foldl_mul_rat]
  have hprod : ∀ rk ∈ ["round2", "round3", "round4", "round5", "round6"],
      ∀ col : String,
      ((b.getRound rk).map (round_loser_factor sp td col)) =
        ((b.getRound rk).map
          (fun g => get_team_probability sp ((spec_game_loser g).getD "") col td)) := by
    intro rk hrk col
    apply List.map_congr_left
    intro g hg
    exact loser_factor_eq sp td col g (hgames rk hrk g hg)
  have hfg : round_loser_factor sp td "prob_r2" fg =
      get_team_probability sp ((spec_game_loser fg).getD "") "prob_r2" td :=
    loser_factor_eq sp td "prob_r2" fg
      (hgames "round6" (by simp) fg (by rw [hr6]; simp))
  rw [hprod "round2" (by simp), hprod "round3" (by simp),
    hprod "round4" (by simp), hprod "round5" (by simp), hfg]
  simp only [Option.getD_some]
  ring

/-- Witness for C6 at a concrete completed two-round bracket. -/
theorem outcome_probability_formula_witness :
    calculate_outcome_probability []
      ⟨[[], [], [], [],
        [⟨some ⟨"A", 1⟩, some ⟨"B", 4⟩, some ⟨"A", 1⟩⟩,
         ⟨some ⟨"C", 2⟩, some ⟨"D", 3⟩, some ⟨"C", 2⟩⟩],
        [⟨some ⟨"A", 1⟩, some ⟨"C", 2⟩, some ⟨"C", 2⟩⟩]], some ⟨"C", 2⟩⟩ [] =
    spec_outcome_probability []
      ⟨[[], [], [], [],
        [⟨some ⟨"A", 1⟩, some ⟨"B", 4⟩, some ⟨"A", 1⟩⟩,
         ⟨some ⟨"C", 2⟩, some ⟨"D", 3⟩, some ⟨"C", 2⟩⟩],
        [⟨some ⟨"A", 1⟩, some ⟨"C", 2⟩, some ⟨"C", 2⟩⟩]], some ⟨"C", 2⟩⟩ [] :=
  outcome_probability_formula [] []
    ⟨[[], [], [], [],
      [⟨some ⟨"A", 1⟩, some ⟨"B", 4⟩, some ⟨"A", 1⟩⟩,
       ⟨some ⟨"C", 2⟩, some ⟨"D", 3⟩, some ⟨"C", 2⟩⟩],
      [⟨some ⟨"A", 1⟩, some ⟨"C", 2⟩, some ⟨"C", 2⟩⟩]], some ⟨"C", 2⟩⟩
    (by decide) ⟨some ⟨"A", 1⟩, some ⟨"C", 2⟩, some ⟨"C", 2⟩⟩ (by decide)
    (by decide)

/-! ## Outcome decoding (C5) -/

/-- A decoded game result of `decode_outcome_to_games`. -/
structure DGameResult where
  round : Nat
  roundKey : String
  gameIndex : Nat
  team1 : Option String
  team2 : Option String
  winner : Option String
  loser : Option String
  team1Seed : Option Int
  team2Seed : Option Int
  winnerSeed : Option Int
deriving DecidableEq, Repr

/-- One iteration of `decode_outcome_to_games`' loop (`'1'` means team1
wins): record the game result and propagate the winner. -/
def decode_outcome_step (outcome_string : Pat)
    (st : Bracket × List DGameResult) (q : Nat × String × Nat) :
    Bracket × List DGameResult :=
  let game := gameAt st.1 q.2.1 q.2.2
  match game.team1, game.team2 with
  | some t1, some t2 =>
    let winner := if outcome_string.getD q.1 ' ' = '1' then t1 else t2
    let loser := if outcome_string.getD q.1 ' ' = '1' then t2 else t1
    let b1 := setGame st.1 q.2.1 q.2.2 { game with winner := some winner }
    let res : DGameResult :=
      { round := ROUND_KEYS.indexOf q.2.1 + 1
        roundKey := q.2.1
        gameIndex := q.2.2
        team1 := get_team_name (some t1)
        team2 := get_team_name (some t2)
        winner := get_team_name (some winner)
        loser := get_team_name (some loser)
        team1Seed := some t1.seed
        team2Seed := some t2.seed
        winnerSeed := some winner.seed }
    let acc := st.2 ++ [res]
    match get_parent_game_info q.2.1 q.2.2 with
    | none => (b1, acc)
    | some (parent_round, parent_index, slot) =>
      if ROUND_KEYS.indexOf parent_round < b1.rounds.length then
        if parent_index < (b1.getRound parent_round).length then
          let parent_game := gameAt b1 parent_round parent_index
          if slot = 0 then
            (setGame b1 parent_round parent_index
              { parent_game with team1 := some winner }, acc)
          else
            (setGame b1 parent_round parent_index
              { parent_game with team2 := some winner }, acc)
        else (b1, acc)
      else (b1, acc)
  | _, _ => st

/-- `decode_outcome_to_games`: decode a `{0,1}` outcome string into a
list of per-game results (`'1'` means team1 wins). -/
def decode_outcome_to_games (results_bracket : Bracket)
    (remaining_games : List (String × Nat)) (outcome_string : Pat) :
    List DGameResult :=
  (remaining_games.enum.foldl (decode_outcome_step outcome_string)
    (results_bracket, [])).2

/-- A team value as it flows through `decode_merged_outcome_to_games`:
either a plain team record or a combined "either" pseudo-team built for a
wildcard position (name and seed are `/`-joined strings there). -/
inductive PTeam where
  | plain (t : Team)
  | combined (name : String) (seedStr : String) (teams : List String)
      (seeds : List Int)
deriving DecidableEq, Repr

/-- A seed as reported by `decode_merged_outcome_to_games`: an integer
for plain teams, a joined string for combined ones. -/
inductive SeedV where
  | int (i : Int)
  | str (s : String)
deriving DecidableEq, Repr

/-- A game slot of the working bracket inside
`decode_merged_outcome_to_games`. -/
structure PGame where
  team1 : Option PTeam
  team2 : Option PTeam
  winner : Option PTeam
deriving DecidableEq, Repr

/-- The working bracket of `decode_merged_outcome_to_games` (the deep
copy whose slots may hold combined teams). -/
structure PBracket where
  rounds : List (List PGame)
deriving DecidableEq, Repr

def defaultPGame : PGame := ⟨none, none, none⟩

def PBracket.getRound (b : PBracket) (key : String) : List PGame :=
  b.rounds.getD (ROUND_KEYS.indexOf key) []

def pGameAt (b : PBracket) (key : String) (i : Nat) : PGame :=
  (b.getRound key).getD i defaultPGame

def pSetGame (b : PBracket) (key : String) (i : Nat) (g : PGame) : PBracket :=
  ⟨b.rounds.set (ROUND_KEYS.indexOf key) ((b.getRound key).set i g)⟩

def Game.toP (g : Game) : PGame :=
  ⟨g.team1.map PTeam.plain, g.team2.map PTeam.plain, g.winner.map PTeam.plain⟩

def Bracket.toP (b : Bracket) : PBracket :=
  ⟨b.rounds.map (fun r => r.map Game.toP)⟩

/-- `get_combined_name` of `decode_merged_outcome_to_games`. -/
def get_combined_name : Option PTeam → Option String
  | none => none
  | some (PTeam.plain t) => get_team_name (some t)
  | some (PTeam.combined nm _ _ _) => some nm

/-- `get_combined_seed` of `decode_merged_outcome_to_games`. -/
def get_combined_seed : Option PTeam → Option SeedV
  | none => none
  | some (PTeam.plain t) => some (SeedV.int t.seed)
  | some (PTeam.combined _ seedStr _ _) => some (SeedV.str seedStr)

/-- `team.get('either_teams')` truthiness: a combined team with a
non-empty team list. -/
def PTeam.isEither : PTeam → Bool
  | PTeam.plain _ => false
  | PTeam.combined _ _ ts _ => ts ≠ []

/-- `team.get('either_teams', [get_team_name(team)])`.  A plain record's
name is non-null in any loadable bracket (Python would crash joining
`None` otherwise). -/
def PTeam.eitherNames : PTeam → List String
  | PTeam.plain t => [t.name]
  | PTeam.combined _ _ ts _ => ts

/-- `team.get('either_seeds', [team.get('seed')])`. -/
def PTeam.eitherSeeds : PTeam → List Int
  | PTeam.plain t => [t.seed]
  | PTeam.combined _ _ _ ss => ss

/-- A decoded game result of `decode_merged_outcome_to_games` (absent
dict keys are `none`/`false`). -/
structure MGameResult where
  round : Nat
  roundKey : String
  gameIndex : Nat
  team1 : Option String
  team2 : Option String
  winner : Option String
  loser : Option String := none
  dead : Bool := false
  either : Bool
  team1Seed : Option SeedV
  team2Seed : Option SeedV
  winnerSeed : Option SeedV := none
  team1IsEither : Bool
  team2IsEither : Bool
  winnerIsEither : Bool := false
  winnerEitherTeams : Option (List String) := none
deriving DecidableEq, Repr

/-- One iteration of `decode_merged_outcome_to_games`' loop.  Note the
character convention used here: `'0'` selects team1 as winner and the
final branch (`'1'`) selects team2. -/
def decode_merged_step (outcome_string : Pat)
    (st : PBracket × List MGameResult) (q : Nat × String × Nat) :
    PBracket × List MGameResult :=
  let game := pGameAt st.1 q.2.1 q.2.2
  match game.team1, game.team2 with
  | some t1, some t2 =>
    let outcome_char := outcome_string.getD q.1 ' '
    let team1_is_either := t1.isEither
    let team2_is_either := t2.isEither
    if outcome_char = 'D' then
      let res : MGameResult :=
        { round := ROUND_KEYS.indexOf q.2.1 + 1
          roundKey := q.2.1
          gameIndex := q.2.2
          team1 := get_combined_name (some t1)
          team2 := get_combined_name (some t2)
          winner := some "dead"
          dead := true
          either := false
          team1Seed := get_combined_seed (some t1)
          team2Seed := get_combined_seed (some t2)
          team1IsEither := team1_is_either
          team2IsEither := team2_is_either }
      decode_merged_propagate st.1 (st.2 ++ [res]) q.2.1 q.2.2 t1
    else if outcome_char = 'X' then
      let res : MGameResult :=
        { round := ROUND_KEYS.indexOf q.2.1 + 1
          roundKey := q.2.1
          gameIndex := q.2.2
          team1 := get_combined_name (some t1)
          team2 := get_combined_name (some t2)
          winner := some "either"
          either := true
          team1Seed := get_combined_seed (some t1)
          team2Seed := get_combined_seed (some t2)
          team1IsEither := team1_is_either
          team2IsEither := team2_is_either }
      let all_teams := t1.eitherNames ++ t2.eitherNames
      let all_seeds := t1.eitherSeeds ++ t2.eitherSeeds
      let winner := PTeam.combined (String.intercalate "/" all_teams)
        (String.intercalate "/" ((all_seeds.filter (· ≠ 0)).map toString))
        all_teams all_seeds
      decode_merged_propagate st.1 (st.2 ++ [res]) q.2.1 q.2.2 winner
    else if outcome_char = '0' then
      let res : MGameResult :=
        { round := ROUND_KEYS.indexOf q.2.1 + 1
          roundKey := q.2.1
          gameIndex := q.2.2
          team1 := get_combined_name (some t1)
          team2 := get_combined_name (some t2)
          winner := get_combined_name (some t1)
          loser := get_combined_name (some t2)
          either := false
          team1Seed := get_combined_seed (some t1)
          team2Seed := get_combined_seed (some t2)
          winnerSeed := get_combined_seed (some t1)
          team1IsEither := team1_is_either
          team2IsEither := team2_is_either
          winnerIsEither := team1_is_either
          winnerEitherTeams :=
            if team1_is_either then some t1.eitherNames else none }
      decode_merged_propagate st.1 (st.2 ++ [res]) q.2.1 q.2.2 t1
    else
      let res : MGameResult :=
        { round := ROUND_KEYS.indexOf q.2.1 + 1
          roundKey := q.2.1
          gameIndex := q.2.2
          team1 := get_combined_name (some t1)
          team2 := get_combined_name (some t2)
          winner := get_combined_name (some t2)
          loser := get_combined_name (some t1)
          either := false
          team1Seed := get_combined_seed (some t1)
          team2Seed := get_combined_seed (some t2)
          winnerSeed := get_combined_seed (some t2)
          team1IsEither := team1_is_either
          team2IsEither := team2_is_either
          winnerIsEither := team2_is_either
          winnerEitherTeams :=
            if team2_is_either then some t2.eitherNames else none }
      decode_merged_propagate st.1 (st.2 ++ [res]) q.2.1 q.2.2 t2
  | _, _ => st
where
  /-- Propagate the selected winner into the parent slot. -/
  decode_merged_propagate (b : PBracket) (acc : List MGameResult)
      (round_key : String) (game_index : Nat) (winner : PTeam) :
      PBracket × List MGameResult :=
    match get_parent_game_info round_key game_index with
    | none => (b, acc)
    | some (parent_round, parent_index, slot) =>
      if ROUND_KEYS.indexOf parent_round < b.rounds.length then
        if parent_index < (b.getRound parent_round).length then
          let parent_game := pGameAt b parent_round parent_index
          if slot = 0 then
            (pSetGame b parent_round parent_index
              { parent_game with team1 := some winner }, acc)
          else
            (pSetGame b parent_round parent_index
              { parent_game with team2 := some winner }, acc)
        else (b, acc)
      else (b, acc)

/-- `decode_merged_outcome_to_games`: decode a merged outcome string
(possibly containing `X`/`D`) into a list of per-game results. -/
def decode_merged_outcome_to_games (results_bracket : Bracket)
    (remaining_games : List (String × Nat)) (outcome_string : Pat) :
    List MGameResult :=
  (remaining_games.enum.foldl (decode_merged_step outcome_string)
    (results_bracket.toP, [])).2

/-- The championship-only bracket used to exhibit the decoding
convention mismatch. -/
def conventionFixture : Bracket :=
  ⟨[[], [], [], [], [], [⟨some ⟨"A", 1⟩, some ⟨"B", 2⟩, none⟩]], none⟩

/-- C5: the outcome-string conventions disagree.  On the same one-game
bracket and the wildcard-free outcome string "1",
`create_hypothetical_bracket` and `decode_outcome_to_games` make team1
("A") the winner, while `decode_merged_outcome_to_games` reports team2
("B") — the fixed-convention consistency the spec requires fails. -/
theorem outcome_convention_mismatch :
    (decode_merged_outcome_to_games conventionFixture [("round6", 0)] ['1']).map
        (fun r => r.winner) = [some "B"] ∧
    get_winner_name
        (gameAt (create_hypothetical_bracket conventionFixture [("round6", 0)] ['1'])
          "round6" 0) = some "A" ∧
    (decode_outcome_to_games conventionFixture [("round6", 0)] ['1']).map
        (fun r => r.winner) = [some "A"] := by
  refine ⟨?_, ?_, ?_⟩ <;> rfl

/-! ## Next-game conditional preferences (C9) -/

/-- A participant's raw outcome mass map: outcome string → accumulated
probability (insertion-ordered dict). -/
abbrev OutcomeMap := List (Pat × ℚ)

/-- The spec's numerator/denominator mass for the result "team1 wins this
game" (`outcome[position] = '1'`). -/
def mass_team1 (m : OutcomeMap) (position : Nat) : ℚ :=
  (m.map (fun op =>
    if position < op.1.length ∧ op.1.getD position ' ' = '1' then op.2 else 0)).sum

/-- The spec's mass for the result "team2 wins this game" (any character
other than `'1'` at the position). -/
def mass_team2 (m : OutcomeMap) (position : Nat) : ℚ :=
  (m.map (fun op =>
    if position < op.1.length ∧ op.1.getD position ' ' ≠ '1' then op.2 else 0)).sum

/-- The first pass of `compute_next_game_preferences`' per-game body:
each participant's (team1, team2) numerator masses at the position, with
the explicit zero short-circuit for an empty outcome dict. -/
def participant_masses (raw_outcomes : List (String × OutcomeMap))
    (position : Nat) : List (String × ℚ × ℚ) :=
  raw_outcomes.map (fun p =>
    match p.2 with
    | [] => (p.1, (0 : ℚ), (0 : ℚ))
    | outcomes =>
      (p.1,
       (outcomes.map (fun op : Pat × ℚ =>
         if position < op.1.length then
           if op.1.getD position ' ' = '1' then op.2 else 0
         else 0)).sum,
       (outcomes.map (fun op : Pat × ℚ =>
         if position < op.1.length then
           if op.1.getD position ' ' = '1' then 0 else op.2
         else 0)).sum))

/-- The per-game body of `compute_next_game_preferences`: the three
passes computing, for one playable game's outcome-string position, each
participant's numerators, the across-participants denominators, and the
conditional probabilities (`none` when both denominators are non-positive). -/
def next_game_preferences_at (raw_outcomes : List (String × OutcomeMap))
    (position : Nat) : List (String × Option (ℚ × ℚ)) :=
  let participant_probs := participant_masses raw_outcomes position
  let total_team1_prob := (participant_probs.map (fun t => t.2.1)).sum
  let total_team2_prob := (participant_probs.map (fun t => t.2.2)).sum
  participant_probs.map (fun t =>
    if 0 < total_team1_prob ∨ 0 < total_team2_prob then
      (t.1, some
        ((if 0 < total_team1_prob then t.2.1 / total_team1_prob else 0),
         (if 0 < total_team2_prob then t.2.2 / total_team2_prob else 0)))
    else (t.1, none))

/-- Per-game preference data of `compute_next_game_preferences`. -/
structure GamePrefs where
  team1 : Option String
  team2 : Option String
  team1Seed : Option Int
  team2Seed : Option Int
  preferences : List (String × Option (ℚ × ℚ))
deriving DecidableEq, Repr

/-- `compute_next_game_preferences`: conditional win/lose probabilities
for each participant given each result of each next game.  The
game-to-position dict keeps the last index for a duplicated game, hence
the reversed search. -/
def compute_next_game_preferences (raw_outcomes : List (String × OutcomeMap))
    (remaining_games : List (String × Nat))
    (next_games : List (String × Nat × Option Team × Option Team)) :
    List (String × GamePrefs) :=
  next_games.foldl (fun prefs ng =>
    match (remaining_games.enum.reverse).find?
        (fun p => p.2.1 = ng.1 ∧ p.2.2 = ng.2.1) with
    | none => prefs
    | some p =>
      let gp : GamePrefs :=
        { team1 := get_team_name ng.2.2.1
          team2 := get_team_name ng.2.2.2
          team1Seed := ng.2.2.1.map (fun t => t.seed)
          team2Seed := ng.2.2.2.map (fun t => t.seed)
          preferences := next_game_preferences_at raw_outcomes p.1 }
      prefs ++ [("r" ++ toString (ROUND_KEYS.indexOf ng.1 + 1) ++ "-" ++
        toString ng.2.1, gp)]) []

theorem mass_team1_eq (m : OutcomeMap) (position : Nat) :
    (m.map (fun op =>
      if position < op.1.length then
        if op.1.getD position ' ' = '1' then op.2 else 0
      else 0)).sum = mass_team1 m position := by
  unfold mass_team1
  congr 1
  apply List.map_congr_left
  intro op _
  split_ifs <;> first | rfl | tauto

theorem mass_team2_eq (m : OutcomeMap) (position : Nat) :
    (m.map (fun op =>
      if position < op.1.length then
        if op.1.getD position ' ' = '1' then 0 else op.2
      else 0)).sum = mass_team2 m position := by
  unfold mass_team2
  congr 1
  apply List.map_congr_left
  intro op _
  split_ifs <;> first | rfl | tauto

/-- C9 (amended): the conditional preference reported for a participant
is the participant's accumulated mass with the given game result divided
by the total accumulated mass with that result, with a `0.0` entry for a
result side whose denominator is non-positive; the whole entry is `null`
exactly when **both** denominators are non-positive (not, as the claim
states, whenever the single relevant denominator is zero). -/
theorem next_game_preferences_characterisation
    (raw : List (String × OutcomeMap)) (position : Nat) :
    next_game_preferences_at raw position =
      raw.map (fun p => (p.1,
        if 0 < (raw.map (fun r => mass_team1 r.2 position)).sum ∨
            0 < (raw.map (fun r => mass_team2 r.2 position)).sum then
          some
            ((if 0 < (raw.map (fun r => mass_team1 r.2 position)).sum then
                mass_team1 p.2 position /
                  (raw.map (fun r => mass_team1 r.2 position)).sum
              else 0),
             (if 0 < (raw.map (fun r => mass_team2 r.2 position)).sum then
                mass_team2 p.2 position /
                  (raw.map (fun r => mass_team2 r.2 position)).sum
              else 0))
        else none)) := by
  unfold next_game_preferences_at
  dsimp only
  have hpp : participant_masses raw position =
      raw.map (fun p =>
        (p.1, mass_team1 p.2 position, mass_team2 p.2 position)) := by
    unfold participant_masses
    apply List.map_congr_left
    intro p _
    cases hm : p.2 with
    | nil => simp [mass_team1, mass_team2, hm]
    | cons o os =>
      dsimp only
      rw [← hm, mass_team1_eq, mass_team2_eq]
  have h1 : ((fun t : String × ℚ × ℚ => t.2.1) ∘
      (fun p : String × OutcomeMap =>
        (p.1, mass_team1 p.2 position, mass_team2 p.2 position))) =
      fun r : String × OutcomeMap => mass_team1 r.2 position := rfl
  have h2 : ((fun t : String × ℚ × ℚ => t.2.2) ∘
      (fun p : String × OutcomeMap =>
        (p.1, mass_team1 p.2 position, mass_team2 p.2 position))) =
      fun r : String × OutcomeMap => mass_team2 r.2 position := rfl
  rw [hpp]
  simp only [List.map_map, h1, h2]
  apply List.map_congr_left
  intro p _
  dsimp only [Function.comp]
  split_ifs <;> rfl

/-- C9 counterexample to the claim as stated: one participant whose
whole winning mass lies on "team2 wins" (`'0'`).  The denominator for the
"team1 wins" result is zero, yet the reported team1-conditional is `0.0`
rather than null — null-ness does not track the single denominator. -/
theorem next_game_pref_null_counterexample :
    ¬ ((((next_game_preferences_at [("alice", [(['0'], (1 : ℚ))])] 0).map
          (fun p => p.2.map Prod.fst)) = [none]) ↔
        (([("alice", [(['0'], (1 : ℚ))])].map
          (fun p : String × OutcomeMap => mass_team1 p.2 0)).sum = 0)) := by
  intro hiff
  have hB : (([("alice", [(['0'], (1 : ℚ))])].map
      (fun p : String × OutcomeMap => mass_team1 p.2 0)).sum = 0) := by
    simp [mass_team1]
  have hA := hiff.mpr hB
  simp [next_game_preferences_at, participant_masses] at hA

/-! ## Result aggregation and probability conservation (C2) -/

/-- Stable insertion before the first strictly smaller score: together
with the left-to-right fold below this is Python's stable
`sorted(scores, key=lambda x: x[1], reverse=True)`. -/
def insertByScoreDesc (x : String × Int) :
    List (String × Int) → List (String × Int)
  | [] => [x]
  | y :: ys => if y.2 < x.2 then x :: y :: ys else y :: insertByScoreDesc x ys

/-- Stable score-descending sort. -/
def sortByScoreDesc (l : List (String × Int)) : List (String × Int) :=
  l.foldl (fun acc x => insertByScoreDesc x acc) []

theorem insertByScoreDesc_perm (x : String × Int) (l : List (String × Int)) :
    List.Perm (insertByScoreDesc x l) (x :: l) := by
  induction l with
  | nil => exact List.Perm.refl _
  | cons y ys ih =>
    unfold insertByScoreDesc
    split_ifs
    · exact List.Perm.refl _
    · exact (ih.cons y).trans (List.Perm.swap x y ys)

theorem sortByScoreDesc_perm (l : List (String × Int)) :
    List.Perm (sortByScoreDesc l) l := by
  suffices h : ∀ (l acc : List (String × Int)),
      List.Perm (l.foldl (fun acc x => insertByScoreDesc x acc) acc) (acc ++ l) by
    simpa using h l []
  intro l
  induction l with
  | nil => intro acc; simp
  | cons x xs ih =>
    intro acc
    rw [List.foldl_cons]
    refine (ih (insertByScoreDesc x acc)).trans ?_
    refine ((insertByScoreDesc_perm x acc).append_right xs).trans ?_
    exact List.perm_middle.symm

/-- `determine_winners_and_losers`: per outcome, the participants sorted
by score descending (stable); winner = first, loser = last. -/
def determine_winners_and_losers (all_scores : List (String × List Int))
    (num_outcomes : Nat) :
    List String × List String × List (List (String × Int)) :=
  let all_sorted := (List.range num_outcomes).map (fun i =>
    sortByScoreDesc (all_scores.map (fun p => (p.1, p.2.getD i 0))))
  (all_sorted.map (fun s => (s.headD ("", 0)).1),
   all_sorted.map (fun s => (s.getLastD ("", 0)).1),
   all_sorted)

/-- Add probability mass at a key of a raw-outcome dict
(`+=` on an existing key, append otherwise). -/
def omAdd : OutcomeMap → Pat → ℚ → OutcomeMap
  | [], k, p => [(k, p)]
  | kv :: rest, k, p =>
    if kv.1 = k then (kv.1, kv.2 + p) :: rest else kv :: omAdd rest k p

/-- The accumulated state of `accumulate_results`. The per-participant
dicts (which Python initialises with the participant keys) are modelled
as total functions that are zero / empty off the touched keys. -/
structure Accum where
  total_probability_sum : ℚ
  win_probability_sum : String → ℚ
  lose_probability_sum : String → ℚ
  place_probability_sum : String → ℚ
  raw_winning_outcomes : String → OutcomeMap
  raw_losing_outcomes : String → OutcomeMap

/-- The loop body of `accumulate_results` for outcome index `q.1` with
outcome string `q.2.1` and probability `q.2.2`. -/
def accumulate_step (winners losers : List String)
    (all_sorted_scores : List (List (String × Int)))
    (acc : Accum) (q : Nat × Pat × ℚ) : Accum :=
  let winner := winners.getD q.1 ""
  let loser := losers.getD q.1 ""
  let sorted_scores := all_sorted_scores.getD q.1 []
  { total_probability_sum := acc.total_probability_sum + q.2.2
    win_probability_sum := Function.update acc.win_probability_sum winner
      (acc.win_probability_sum winner + q.2.2)
    lose_probability_sum := Function.update acc.lose_probability_sum loser
      (acc.lose_probability_sum loser + q.2.2)
    place_probability_sum := sorted_scores.enum.foldl (fun f pe =>
      Function.update f pe.2.1 (f pe.2.1 + ((pe.1 : ℚ) + 1) * q.2.2))
      acc.place_probability_sum
    raw_winning_outcomes := Function.update acc.raw_winning_outcomes winner
      (omAdd (acc.raw_winning_outcomes winner) q.2.1 q.2.2)
    raw_losing_outcomes := Function.update acc.raw_losing_outcomes loser
      (omAdd (acc.raw_losing_outcomes loser) q.2.1 q.2.2) }

/-- `accumulate_results`: one pass over the (outcome, probability) pairs
accumulating the total mass, win/lose/place masses and the raw
winning/losing outcome dicts.  The `participants` argument fixes which
keys Python's dicts carry; in the function model the initial state is
zero everywhere. -/
def accumulate_results (outcome_strings : List Pat)
    (outcome_probabilities : List ℚ) (winners losers : List String)
    (all_sorted_scores : List (List (String × Int)))
    (participants : List String) : Accum :=
  ((outcome_strings.zip outcome_probabilities).enum).foldl
    (accumulate_step winners losers all_sorted_scores)
    { total_probability_sum := 0
      win_probability_sum := fun _ => 0
      lose_probability_sum := fun _ => 0
      place_probability_sum := fun _ => 0
      raw_winning_outcomes := fun _ => []
      raw_losing_outcomes := fun _ => [] }

/-- `normalization_factor = 1 / total_probability_sum` when the total is
positive, else 1. -/
def normalization_factor (total_probability_sum : ℚ) : ℚ :=
  if 0 < total_probability_sum then 1 / total_probability_sum else 1

/-- A participant's final (normalized) win probability. -/
def final_win_probability (acc : Accum) (name : String) : ℚ :=
  acc.win_probability_sum name * normalization_factor acc.total_probability_sum

/-- A participant's final (normalized) lose probability. -/
def final_lose_probability (acc : Accum) (name : String) : ℚ :=
  acc.lose_probability_sum name * normalization_factor acc.total_probability_sum

theorem sum_map_update (l : List String) (hl : l.Nodup) (f : String → ℚ)
    (x : String) (hx : x ∈ l) (v : ℚ) :
    (l.map (Function.update f x (f x + v))).sum = (l.map f).sum + v := by
  induction l with
  | nil => cases hx
  | cons y ys ih =>
    rw [List.map_cons, List.map_cons, List.sum_cons, List.sum_cons]
    rcases List.mem_cons.mp hx with rfl | hxys
    · have hnot : x ∉ ys := (List.nodup_cons.mp hl).1
      have htail : ys.map (Function.update f x (f x + v)) = ys.map f := by
        apply List.map_congr_left
        intro z hz
        have hzx : z ≠ x := by
          rintro rfl
          exact hnot hz
        exact Function.update_noteq hzx _ f
      rw [htail, Function.update_same]
      ring
    · have hyx : y ≠ x := by
        rintro rfl
        exact (List.nodup_cons.mp hl).1 hxys
      rw [Function.update_noteq hyx, ih (List.nodup_cons.mp hl).2 hxys]
      ring

theorem accumulate_fold_invariant (winners losers : List String)
    (all_sorted_scores : List (List (String × Int)))
    (participants : List String) (hnodup : participants.Nodup) :
    ∀ (l : List (Nat × Pat × ℚ)) (acc : Accum),
      (∀ q ∈ l, winners.getD q.1 "" ∈ participants) →
      (∀ q ∈ l, losers.getD q.1 "" ∈ participants) →
      (l.foldl (accumulate_step winners losers all_sorted_scores)
          acc).total_probability_sum =
        acc.total_probability_sum + (l.map (fun q => q.2.2)).sum ∧
      (participants.map
          (l.foldl (accumulate_step winners losers all_sorted_scores)
            acc).win_probability_sum).sum =
        (participants.map acc.win_probability_sum).sum +
          (l.map (fun q => q.2.2)).sum ∧
      (participants.map
          (l.foldl (accumulate_step winners losers all_sorted_scores)
            acc).lose_probability_sum).sum =
        (participants.map acc.lose_probability_sum).sum +
          (l.map (fun q => q.2.2)).sum := by
  intro l
  induction l with
  | nil => intro acc _ _; refine ⟨by simp, by simp, by simp⟩
  | cons q qs ih =>
    intro acc hw hl
    have hw' := fun r hr => hw r (List.mem_cons_of_mem q hr)
    have hl' := fun r hr => hl r (List.mem_cons_of_mem q hr)
    obtain ⟨iht, ihw, ihl⟩ :=
      ih (accumulate_step winners losers all_sorted_scores acc q) hw' hl'
    rw [List.foldl_cons] at *
    refine ⟨?_, ?_, ?_⟩
    · rw [iht]
      show acc.total_probability_sum + q.2.2 + _ = _
      simp only [List.map_cons, List.sum_cons]
      ring
    · rw [ihw]
      have hstep : (participants.map
          (accumulate_step winners losers all_sorted_scores acc q).win_probability_sum).sum =
          (participants.map acc.win_probability_sum).sum + q.2.2 := by
        exact sum_map_update participants hnodup acc.win_probability_sum _
          (hw q (List.mem_cons_self q qs)) q.2.2
      rw [hstep]
      simp only [List.map_cons, List.sum_cons]
      ring
    · rw [ihl]
      have hstep : (participants.map
          (accumulate_step winners losers all_sorted_scores acc q).lose_probability_sum).sum =
          (participants.map acc.lose_probability_sum).sum + q.2.2 := by
        exact sum_map_update participants hnodup acc.lose_probability_sum _
          (hl q (List.mem_cons_self q qs)) q.2.2
      rw [hstep]
      simp only [List.map_cons, List.sum_cons]
      ring

theorem mem_of_headD {α : Type} {l : List α} (hl : l ≠ []) (d : α) :
    l.headD d ∈ l := by
  cases l with
  | nil => exact absurd rfl hl
  | cons x xs => exact List.mem_cons_self x xs

theorem mem_of_getLastD {α : Type} {l : List α} (hl : l ≠ []) (d : α) :
    l.getLastD d ∈ l := by
  cases l with
  | nil => exact absurd rfl hl
  | cons x xs =>
    rw [List.getLastD_eq_getLast?, List.getLast?_eq_getLast (x :: xs) (by simp),
      Option.getD_some]
    exact List.getLast_mem _

theorem getD_map_range {α : Type} (f : ℕ → α) (n i : ℕ) (d : α) (h : i < n) :
    ((List.range n).map f).getD i d = f i := by
  rw [List.getD_eq_getElem _ _ (by simpa using h)]
  simp

theorem sum_map_mul_right_rat {α : Type} (l : List α) (f : α → ℚ) (c : ℚ) :
    (l.map (fun x => f x * c)).sum = (l.map f).sum * c := by
  induction l with
  | nil => simp
  | cons x xs ih => simp only [List.map_cons, List.sum_cons, ih]; ring

/-- Winners (heads of the per-outcome stable sorts) are participants. -/
theorem winners_mem_participants (all_scores : List (String × List Int))
    (hne : all_scores ≠ []) (n i : Nat) (hi : i < n) :
    (determine_winners_and_losers all_scores n).1.getD i "" ∈
        all_scores.map (fun p => p.1) ∧
      (determine_winners_and_losers all_scores n).2.1.getD i "" ∈
        all_scores.map (fun p => p.1) := by
  unfold determine_winners_and_losers
  dsimp only
  rw [List.map_map, List.map_map, getD_map_range _ _ _ _ hi,
    getD_map_range _ _ _ _ hi]
  simp only [Function.comp]
  have hperm := sortByScoreDesc_perm (all_scores.map (fun p => (p.1, p.2.getD i 0)))
  have hsne : sortByScoreDesc (all_scores.map (fun p => (p.1, p.2.getD i 0))) ≠ [] := by
    intro hemp
    have := hperm.length_eq
    rw [hemp] at this
    simp only [List.length_nil, List.length_map] at this
    exact hne (List.length_eq_zero.mp this.symm)
  constructor
  · have hmem := hperm.mem_iff.mp (mem_of_headD hsne ("", 0))
    rw [List.mem_map] at hmem
    obtain ⟨p, hp, hpe⟩ := hmem
    exact List.mem_map.mpr ⟨p, hp, by rw [← hpe]⟩
  · have hmem := hperm.mem_iff.mp (mem_of_getLastD hsne ("", 0))
    rw [List.mem_map] at hmem
    obtain ⟨p, hp, hpe⟩ := hmem
    exact List.mem_map.mpr ⟨p, hp, by rw [← hpe]⟩

/-- C2: with at least one participant and positive total observed mass,
the normalized win probabilities over the participants sum to exactly 1,
and so do the normalized lose probabilities (each outcome's mass goes to
exactly one winner and one loser, and everything is divided by the total
observed probability sum). -/
theorem probability_conservation (all_scores : List (String × List Int))
    (outcome_strings : List Pat) (outcome_probabilities : List ℚ)
    (hne : all_scores ≠ [])
    (hnodup : (all_scores.map (fun p => p.1)).Nodup)
    (hlen : outcome_probabilities.length = outcome_strings.length)
    (hpos : 0 < (accumulate_results outcome_strings outcome_probabilities
        (determine_winners_and_losers all_scores outcome_strings.length).1
        (determine_winners_and_losers all_scores outcome_strings.length).2.1
        (determine_winners_and_losers all_scores outcome_strings.length).2.2
        (all_scores.map (fun p => p.1))).total_probability_sum) :
    ((all_scores.map (fun p => p.1)).map
        (final_win_probability (accumulate_results outcome_strings
          outcome_probabilities
          (determine_winners_and_losers all_scores outcome_strings.length).1
          (determine_winners_and_losers all_scores outcome_strings.length).2.1
          (determine_winners_and_losers all_scores outcome_strings.length).2.2
          (all_scores.map (fun p => p.1))))).sum = 1 ∧
    ((all_scores.map (fun p => p.1)).map
        (final_lose_probability (accumulate_results outcome_strings
          outcome_probabilities
          (determine_winners_and_losers all_scores outcome_strings.length).1
          (determine_winners_and_losers all_scores outcome_strings.length).2.1
          (determine_winners_and_losers all_scores outcome_strings.length).2.2
          (all_scores.map (fun p => p.1))))).sum = 1 := by
  set wl := determine_winners_and_losers all_scores outcome_strings.length with hwl
  set acc := accumulate_results outcome_strings outcome_probabilities
    wl.1 wl.2.1 wl.2.2 (all_scores.map (fun p => p.1)) with hacc
  have hidx : ∀ q ∈ (outcome_strings.zip outcome_probabilities).enum,
      q.1 < outcome_strings.length := by
    intro q hq
    rw [List.enum_eq_zip_range] at hq
    have h1 := (List.of_mem_zip hq).1
    rw [List.mem_range] at h1
    have h2 : (outcome_strings.zip outcome_probabilities).length ≤
        outcome_strings.length := by
      rw [List.length_zip]
      omega
    omega
  obtain ⟨ht, hw, hl⟩ := accumulate_fold_invariant wl.1 wl.2.1 wl.2.2
    (all_scores.map (fun p => p.1)) hnodup
    ((outcome_strings.zip outcome_probabilities).enum)
    { total_probability_sum := 0
      win_probability_sum := fun _ => 0
      lose_probability_sum := fun _ => 0
      place_probability_sum := fun _ => 0
      raw_winning_outcomes := fun _ => []
      raw_losing_outcomes := fun _ => [] }
    (fun q hq => (winners_mem_participants all_scores hne _ q.1 (hidx q hq)).1)
    (fun q hq => (winners_mem_participants all_scores hne _ q.1 (hidx q hq)).2)
  have haccdef : acc = ((outcome_strings.zip outcome_probabilities).enum).foldl
      (accumulate_step wl.1 wl.2.1 wl.2.2)
      { total_probability_sum := 0
        win_probability_sum := fun _ => 0
        lose_probability_sum := fun _ => 0
        place_probability_sum := fun _ => 0
        raw_winning_outcomes := fun _ => []
        raw_losing_outcomes := fun _ => [] } := rfl
  rw [← haccdef] at ht hw hl
  have hzero : ∀ l : List String, (l.map (fun _ => (0 : ℚ))).sum = 0 := by
    intro l
    induction l with
    | nil => simp
    | cons x xs ih => simp [ih]
  rw [hzero, zero_add] at hw hl
  rw [zero_add] at ht
  have hnf : normalization_factor acc.total_probability_sum =
      1 / acc.total_probability_sum := by
    unfold normalization_factor
    rw [if_pos hpos]
  constructor
  · unfold final_win_probability
    rw [sum_map_mul_right_rat, hnf, hw, ← ht]
    field_simp
  · unfold final_lose_probability
    rw [sum_map_mul_right_rat, hnf, hl, ← ht]
    field_simp

/-- Concrete score table for the conservation witness. -/
def scoresFixtureC2 : List (String × List Int) := [("x", [10]), ("y", [5])]

/-- Witness for C2 at a concrete two-participant, one-outcome run. -/
theorem probability_conservation_witness :
    ((scoresFixtureC2.map (fun p => p.1)).map
        (final_win_probability (accumulate_results [['0']] [(1 : ℚ)]
          (determine_winners_and_losers scoresFixtureC2 [['0']].length).1
          (determine_winners_and_losers scoresFixtureC2 [['0']].length).2.1
          (determine_winners_and_losers scoresFixtureC2 [['0']].length).2.2
          (scoresFixtureC2.map (fun p => p.1))))).sum = 1 ∧
    ((scoresFixtureC2.map (fun p => p.1)).map
        (final_lose_probability (accumulate_results [['0']] [(1 : ℚ)]
          (determine_winners_and_losers scoresFixtureC2 [['0']].length).1
          (determine_winners_and_losers scoresFixtureC2 [['0']].length).2.1
          (determine_winners_and_losers scoresFixtureC2 [['0']].length).2.2
          (scoresFixtureC2.map (fun p => p.1))))).sum = 1 :=
  probability_conservation scoresFixtureC2 [['0']] [(1 : ℚ)]
    (by decide) (by decide) (by decide)
    (by norm_num [accumulate_results, accumulate_step, List.enum,
      List.enumFrom, scoresFixtureC2])

/-! ## Outcome merging (C3, C4) -/

/-- `can_merge_outcomes`: two outcome strings merge iff they have equal
length and differ at exactly one position, with neither differing
character the wildcard `'X'`; returns that position. -/
def can_merge_outcomes (outcome1 outcome2 : Pat) : Option Nat :=
  if outcome1.length = outcome2.length then
    let diffs := (outcome1.zip outcome2).enum.filter (fun p => p.2.1 ≠ p.2.2)
    if diffs.any (fun p => p.2.1 = 'X' ∨ p.2.2 = 'X') then none
    else
      match diffs with
      | [(i, _)] => some i
      | _ => none
  else none

/-- `merge_two_outcomes`: replace the differing position with `'X'`. -/
def merge_two_outcomes (outcome1 : Pat) (outcome2 : Pat) (diff_pos : Nat) : Pat :=
  outcome1.set diff_pos 'X'

/-- `get_merge_key`: the outcome with the position masked by `'X'`. -/
def get_merge_key (outcome : Pat) (pos : Nat) : Pat :=
  outcome.set pos 'X'

/-- Does `pat` occur at the head of `s`? (helper for `pyReplace`). -/
def charsMatch : List Char → List Char → Bool
  | [], _ => true
  | _ :: _, [] => false
  | p :: ps, c :: cs => p = c && charsMatch ps cs

/-- Python `str.replace` over character lists: replace every occurrence
of `pat` by `rep`, scanning left to right.  `skip` counts characters of
a consumed match still to be dropped (structural recursion on `s`). -/
def pyReplace (pat rep : List Char) : Nat → List Char → List Char
  | _, [] => []
  | skip + 1, _ :: rest => pyReplace pat rep skip rest
  | 0, c :: rest =>
    if pat ≠ [] ∧ charsMatch pat (c :: rest) then
      rep ++ pyReplace pat rep (pat.length - 1) rest
    else c :: pyReplace pat rep 0 rest

/-- Python `int(s)` on a digit string (`none` on a malformed one, where
Python raises `ValueError`); mirrors `String.toNat?`. -/
def charsToNat? (s : List Char) : Option Nat :=
  if s ≠ [] ∧ s.all (fun c => c.isDigit) then
    some (s.foldl (fun n c => n * 10 + (c.toNat - '0'.toNat)) 0)
  else none

/-- `int(round_key.replace('round', ''))` (0 for a malformed key, where
Python would raise). -/
def round_num_of_key (round_key : String) : Nat :=
  (charsToNat? (pyReplace "round".data "".data 0 round_key.data)).getD 0

/-- The `positions_by_round` grouping of `merge_outcomes`: outcome-string
positions grouped by the round of `remaining_games[pos]`, rounds in
ascending order (Python iterates `sorted(positions_by_round.keys())`). -/
def positions_by_round (remaining_games : List (String × Nat)) :
    List (Nat × List Nat) :=
  let nums := remaining_games.map (fun q => round_num_of_key q.1)
  let maxn := nums.foldr max 0
  ((List.range (maxn + 1)).filter (fun n => nums.contains n)).map (fun n =>
    (n, (nums.enum.filter (fun p => p.2 = n)).map (fun p => p.1)))

/-- Dict lookup in an outcome map. -/
def omGet (m : OutcomeMap) (k : Pat) : Option ℚ :=
  (m.find? (fun kv => kv.1 = k)).map (fun kv => kv.2)

/-- The keys of an outcome map, in insertion order. -/
def omKeys (m : OutcomeMap) : List Pat :=
  m.map (fun kv => kv.1)

/-- The working state of one merge pass: the `new_outcomes` dict, the
`merged_away` set, and the `changed` flag. -/
structure PassState where
  newOutcomes : OutcomeMap
  mergedAway : List Pat
  changed : Bool

/-- Perform one merge of `out1`/`out2` at `pos` (the body of the
`merge_pos == pos` branch of `merge_outcomes`' scan), updating
`new_outcomes` (accumulating when the merged pattern already exists,
absorbing an untouched identical current outcome) and `merged_away`. -/
def do_merge (current : OutcomeMap) (pos : Nat) (out1 out2 : Pat)
    (st : PassState) : PassState :=
  let merged := merge_two_outcomes out1 out2 pos
  let prob1 := (omGet current out1).getD 0
  let prob2 := (omGet current out2).getD 0
  let st1 :=
    if merged ∈ omKeys st.newOutcomes then
      { st with newOutcomes := omAdd st.newOutcomes merged (prob1 + prob2) }
    else if merged ∈ omKeys current ∧ merged ∉ st.mergedAway then
      { st with
        newOutcomes := st.newOutcomes ++
          [(merged, (omGet current merged).getD 0 + prob1 + prob2)]
        mergedAway := merged :: st.mergedAway }
    else
      { st with newOutcomes := st.newOutcomes ++ [(merged, prob1 + prob2)] }
  { st1 with mergedAway := out1 :: out2 :: st1.mergedAway, changed := true }

/-- Look for `out1`'s first merge partner among the remaining members
(the inner `for j in range(i+1, ...)` scan). -/
def scan_partner (current : OutcomeMap) (pos : Nat) (out1 : Pat) :
    List Pat → PassState → PassState
  | [], st => st
  | out2 :: rest, st =>
    if out2 ∈ st.mergedAway then scan_partner current pos out1 rest st
    else if can_merge_outcomes out1 out2 = some pos then
      do_merge current pos out1 out2 st
    else scan_partner current pos out1 rest st

/-- The `while i < len(members) - 1` scan over a group's members. -/
def scan_members (current : OutcomeMap) (pos : Nat) :
    List Pat → PassState → PassState
  | [], st => st
  | [_], st => st
  | out1 :: rest, st =>
    scan_members current pos rest
      (if out1 ∈ st.mergedAway then st else scan_partner current pos out1 rest st)

/-- Append an outcome to its group bucket (created at the end when
absent), preserving dict insertion order. -/
def assocAppend (gs : List (Pat × List Pat)) (key : Pat) (o : Pat) :
    List (Pat × List Pat) :=
  match gs with
  | [] => [(key, [o])]
  | kv :: rest =>
    if kv.1 = key then (kv.1, kv.2 ++ [o]) :: rest
    else kv :: assocAppend rest key o

/-- `groups[pos]`: outcomes bucketed by their merge key at `pos`,
skipping positions already wildcarded (`'X'`/`'D'`). -/
def build_groups_at (pos : Nat) (outcomes : List Pat) : List (Pat × List Pat) :=
  outcomes.foldl (fun gs o =>
    if o.getD pos ' ' = 'X' ∨ o.getD pos ' ' = 'D' then gs
    else assocAppend gs (get_merge_key o pos) o) []

/-- Scan every bucket of `groups[pos]`. -/
def scan_groups (current : OutcomeMap) (pos : Nat) :
    List (Pat × List Pat) → PassState → PassState
  | [], st => st
  | g :: rest, st => scan_groups current pos rest (scan_members current pos g.2 st)

/-- One iteration of `merge_outcomes`' `while changed` loop: build the
groups from the current outcomes, perform all merges found, and rebuild
the outcome dict (survivors in order, then the new outcomes). -/
def merge_pass (positions : List Nat) (current : OutcomeMap) : OutcomeMap × Bool :=
  let st := positions.foldl (fun st pos =>
      scan_groups current pos (build_groups_at pos (omKeys current)) st)
    ⟨[], [], false⟩
  let survivors := current.filter (fun kv => kv.1 ∉ st.mergedAway)
  let updated := st.newOutcomes.foldl (fun u kv =>
      if kv.1 ∈ omKeys u then omAdd u kv.1 kv.2 else u ++ [kv]) survivors
  (updated, st.changed)

/-- The `while changed` loop, fuelled: each changed pass strictly
shrinks the outcome dict, so `current.length + 1` passes always reach
the fixpoint. -/
def merge_round_loop (positions : List Nat) : Nat → OutcomeMap → OutcomeMap
  | 0, current => current
  | fuel + 1, current =>
    let pass := merge_pass positions current
    if pass.2 then merge_round_loop positions fuel pass.1 else pass.1

/-- `merge_outcomes`: round-synchronised greedy merging — process the
rounds' position groups in ascending round order, exhausting merges at
each round's positions before moving on. -/
def merge_outcomes (outcomes_with_probs : OutcomeMap)
    (remaining_games : Option (List (String × Nat))) : OutcomeMap :=
  if outcomes_with_probs.length ≤ 1 then outcomes_with_probs
  else
    let outcome_length := ((omKeys outcomes_with_probs).headD []).length
    let pbr : List (Nat × List Nat) :=
      match remaining_games with
      | none => [(1, List.range outcome_length)]
      | some remaining => positions_by_round remaining
    pbr.foldl (fun current rp =>
      merge_round_loop rp.2 (current.length + 1) current) outcomes_with_probs

/-! ### Outcome-map mass lemmas -/

/-- Total probability mass of an outcome map. -/
def omMass (m : OutcomeMap) : ℚ := (m.map (fun kv => kv.2)).sum

theorem omMass_nil : omMass [] = 0 := rfl

theorem omMass_append (m1 m2 : OutcomeMap) :
    omMass (m1 ++ m2) = omMass m1 + omMass m2 := by
  simp [omMass]

theorem omMass_cons (kv : Pat × ℚ) (m : OutcomeMap) :
    omMass (kv :: m) = kv.2 + omMass m := by
  simp [omMass]

theorem omMass_omAdd (m : OutcomeMap) (k : Pat) (p : ℚ) :
    omMass (omAdd m k p) = omMass m + p := by
  induction m with
  | nil => simp [omAdd, omMass]
  | cons kv rest ih =>
    unfold omAdd
    split_ifs with h
    · rw [omMass_cons, omMass_cons]
      ring
    · rw [omMass_cons, ih, omMass_cons]
      ring

theorem omKeys_omAdd_mem (m : OutcomeMap) (k : Pat) (p : ℚ) (hk : k ∈ omKeys m) :
    omKeys (omAdd m k p) = omKeys m := by
  induction m with
  | nil => cases hk
  | cons kv rest ih =>
    unfold omAdd
    split_ifs with h
    · simp [omKeys]
    · have hk' : k ∈ omKeys rest := by
        rcases List.mem_cons.mp hk with h1 | h1
        · exact absurd h1.symm h
        · exact h1
      have h2 := ih hk'
      simp only [omKeys] at h2
      simp only [omKeys, List.map_cons, h2]

/-! ### `can_merge_outcomes` characterisation -/

theorem mem_range_zip {α : Type} (d : α) :
    ∀ (l : List α) (p : ℕ × α), p ∈ (List.range l.length).zip l →
      p.2 = l.getD p.1 d ∧ p.1 < l.length := by
  intro l
  induction l with
  | nil => intro p hp; simp at hp
  | cons x xs ih =>
    intro p hp
    rw [List.length_cons, List.range_succ_eq_map, List.zip_cons_cons,
      List.zip_map_left] at hp
    rcases List.mem_cons.mp hp with rfl | hp'
    · exact ⟨rfl, by simp⟩
    · rw [List.mem_map] at hp'
      obtain ⟨q, hq, rfl⟩ := hp'
      obtain ⟨h1, h2⟩ := ih q hq
      exact ⟨by simpa using h1, by simpa using Nat.succ_lt_succ h2⟩

/-- The differing-position list of `can_merge_outcomes`, generalised
over a starting index for the enumeration. -/
theorem enumFrom_zip_filter :
    ∀ (l1 l2 : Pat) (k : Nat),
      ((l1.zip l2).enumFrom k).filter (fun p => p.2.1 ≠ p.2.2) =
        ((List.range (min l1.length l2.length)).filter
          (fun i => l1.getD i ' ' ≠ l2.getD i ' ')).map
          (fun i => (i + k, l1.getD i ' ', l2.getD i ' ')) := by
  intro l1
  induction l1 with
  | nil => intro l2 k; simp
  | cons c1 cs1 ih =>
    intro l2 k
    cases l2 with
    | nil => simp
    | cons c2 cs2 =>
      rw [List.zip_cons_cons, List.enumFrom_cons, List.filter_cons]
      have hmin : min (c1 :: cs1).length (c2 :: cs2).length =
          min cs1.length cs2.length + 1 := by
        simp [Nat.succ_min_succ]
      rw [hmin, List.range_succ_eq_map, List.filter_cons]
      have htail :
          ((cs1.zip cs2).enumFrom (k + 1)).filter (fun p => p.2.1 ≠ p.2.2) =
            (((List.range (min cs1.length cs2.length)).map Nat.succ).filter
              (fun i => (c1 :: cs1).getD i ' ' ≠ (c2 :: cs2).getD i ' ')).map
              (fun i => (i + k, (c1 :: cs1).getD i ' ', (c2 :: cs2).getD i ' ')) := by
        rw [ih cs2 (k + 1), List.filter_map, List.map_map]
        have hfil : List.filter
            ((fun i => decide ((c1 :: cs1).getD i ' ' ≠ (c2 :: cs2).getD i ' ')) ∘
              Nat.succ)
            (List.range (min cs1.length cs2.length)) =
            List.filter (fun i => decide (cs1.getD i ' ' ≠ cs2.getD i ' '))
            (List.range (min cs1.length cs2.length)) :=
          List.filter_congr (fun i _ => by
            simp [Function.comp, Nat.succ_eq_add_one, List.getD_cons_succ])
        rw [hfil]
        refine List.map_congr_left (fun i _ => ?_)
        simp only [Function.comp, Nat.succ_eq_add_one, List.getD_cons_succ]
        congr 1
        omega
      by_cases hc : c1 = c2
      · rw [if_neg (by simp [hc]), if_neg (by simp [hc]), htail]
      · rw [if_pos (by simp [hc]), if_pos (by simp [hc]), htail,
          List.map_cons, List.getD_cons_zero, List.getD_cons_zero,
          Nat.zero_add]

/-- The differing-position list of `can_merge_outcomes`, rewritten as a
filter over positions. -/
theorem diffs_eq (o1 o2 : Pat) :
    (o1.zip o2).enum.filter (fun p => p.2.1 ≠ p.2.2) =
      ((List.range (min o1.length o2.length)).filter
        (fun i => o1.getD i ' ' ≠ o2.getD i ' ')).map
        (fun i => (i, o1.getD i ' ', o2.getD i ' ')) := by
  rw [List.enum_eq_enumFrom, enumFrom_zip_filter o1 o2 0]
  exact List.map_congr_left (fun i _ => by simp)

theorem filter_range_eq_singleton {p : Nat → Bool} {n i : Nat} (hi : i < n)
    (hp : ∀ j, j < n → (p j = true ↔ j = i)) :
    (List.range n).filter p = [i] := by
  induction n with
  | zero => omega
  | succ n ih =>
    rw [List.range_succ, List.filter_append]
    by_cases hin : i = n
    · subst hin
      have h1 : (List.range i).filter p = [] := by
        refine List.filter_eq_nil_iff.mpr ?_
        intro j hj hpj
        rw [List.mem_range] at hj
        have := (hp j (by omega)).mp hpj
        omega
      have h2 : p i = true := (hp i (by omega)).mpr rfl
      rw [h1]
      simp [List.filter_cons, h2]
    · have h1 : (List.range n).filter p = [i] :=
        ih (by omega) (fun j hj => hp j (by omega))
      have h2 : ¬ p n = true := fun hpn => hin ((hp n (by omega)).mp hpn).symm
      rw [h1]
      simp [List.filter_cons, h2]

/-- Full characterisation of `can_merge_outcomes`: it returns `some i`
exactly when the outcomes have equal length and differ at position `i`
only, with neither character there the wildcard `'X'`. -/
theorem can_merge_eq_some_iff (o1 o2 : Pat) (i : Nat) :
    can_merge_outcomes o1 o2 = some i ↔
      o1.length = o2.length ∧ i < o1.length ∧
      o1.getD i ' ' ≠ o2.getD i ' ' ∧ o1.getD i ' ' ≠ 'X' ∧ o2.getD i ' ' ≠ 'X' ∧
      ∀ j, j < o1.length → j ≠ i → o1.getD j ' ' = o2.getD j ' ' := by
  unfold can_merge_outcomes
  by_cases hlen : o1.length = o2.length
  · rw [if_pos hlen]
    dsimp only
    have hmin : min o1.length o2.length = o1.length := by omega
    have hd := diffs_eq o1 o2
    rw [hmin] at hd
    rw [hd]
    generalize hdl : (List.range o1.length).filter
        (fun j => decide (o1.getD j ' ' ≠ o2.getD j ' ')) = dl
    constructor
    · intro h
      split at h
      · exact Option.noConfusion h
      · rename_i hany
        rcases dl with _ | ⟨j, _ | ⟨j', tl⟩⟩
        · exact Option.noConfusion h
        · have hji : j = i := Option.some.inj h
          subst hji
          have hjmem : j ∈ (List.range o1.length).filter
              (fun j => decide (o1.getD j ' ' ≠ o2.getD j ' ')) := by
            rw [hdl]; exact List.mem_cons_self _ _
          rw [List.mem_filter, List.mem_range] at hjmem
          simp only [List.map_cons, List.map_nil, List.any_cons, List.any_nil,
            Bool.or_false, decide_eq_true_eq, not_or] at hany
          refine ⟨hlen, hjmem.1, by simpa using hjmem.2, hany.1, hany.2, ?_⟩
          intro j' hj' hne
          by_contra hne2
          have hmem2 : j' ∈ (List.range o1.length).filter
              (fun j => decide (o1.getD j ' ' ≠ o2.getD j ' ')) :=
            List.mem_filter.mpr ⟨List.mem_range.mpr hj', by simpa using hne2⟩
          rw [hdl, List.mem_singleton] at hmem2
          exact hne hmem2
        · exact Option.noConfusion h
    · rintro ⟨_, hi, hne, hx1, hx2, hall⟩
      have hdl2 : dl = [i] := by
        rw [← hdl]
        refine filter_range_eq_singleton hi (fun j hj => ?_)
        constructor
        · intro hpj
          rw [decide_eq_true_eq] at hpj
          by_contra hne2
          exact hpj (hall j hj hne2)
        · intro hji; subst hji; simpa using hne
      subst hdl2
      split
      · rename_i hcond
        exfalso
        simp only [List.map_cons, List.map_nil, List.any_cons, List.any_nil,
          Bool.or_false, decide_eq_true_eq] at hcond
        rcases hcond with hc | hc
        · exact hx1 hc
        · exact hx2 hc
      · rfl
  · rw [if_neg hlen]
    simp [hlen]

theorem getD_set_self {α : Type} (l : List α) (i : Nat) (a d : α) (hi : i < l.length) :
    (l.set i a).getD i d = a := by
  rw [List.getD_eq_getElem _ _ (by simpa using hi)]
  simp [List.getElem_set]

theorem getD_set_ne {α : Type} (l : List α) (i j : Nat) (a d : α) (hij : i ≠ j) :
    (l.set i a).getD j d = l.getD j d := by
  by_cases hj : j < l.length
  · rw [List.getD_eq_getElem _ _ (by simpa using hj), List.getD_eq_getElem _ _ hj]
    simp [List.getElem_set, hij]
  · rw [List.getD_eq_default _ _ (by simpa using Nat.le_of_not_lt hj),
      List.getD_eq_default _ _ (Nat.le_of_not_lt hj)]

/-- Two merge partners are distinct outcome strings. -/
theorem can_merge_ne {o1 o2 : Pat} {i : Nat}
    (h : can_merge_outcomes o1 o2 = some i) : o1 ≠ o2 := by
  obtain ⟨_, _, hne, _, _, _⟩ := (can_merge_eq_some_iff o1 o2 i).mp h
  intro he
  exact hne (he ▸ rfl)

/-- No outcome merges with itself. -/
theorem can_merge_self (o : Pat) (i : Nat) : can_merge_outcomes o o ≠ some i :=
  fun h => can_merge_ne h rfl

/-- `can_merge_outcomes` is symmetric. -/
theorem can_merge_symm {o1 o2 : Pat} {i : Nat}
    (h : can_merge_outcomes o1 o2 = some i) : can_merge_outcomes o2 o1 = some i := by
  obtain ⟨hlen, hi, hne, hx1, hx2, hall⟩ := (can_merge_eq_some_iff o1 o2 i).mp h
  refine (can_merge_eq_some_iff o2 o1 i).mpr
    ⟨hlen.symm, hlen ▸ hi, fun he => hne he.symm, hx2, hx1, ?_⟩
  intro j hj hji
  exact (hall j (by omega) hji).symm

/-- The merged pattern differs from the first merge partner. -/
theorem can_merge_merged_ne_left {o1 o2 : Pat} {i : Nat}
    (h : can_merge_outcomes o1 o2 = some i) : o1.set i 'X' ≠ o1 := by
  obtain ⟨_, hi, _, hx1, _, _⟩ := (can_merge_eq_some_iff o1 o2 i).mp h
  intro he
  have := getD_set_self o1 i 'X' ' ' hi
  rw [he] at this
  exact hx1 this

/-- The merged pattern differs from the second merge partner. -/
theorem can_merge_merged_ne_right {o1 o2 : Pat} {i : Nat}
    (h : can_merge_outcomes o1 o2 = some i) : o1.set i 'X' ≠ o2 := by
  obtain ⟨hlen, hi, _, _, hx2, _⟩ := (can_merge_eq_some_iff o1 o2 i).mp h
  intro he
  have := getD_set_self o1 i 'X' ' ' hi
  rw [he] at this
  exact hx2 this

/-- Merge partners share their merge key. -/
theorem can_merge_set_eq {o1 o2 : Pat} {i : Nat}
    (h : can_merge_outcomes o1 o2 = some i) : o1.set i 'X' = o2.set i 'X' := by
  obtain ⟨hlen, hi, hne, hx1, hx2, hall⟩ := (can_merge_eq_some_iff o1 o2 i).mp h
  apply List.ext_getElem
  · simp [hlen]
  · intro j h1 h2
    rw [List.getElem_set, List.getElem_set]
    by_cases hj : i = j
    · simp [hj]
    · rw [if_neg hj, if_neg hj]
      have hj1 : j < o1.length := by simpa using h1
      have := hall j hj1 (fun he => hj he.symm)
      rwa [List.getD_eq_getElem _ _ hj1,
        List.getD_eq_getElem _ _ (by omega : j < o2.length)] at this

/-! ### Mass accounting for one merge pass -/

/-- The entries of an outcome map whose key lies in `S`. -/
def omRestrict (m : OutcomeMap) (S : List Pat) : OutcomeMap :=
  m.filter (fun kv => decide (kv.1 ∈ S))

theorem omRestrict_nil (m : OutcomeMap) : omRestrict m [] = [] := by
  refine List.filter_eq_nil_iff.mpr ?_
  intro kv _
  simp

theorem omKeys_append (m1 m2 : OutcomeMap) :
    omKeys (m1 ++ m2) = omKeys m1 ++ omKeys m2 := by
  simp [omKeys]

/-- Inserting a present key into the restriction set adds exactly its
entry (up to permutation), provided the keys are distinct. -/
theorem omRestrict_insert_perm (k : Pat) :
    ∀ (m : OutcomeMap) (S : List Pat), (omKeys m).Nodup → k ∈ omKeys m → k ∉ S →
      List.Perm (omRestrict m (k :: S))
        ((k, (omGet m k).getD 0) :: omRestrict m S) := by
  intro m
  induction m with
  | nil => intro S _ hk _; simp [omKeys] at hk
  | cons kv rest ih =>
    intro S hnd hk hkS
    simp only [omKeys, List.map_cons, List.nodup_cons] at hnd
    obtain ⟨hnd1, hnd2⟩ := hnd
    by_cases hkv : kv.1 = k
    · have hknr : k ∉ omKeys rest := by rw [← hkv]; exact hnd1
      have hget : (omGet (kv :: rest) k).getD 0 = kv.2 := by
        unfold omGet
        rw [List.find?_cons_of_pos _ (by simpa using hkv)]
        rfl
      have h1 : omRestrict (kv :: rest) (k :: S) = kv :: omRestrict rest (k :: S) := by
        unfold omRestrict
        rw [List.filter_cons_of_pos (by simp [hkv])]
      have h2 : omRestrict rest (k :: S) = omRestrict rest S := by
        unfold omRestrict
        refine List.filter_congr ?_
        intro x hx
        have hxk : x.1 ≠ k := by
          intro he
          exact hknr (he ▸ (List.mem_map.mpr ⟨x, hx, rfl⟩))
        simp [List.mem_cons, hxk]
      have h3 : omRestrict (kv :: rest) S = omRestrict rest S := by
        unfold omRestrict
        rw [List.filter_cons_of_neg (by simp [hkv, hkS])]
      rw [h1, h2, h3, hget]
      have hkv' : kv = (k, kv.2) := by
        rw [← hkv]
      rw [← hkv']
    · have hk' : k ∈ omKeys rest := by
        simp only [omKeys, List.map_cons, List.mem_cons] at hk
        rcases hk with h | h
        · exact absurd h.symm hkv
        · exact h
      have hget : omGet (kv :: rest) k = omGet rest k := by
        unfold omGet
        rw [List.find?_cons_of_neg _ (by simpa using hkv)]
      by_cases hkvS : kv.1 ∈ S
      · have h1 : omRestrict (kv :: rest) (k :: S) = kv :: omRestrict rest (k :: S) := by
          unfold omRestrict
          rw [List.filter_cons_of_pos (by simp [hkvS])]
        have h2 : omRestrict (kv :: rest) S = kv :: omRestrict rest S := by
          unfold omRestrict
          rw [List.filter_cons_of_pos (by simp [hkvS])]
        rw [h1, h2, hget]
        refine ((ih S hnd2 hk' hkS).cons kv).trans ?_
        exact List.Perm.swap _ _ _
      · have h1 : omRestrict (kv :: rest) (k :: S) = omRestrict rest (k :: S) := by
          unfold omRestrict
          rw [List.filter_cons_of_neg (by simp [hkvS, hkv])]
        have h2 : omRestrict (kv :: rest) S = omRestrict rest S := by
          unfold omRestrict
          rw [List.filter_cons_of_neg (by simp [hkvS])]
        rw [h1, h2, hget]
        exact ih S hnd2 hk' hkS

theorem omMass_perm {m1 m2 : OutcomeMap} (h : List.Perm m1 m2) :
    omMass m1 = omMass m2 := by
  unfold omMass
  exact (h.map (fun kv => kv.2)).sum_eq

theorem omMass_restrict_insert (m : OutcomeMap) (k : Pat) (S : List Pat)
    (hnd : (omKeys m).Nodup) (hk : k ∈ omKeys m) (hkS : k ∉ S) :
    omMass (omRestrict m (k :: S)) =
      (omGet m k).getD 0 + omMass (omRestrict m S) := by
  rw [omMass_perm (omRestrict_insert_perm k m S hnd hk hkS), omMass_cons]

theorem length_restrict_insert (m : OutcomeMap) (k : Pat) (S : List Pat)
    (hnd : (omKeys m).Nodup) (hk : k ∈ omKeys m) (hkS : k ∉ S) :
    (omRestrict m (k :: S)).length = (omRestrict m S).length + 1 := by
  rw [(omRestrict_insert_perm k m S hnd hk hkS).length_eq, List.length_cons]

/-- Splitting an outcome map into survivors and merged-away entries. -/
theorem omMass_split (S : List Pat) :
    ∀ m : OutcomeMap,
      omMass m = omMass (m.filter (fun kv => decide (kv.1 ∉ S))) +
        omMass (omRestrict m S) := by
  intro m
  induction m with
  | nil => simp [omMass, omRestrict]
  | cons kv rest ih =>
    unfold omRestrict at ih ⊢
    by_cases h : kv.1 ∈ S
    · rw [List.filter_cons_of_neg (by simp [h]), List.filter_cons_of_pos (by simp [h]),
        omMass_cons, omMass_cons, ih]
      ring
    · rw [List.filter_cons_of_pos (by simp [h]), List.filter_cons_of_neg (by simp [h]),
        omMass_cons, omMass_cons, ih]
      ring

theorem length_split (S : List Pat) :
    ∀ m : OutcomeMap,
      m.length = (m.filter (fun kv => decide (kv.1 ∉ S))).length +
        (omRestrict m S).length := by
  intro m
  induction m with
  | nil => simp [omRestrict]
  | cons kv rest ih =>
    unfold omRestrict at ih ⊢
    by_cases h : kv.1 ∈ S
    · rw [List.filter_cons_of_neg (by simp [h]), List.filter_cons_of_pos (by simp [h])]
      simp only [List.length_cons, ih]
      omega
    · rw [List.filter_cons_of_pos (by simp [h]), List.filter_cons_of_neg (by simp [h])]
      simp only [List.length_cons, ih]
      omega

theorem omAdd_length_mem (m : OutcomeMap) (k : Pat) (p : ℚ) (hk : k ∈ omKeys m) :
    (omAdd m k p).length = m.length := by
  induction m with
  | nil => simp [omKeys] at hk
  | cons kv rest ih =>
    unfold omAdd
    split_ifs with h
    · simp
    · simp only [List.length_cons]
      have hk' : k ∈ omKeys rest := by
        simp only [omKeys, List.map_cons, List.mem_cons] at hk
        rcases hk with h1 | h1
        · exact absurd h1.symm h
        · exact h1
      rw [ih hk']

/-- The rebuild fold of `merge_pass` (accumulate into an existing key or
append), as a named step function. -/
def rebuildStep (u : OutcomeMap) (kv : Pat × ℚ) : OutcomeMap :=
  if kv.1 ∈ omKeys u then omAdd u kv.1 kv.2 else u ++ [kv]

theorem rebuild_fold_mass :
    ∀ (l : List (Pat × ℚ)) (u : OutcomeMap),
      omMass (l.foldl rebuildStep u) = omMass u + omMass l := by
  intro l
  induction l with
  | nil => intro u; simp [omMass]
  | cons kv rest ih =>
    intro u
    rw [List.foldl_cons, ih, omMass_cons]
    unfold rebuildStep
    split_ifs with h
    · rw [omMass_omAdd]; ring
    · rw [omMass_append, omMass_cons, omMass_nil]; ring

theorem rebuild_fold_length :
    ∀ (l : List (Pat × ℚ)) (u : OutcomeMap),
      (l.foldl rebuildStep u).length ≤ u.length + l.length := by
  intro l
  induction l with
  | nil => intro u; simp
  | cons kv rest ih =>
    intro u
    rw [List.foldl_cons]
    refine le_trans (ih _) ?_
    unfold rebuildStep
    split_ifs with h
    · rw [omAdd_length_mem _ _ _ h]
      simp only [List.length_cons]
      omega
    · simp only [List.length_append, List.length_cons, List.length_nil]
      omega

theorem rebuild_fold_nodup :
    ∀ (l : List (Pat × ℚ)) (u : OutcomeMap),
      (omKeys u).Nodup → (omKeys (l.foldl rebuildStep u)).Nodup := by
  intro l
  induction l with
  | nil => intro u hu; exact hu
  | cons kv rest ih =>
    intro u hu
    rw [List.foldl_cons]
    refine ih _ ?_
    unfold rebuildStep
    split_ifs with h
    · rw [omKeys_omAdd_mem _ _ _ h]; exact hu
    · rw [omKeys_append]
      have hsing : omKeys [kv] = [kv.1] := rfl
      rw [hsing]
      exact List.Nodup.append hu (List.nodup_singleton _)
        (fun a ha hb => h ((List.mem_singleton.mp hb) ▸ ha))

theorem rebuild_fold_keys :
    ∀ (l : List (Pat × ℚ)) (u : OutcomeMap) (x : Pat),
      x ∈ omKeys (l.foldl rebuildStep u) → x ∈ omKeys u ∨ x ∈ omKeys l := by
  intro l
  induction l with
  | nil => intro u x hx; exact Or.inl hx
  | cons kv rest ih =>
    intro u x hx
    rw [List.foldl_cons] at hx
    rcases ih _ x hx with h | h
    · unfold rebuildStep at h
      split_ifs at h with hmem
      · rw [omKeys_omAdd_mem _ _ _ hmem] at h
        exact Or.inl h
      · rw [omKeys_append] at h
        rcases List.mem_append.mp h with h1 | h1
        · exact Or.inl h1
        · right
          simp only [omKeys, List.map_cons, List.mem_cons]
          left
          simpa [omKeys] using h1
    · right
      simp only [omKeys, List.map_cons, List.mem_cons]
      right
      exact h

/-- The number of entries of `current` whose key was merged away. -/
def countIn (current : OutcomeMap) (S : List Pat) : Nat :=
  (omRestrict current S).length

/-- Invariant carried by the scan phase of one merge pass: the mass of
`new_outcomes` equals the merged-away mass of `current`; a clean state is
unchanged; a changed state has strictly fewer new entries than entries
merged away. -/
def ScanInv (current : OutcomeMap) (st : PassState) : Prop :=
  omMass st.newOutcomes = omMass (omRestrict current st.mergedAway) ∧
  (st.changed = false → st.newOutcomes = [] ∧ st.mergedAway = []) ∧
  (st.changed = true → st.newOutcomes.length < countIn current st.mergedAway)

theorem scanInv_init (current : OutcomeMap) : ScanInv current ⟨[], [], false⟩ := by
  refine ⟨?_, fun _ => ⟨rfl, rfl⟩, fun h => by simp at h⟩
  rw [omRestrict_nil]

theorem do_merge_inv (current : OutcomeMap) (pos : Nat) (out1 out2 : Pat)
    (st : PassState) (hnd : (omKeys current).Nodup)
    (h1 : out1 ∈ omKeys current) (h2 : out2 ∈ omKeys current)
    (hm : can_merge_outcomes out1 out2 = some pos)
    (hn1 : out1 ∉ st.mergedAway) (hn2 : out2 ∉ st.mergedAway)
    (hinv : ScanInv current st) :
    ScanInv current (do_merge current pos out1 out2 st) := by
  obtain ⟨hmass, hclean, hcount⟩ := hinv
  have hne12 : out1 ≠ out2 := can_merge_ne hm
  have hml : out1.set pos 'X' ≠ out1 := can_merge_merged_ne_left hm
  have hmr : out1.set pos 'X' ≠ out2 := can_merge_merged_ne_right hm
  have hml' : out1 ≠ out1.set pos 'X' := fun he => hml he.symm
  have hmr' : out2 ≠ out1.set pos 'X' := fun he => hmr he.symm
  unfold do_merge merge_two_outcomes
  dsimp only
  split_ifs with hb1 hb2
  · -- accumulate into an existing new outcome
    have hch : st.changed = true := by
      rcases hch : st.changed with _ | _
      · rw [(hclean hch).1] at hb1
        simp [omKeys] at hb1
      · rfl
    refine ⟨?_, fun h => by simp at h, fun _ => ?_⟩
    · rw [omMass_omAdd, hmass,
        omMass_restrict_insert current out1 _ hnd h1 (by simp [hne12, hn1]),
        omMass_restrict_insert current out2 _ hnd h2 hn2]
      ring
    · rw [omAdd_length_mem _ _ _ hb1]
      unfold countIn
      rw [length_restrict_insert current out1 _ hnd h1 (by simp [hne12, hn1]),
        length_restrict_insert current out2 _ hnd h2 hn2]
      have := hcount hch
      unfold countIn at this
      omega
  · -- absorb an identical untouched current outcome
    refine ⟨?_, fun h => by simp at h, fun _ => ?_⟩
    · rw [omMass_append, hmass, omMass_cons, omMass_nil,
        omMass_restrict_insert current out1 _ hnd h1
          (by simp [hne12, hml', hn1]),
        omMass_restrict_insert current out2 _ hnd h2
          (by simp [hmr', hn2]),
        omMass_restrict_insert current _ _ hnd hb2.1 hb2.2]
      ring
    · simp only [List.length_append, List.length_cons, List.length_nil]
      unfold countIn
      rw [length_restrict_insert current out1 _ hnd h1
          (by simp [hne12, hml', hn1]),
        length_restrict_insert current out2 _ hnd h2
          (by simp [hmr', hn2]),
        length_restrict_insert current _ _ hnd hb2.1 hb2.2]
      rcases hch : st.changed with _ | _
      · have hcl := hclean hch
        rw [hcl.1, hcl.2, omRestrict_nil]
        simp
      · have := hcount hch
        unfold countIn at this
        omega
  · -- brand new merged outcome
    refine ⟨?_, fun h => by simp at h, fun _ => ?_⟩
    · rw [omMass_append, hmass, omMass_cons, omMass_nil,
        omMass_restrict_insert current out1 _ hnd h1 (by simp [hne12, hn1]),
        omMass_restrict_insert current out2 _ hnd h2 hn2]
      ring
    · simp only [List.length_append, List.length_cons, List.length_nil]
      unfold countIn
      rw [length_restrict_insert current out1 _ hnd h1 (by simp [hne12, hn1]),
        length_restrict_insert current out2 _ hnd h2 hn2]
      rcases hch : st.changed with _ | _
      · have hcl := hclean hch
        rw [hcl.1, hcl.2, omRestrict_nil]
        simp
      · have := hcount hch
        unfold countIn at this
        omega

theorem scan_partner_inv (current : OutcomeMap) (pos : Nat) (out1 : Pat)
    (hnd : (omKeys current).Nodup) (h1 : out1 ∈ omKeys current) :
    ∀ (rest : List Pat) (st : PassState), (∀ o ∈ rest, o ∈ omKeys current) →
      out1 ∉ st.mergedAway → ScanInv current st →
      ScanInv current (scan_partner current pos out1 rest st) := by
  intro rest
  induction rest with
  | nil => intro st _ _ hinv; exact hinv
  | cons out2 rest' ih =>
    intro st hsub hn1 hinv
    show ScanInv current
      (if out2 ∈ st.mergedAway then scan_partner current pos out1 rest' st
       else if can_merge_outcomes out1 out2 = some pos then
         do_merge current pos out1 out2 st
       else scan_partner current pos out1 rest' st)
    split_ifs with ha hb
    · exact ih st (fun o ho => hsub o (List.mem_cons_of_mem _ ho)) hn1 hinv
    · exact do_merge_inv current pos out1 out2 st hnd h1
        (hsub out2 (List.mem_cons_self _ _)) hb hn1 ha hinv
    · exact ih st (fun o ho => hsub o (List.mem_cons_of_mem _ ho)) hn1 hinv

theorem scan_members_inv (current : OutcomeMap) (pos : Nat)
    (hnd : (omKeys current).Nodup) :
    ∀ (members : List Pat) (st : PassState),
      (∀ o ∈ members, o ∈ omKeys current) → ScanInv current st →
      ScanInv current (scan_members current pos members st) := by
  intro members
  induction members with
  | nil => intro st _ hinv; exact hinv
  | cons out1 rest ih =>
    intro st hsub hinv
    cases rest with
    | nil => exact hinv
    | cons out2 rest' =>
      show ScanInv current (scan_members current pos (out2 :: rest')
        (if out1 ∈ st.mergedAway then st
         else scan_partner current pos out1 (out2 :: rest') st))
      refine ih _ (fun o ho => hsub o (List.mem_cons_of_mem _ ho)) ?_
      split_ifs with hmem
      · exact hinv
      · exact scan_partner_inv current pos out1 hnd
          (hsub out1 (List.mem_cons_self _ _)) (out2 :: rest') st
          (fun o ho => hsub o (List.mem_cons_of_mem _ ho)) hmem hinv

theorem scan_groups_inv (current : OutcomeMap) (pos : Nat)
    (hnd : (omKeys current).Nodup) :
    ∀ (groups : List (Pat × List Pat)) (st : PassState),
      (∀ g ∈ groups, ∀ o ∈ g.2, o ∈ omKeys current) → ScanInv current st →
      ScanInv current (scan_groups current pos groups st) := by
  intro groups
  induction groups with
  | nil => intro st _ hinv; exact hinv
  | cons g rest ih =>
    intro st hsub hinv
    show ScanInv current
      (scan_groups current pos rest (scan_members current pos g.2 st))
    refine ih _ (fun g' hg' o ho => hsub g' (List.mem_cons_of_mem _ hg') o ho) ?_
    exact scan_members_inv current pos hnd g.2 st
      (fun o ho => hsub g (List.mem_cons_self _ _) o ho) hinv

theorem mem_assocAppend {P : Pat → Prop} :
    ∀ (gs : List (Pat × List Pat)) (key o : Pat),
      (∀ g ∈ gs, ∀ x ∈ g.2, P x) → P o →
      ∀ g ∈ assocAppend gs key o, ∀ x ∈ g.2, P x := by
  intro gs
  induction gs with
  | nil =>
    intro key o _ ho g hg x hx
    unfold assocAppend at hg
    rw [List.mem_singleton] at hg
    subst hg
    rw [List.mem_singleton] at hx
    exact hx ▸ ho
  | cons kv rest ih =>
    intro key o hgs ho g hg x hx
    unfold assocAppend at hg
    split_ifs at hg with hk
    · rcases List.mem_cons.mp hg with rfl | hg'
      · rcases List.mem_append.mp hx with hx1 | hx1
        · exact hgs kv (List.mem_cons_self _ _) x hx1
        · rw [List.mem_singleton] at hx1
          exact hx1 ▸ ho
      · exact hgs g (List.mem_cons_of_mem _ hg') x hx
    · rcases List.mem_cons.mp hg with rfl | hg'
      · exact hgs g (List.mem_cons_self _ _) x hx
      · exact ih key o (fun g' hg'' => hgs g' (List.mem_cons_of_mem _ hg'')) ho g hg' x hx

theorem mem_build_groups_at {P : Pat → Prop} (pos : Nat) :
    ∀ (l : List Pat) (gs0 : List (Pat × List Pat)),
      (∀ x ∈ l, P x) → (∀ g ∈ gs0, ∀ x ∈ g.2, P x) →
      ∀ g ∈ l.foldl (fun gs o =>
          if o.getD pos ' ' = 'X' ∨ o.getD pos ' ' = 'D' then gs
          else assocAppend gs (get_merge_key o pos) o) gs0,
        ∀ x ∈ g.2, P x := by
  intro l
  induction l with
  | nil => intro gs0 _ hgs g hg x hx; exact hgs g hg x hx
  | cons o0 rest ih =>
    intro gs0 hl hgs g hg x hx
    rw [List.foldl_cons] at hg
    refine ih _ (fun y hy => hl y (List.mem_cons_of_mem _ hy)) ?_ g hg x hx
    split_ifs with hskip
    · exact hgs
    · exact mem_assocAppend gs0 _ o0 hgs (hl o0 (List.mem_cons_self _ _))

theorem merge_pass_state_inv (positions : List Nat) (current : OutcomeMap)
    (hnd : (omKeys current).Nodup) :
    ScanInv current (positions.foldl (fun st pos =>
      scan_groups current pos (build_groups_at pos (omKeys current)) st)
      ⟨[], [], false⟩) := by
  refine foldl_preserves (ScanInv current) _ positions _ (scanInv_init current) ?_
  intro pos _ st hst
  refine scan_groups_inv current pos hnd _ st ?_ hst
  unfold build_groups_at
  exact mem_build_groups_at pos (omKeys current) [] (fun x hx => hx) (by simp)

/-- One merge pass conserves total probability mass. -/
theorem merge_pass_mass (positions : List Nat) (current : OutcomeMap)
    (hnd : (omKeys current).Nodup) :
    omMass (merge_pass positions current).1 = omMass current := by
  unfold merge_pass
  dsimp only
  have hinv := merge_pass_state_inv positions current hnd
  obtain ⟨hmass, _, _⟩ := hinv
  rw [show (List.foldl (fun u kv => if kv.1 ∈ omKeys u then omAdd u kv.1 kv.2
        else u ++ [kv]) _ _) = (List.foldl rebuildStep _ _) from rfl,
    rebuild_fold_mass, hmass, ← omMass_split]

/-- One merge pass preserves key distinctness. -/
theorem merge_pass_nodup (positions : List Nat) (current : OutcomeMap)
    (hnd : (omKeys current).Nodup) :
    (omKeys (merge_pass positions current).1).Nodup := by
  unfold merge_pass
  dsimp only
  refine rebuild_fold_nodup _ _ ?_
  have hsub : List.Sublist (current.filter (fun kv =>
      decide (kv.1 ∉ (positions.foldl (fun st pos =>
        scan_groups current pos (build_groups_at pos (omKeys current)) st)
        ⟨[], [], false⟩).mergedAway))) current := List.filter_sublist _
  have hnd' : (List.map (fun kv : Pat × ℚ => kv.1) current).Nodup := by
    unfold omKeys at hnd; exact hnd
  have h2 := List.Nodup.sublist (hsub.map (fun kv : Pat × ℚ => kv.1)) hnd'
  unfold omKeys
  exact h2

/-- A pass that reports a change strictly shrinks the outcome dict. -/
theorem merge_pass_shrink (positions : List Nat) (current : OutcomeMap)
    (hnd : (omKeys current).Nodup)
    (hch : (merge_pass positions current).2 = true) :
    (merge_pass positions current).1.length < current.length := by
  have hinv := merge_pass_state_inv positions current hnd
  obtain ⟨_, _, hcount⟩ := hinv
  unfold merge_pass at hch ⊢
  dsimp only at hch ⊢
  have hc := hcount hch
  refine lt_of_le_of_lt (rebuild_fold_length _ _) ?_
  unfold countIn at hc
  have hsplit := length_split ((positions.foldl (fun st pos =>
    scan_groups current pos (build_groups_at pos (omKeys current)) st)
    ⟨[], [], false⟩).mergedAway) current
  omega

/-- A pass that reports no change returns the dict unchanged. -/
theorem merge_pass_unchanged (positions : List Nat) (current : OutcomeMap)
    (hnd : (omKeys current).Nodup)
    (hch : (merge_pass positions current).2 = false) :
    (merge_pass positions current).1 = current := by
  have hinv := merge_pass_state_inv positions current hnd
  obtain ⟨_, hclean, _⟩ := hinv
  unfold merge_pass at hch ⊢
  dsimp only at hch ⊢
  obtain ⟨hnew, hmerged⟩ := hclean hch
  rw [hnew, hmerged, List.foldl_nil]
  refine List.filter_eq_self.mpr ?_
  intro kv _
  simp

/-- The fuelled `while changed` loop conserves mass and key
distinctness. -/
theorem merge_round_loop_preserves (positions : List Nat) :
    ∀ (fuel : Nat) (current : OutcomeMap), (omKeys current).Nodup →
      omMass (merge_round_loop positions fuel current) = omMass current ∧
      (omKeys (merge_round_loop positions fuel current)).Nodup := by
  intro fuel
  induction fuel with
  | zero => intro current hnd; exact ⟨rfl, hnd⟩
  | succ fuel ih =>
    intro current hnd
    show omMass (if (merge_pass positions current).2 then
        merge_round_loop positions fuel (merge_pass positions current).1
      else (merge_pass positions current).1) = omMass current ∧
      (omKeys (if (merge_pass positions current).2 then
        merge_round_loop positions fuel (merge_pass positions current).1
      else (merge_pass positions current).1)).Nodup
    split_ifs with hch
    · obtain ⟨hm, hn⟩ := ih (merge_pass positions current).1
        (merge_pass_nodup positions current hnd)
      exact ⟨hm.trans (merge_pass_mass positions current hnd), hn⟩
    · exact ⟨merge_pass_mass positions current hnd,
        merge_pass_nodup positions current hnd⟩

/-- C3: merge mass conservation — for every outcome map with distinct
keys (a finite map) and any `remaining_games` argument, the sum of the
probabilities over the outcomes returned by `merge_outcomes` equals the
sum over the input outcomes exactly. -/
theorem merge_mass_conservation (m : OutcomeMap)
    (rg : Option (List (String × Nat))) (hnd : (omKeys m).Nodup) :
    omMass (merge_outcomes m rg) = omMass m := by
  unfold merge_outcomes
  split_ifs with hle
  · rfl
  · dsimp only
    refine (foldl_preserves
      (fun cur => omMass cur = omMass m ∧ (omKeys cur).Nodup) _ _ _
      ⟨rfl, hnd⟩ ?_).1
    intro rp _ cur hcur
    obtain ⟨h1, h2⟩ := merge_round_loop_preserves rp.2 (cur.length + 1) cur hcur.2
    exact ⟨h1.trans hcur.1, h2⟩

/-- A concrete three-outcome map for the C3 witness. -/
def mergeFixtureC3 : OutcomeMap :=
  [(['0', '0'], (1 : ℚ) / 2), (['0', '1'], 1 / 4), (['1', '0'], 1 / 4)]

/-- Witness for C3 at a concrete outcome map. -/
theorem merge_mass_conservation_witness :
    (omKeys mergeFixtureC3).Nodup ∧
      omMass (merge_outcomes mergeFixtureC3 none) = omMass mergeFixtureC3 :=
  ⟨by decide, merge_mass_conservation mergeFixtureC3 none (by decide)⟩

/-! ### Exhaustiveness of a merge pass (C4) -/

/-- `b` occurs strictly after `a` in `l`. -/
def ListOrdPair (l : List Pat) (a b : Pat) : Prop :=
  ∃ l1 l2, l = l1 ++ a :: l2 ∧ b ∈ l2

theorem mem_ord_pair :
    ∀ (l : List Pat) (a b : Pat), a ∈ l → b ∈ l → a ≠ b →
      ListOrdPair l a b ∨ ListOrdPair l b a := by
  intro l
  induction l with
  | nil => intro a b ha _ _; cases ha
  | cons x xs ih =>
    intro a b ha hb hne
    by_cases hax : a = x
    · subst hax
      have hb' : b ∈ xs := by
        rcases List.mem_cons.mp hb with h | h
        · exact absurd h.symm hne
        · exact h
      exact Or.inl ⟨[], xs, rfl, hb'⟩
    · by_cases hbx : b = x
      · subst hbx
        have ha' : a ∈ xs := by
          rcases List.mem_cons.mp ha with h | h
          · exact absurd h hax
          · exact h
        exact Or.inr ⟨[], xs, rfl, ha'⟩
      · have ha' : a ∈ xs := by
          rcases List.mem_cons.mp ha with h | h
          · exact absurd h hax
          · exact h
        have hb' : b ∈ xs := by
          rcases List.mem_cons.mp hb with h | h
          · exact absurd h hbx
          · exact h
        rcases ih a b ha' hb' hne with ⟨l1, l2, heq, hm⟩ | ⟨l1, l2, heq, hm⟩
        · exact Or.inl ⟨x :: l1, l2, by rw [heq, List.cons_append], hm⟩
        · exact Or.inr ⟨x :: l1, l2, by rw [heq, List.cons_append], hm⟩

theorem do_merge_changed (current : OutcomeMap) (pos : Nat) (out1 out2 : Pat)
    (st : PassState) : (do_merge current pos out1 out2 st).changed = true := by
  unfold do_merge
  dsimp only

theorem scan_partner_changed (current : OutcomeMap) (pos : Nat) (out1 : Pat) :
    ∀ (rest : List Pat) (st : PassState), st.changed = true →
      (scan_partner current pos out1 rest st).changed = true := by
  intro rest
  induction rest with
  | nil => intro st h; exact h
  | cons out2 rest' ih =>
    intro st h
    show (if out2 ∈ st.mergedAway then scan_partner current pos out1 rest' st
       else if can_merge_outcomes out1 out2 = some pos then
         do_merge current pos out1 out2 st
       else scan_partner current pos out1 rest' st).changed = true
    split_ifs with ha hb
    · exact ih st h
    · exact do_merge_changed current pos out1 out2 st
    · exact ih st h

theorem scan_partner_eq_or (current : OutcomeMap) (pos : Nat) (out1 : Pat) :
    ∀ (rest : List Pat) (st : PassState),
      scan_partner current pos out1 rest st = st ∨
        (scan_partner current pos out1 rest st).changed = true := by
  intro rest
  induction rest with
  | nil => intro st; exact Or.inl rfl
  | cons out2 rest' ih =>
    intro st
    have hstep : scan_partner current pos out1 (out2 :: rest') st =
        (if out2 ∈ st.mergedAway then scan_partner current pos out1 rest' st
         else if can_merge_outcomes out1 out2 = some pos then
           do_merge current pos out1 out2 st
         else scan_partner current pos out1 rest' st) := rfl
    rw [hstep]
    split_ifs with ha hb
    · exact ih st
    · exact Or.inr (do_merge_changed current pos out1 out2 st)
    · exact ih st

theorem scan_members_changed (current : OutcomeMap) (pos : Nat) :
    ∀ (members : List Pat) (st : PassState), st.changed = true →
      (scan_members current pos members st).changed = true := by
  intro members
  induction members with
  | nil => intro st h; exact h
  | cons out1 rest ih =>
    intro st h
    cases rest with
    | nil => exact h
    | cons out2 rest' =>
      show (scan_members current pos (out2 :: rest')
        (if out1 ∈ st.mergedAway then st
         else scan_partner current pos out1 (out2 :: rest') st)).changed = true
      refine ih _ ?_
      split_ifs with hmem
      · exact h
      · exact scan_partner_changed current pos out1 (out2 :: rest') st h

theorem scan_members_eq_or (current : OutcomeMap) (pos : Nat) :
    ∀ (members : List Pat) (st : PassState),
      scan_members current pos members st = st ∨
        (scan_members current pos members st).changed = true := by
  intro members
  induction members with
  | nil => intro st; exact Or.inl rfl
  | cons out1 rest ih =>
    intro st
    cases rest with
    | nil => exact Or.inl rfl
    | cons out2 rest' =>
      have hstep : scan_members current pos (out1 :: out2 :: rest') st =
          scan_members current pos (out2 :: rest')
            (if out1 ∈ st.mergedAway then st
             else scan_partner current pos out1 (out2 :: rest') st) := rfl
      rw [hstep]
      split_ifs with hmem
      · exact ih st
      · rcases scan_partner_eq_or current pos out1 (out2 :: rest') st with heq | hch
        · rw [heq]; exact ih st
        · exact Or.inr (scan_members_changed current pos (out2 :: rest') _ hch)

theorem scan_groups_changed (current : OutcomeMap) (pos : Nat) :
    ∀ (groups : List (Pat × List Pat)) (st : PassState), st.changed = true →
      (scan_groups current pos groups st).changed = true := by
  intro groups
  induction groups with
  | nil => intro st h; exact h
  | cons g rest ih =>
    intro st h
    show (scan_groups current pos rest (scan_members current pos g.2 st)).changed = true
    exact ih _ (scan_members_changed current pos g.2 st h)

theorem scan_groups_eq_or (current : OutcomeMap) (pos : Nat) :
    ∀ (groups : List (Pat × List Pat)) (st : PassState),
      scan_groups current pos groups st = st ∨
        (scan_groups current pos groups st).changed = true := by
  intro groups
  induction groups with
  | nil => intro st; exact Or.inl rfl
  | cons g rest ih =>
    intro st
    have hstep : scan_groups current pos (g :: rest) st =
        scan_groups current pos rest (scan_members current pos g.2 st) := rfl
    rw [hstep]
    rcases scan_members_eq_or current pos g.2 st with heq | hch
    · rw [heq]; exact ih st
    · exact Or.inr (scan_groups_changed current pos rest _ hch)

theorem scan_partner_fires (current : OutcomeMap) (pos : Nat) (out1 : Pat) :
    ∀ (rest : List Pat) (st : PassState),
      (∃ out2 ∈ rest, out2 ∉ st.mergedAway ∧
        can_merge_outcomes out1 out2 = some pos) →
      (scan_partner current pos out1 rest st).changed = true := by
  intro rest
  induction rest with
  | nil => rintro st ⟨w, hw, _⟩; cases hw
  | cons o2 rest' ih =>
    rintro st ⟨w, hw, hwm, hwc⟩
    show (if o2 ∈ st.mergedAway then scan_partner current pos out1 rest' st
       else if can_merge_outcomes out1 o2 = some pos then
         do_merge current pos out1 o2 st
       else scan_partner current pos out1 rest' st).changed = true
    split_ifs with ha hb
    · rcases List.mem_cons.mp hw with rfl | hw'
      · exact absurd ha hwm
      · exact ih st ⟨w, hw', hwm, hwc⟩
    · exact do_merge_changed current pos out1 o2 st
    · rcases List.mem_cons.mp hw with rfl | hw'
      · exact absurd hwc hb
      · exact ih st ⟨w, hw', hwm, hwc⟩

theorem scan_members_fires (current : OutcomeMap) (pos : Nat) :
    ∀ (members : List Pat) (st : PassState),
      (∃ a b, ListOrdPair members a b ∧ a ∉ st.mergedAway ∧ b ∉ st.mergedAway ∧
        can_merge_outcomes a b = some pos) →
      (scan_members current pos members st).changed = true := by
  intro members
  induction members with
  | nil =>
    rintro st ⟨a, b, ⟨l1, l2, heq, _⟩, _⟩
    exact absurd heq (by cases l1 <;> simp)
  | cons out1 rest ih =>
    rintro st ⟨a, b, ⟨l1, l2, heq, hbmem⟩, ham, hbm, hc⟩
    cases rest with
    | nil =>
      exfalso
      cases l1 with
      | nil =>
        simp only [List.nil_append, List.cons.injEq] at heq
        rw [← heq.2] at hbmem
        cases hbmem
      | cons x l1' =>
        simp only [List.cons_append, List.cons.injEq] at heq
        exact absurd heq.2 (by cases l1' <;> simp)
    | cons out2 rest' =>
      show (scan_members current pos (out2 :: rest')
        (if out1 ∈ st.mergedAway then st
         else scan_partner current pos out1 (out2 :: rest') st)).changed = true
      cases l1 with
      | nil =>
        simp only [List.nil_append, List.cons.injEq] at heq
        obtain ⟨h1, h2⟩ := heq
        subst h1
        subst h2
        rw [if_neg ham]
        exact scan_members_changed current pos (out2 :: rest') _
          (scan_partner_fires current pos out1 (out2 :: rest') st ⟨b, hbmem, hbm, hc⟩)
      | cons x l1' =>
        simp only [List.cons_append, List.cons.injEq] at heq
        obtain ⟨rfl, htail⟩ := heq
        split_ifs with hmem
        · exact ih st ⟨a, b, ⟨l1', l2, htail, hbmem⟩, ham, hbm, hc⟩
        · rcases scan_partner_eq_or current pos out1 (out2 :: rest') st with heqst | hch
          · rw [heqst]
            exact ih st ⟨a, b, ⟨l1', l2, htail, hbmem⟩, ham, hbm, hc⟩
          · exact scan_members_changed current pos (out2 :: rest') _ hch

theorem scan_groups_fires (current : OutcomeMap) (pos : Nat) :
    ∀ (groups : List (Pat × List Pat)) (st : PassState), st.mergedAway = [] →
      (∃ g ∈ groups, ∃ a b, ListOrdPair g.2 a b ∧
        can_merge_outcomes a b = some pos) →
      (scan_groups current pos groups st).changed = true := by
  intro groups
  induction groups with
  | nil => rintro st _ ⟨g, hg, _⟩; cases hg
  | cons g0 rest ih =>
    rintro st hempty ⟨g, hg, a, b, hpair, hc⟩
    show (scan_groups current pos rest (scan_members current pos g0.2 st)).changed = true
    rcases List.mem_cons.mp hg with rfl | hg'
    · refine scan_groups_changed current pos rest _ ?_
      refine scan_members_fires current pos g.2 st ⟨a, b, hpair, ?_, ?_, hc⟩
      · rw [hempty]; simp
      · rw [hempty]; simp
    · rcases scan_members_eq_or current pos g0.2 st with heq | hch
      · rw [heq]
        exact ih st hempty ⟨g, hg', a, b, hpair, hc⟩
      · exact scan_groups_changed current pos rest _ hch

/-- The members of the bucket keyed `K`. -/
def bucketOf (gs : List (Pat × List Pat)) (K : Pat) : List Pat :=
  ((gs.find? (fun g => g.1 = K)).map (fun g => g.2)).getD []

theorem bucketOf_assocAppend (K : Pat) :
    ∀ (gs : List (Pat × List Pat)) (key o : Pat),
      bucketOf (assocAppend gs key o) K =
        if key = K then bucketOf gs K ++ [o] else bucketOf gs K := by
  intro gs
  induction gs with
  | nil =>
    intro key o
    unfold assocAppend bucketOf
    by_cases hk : key = K
    · rw [if_pos hk, List.find?_cons_of_pos _ (by simpa using hk), List.find?_nil]
      simp
    · rw [if_neg hk, List.find?_cons_of_neg _ (by simpa using hk), List.find?_nil]
  | cons kv rest ih =>
    intro key o
    by_cases hk : kv.1 = key
    · by_cases hKK : key = K
      · have hK : kv.1 = K := hk.trans hKK
        unfold assocAppend bucketOf
        rw [if_pos hk, if_pos hKK,
          List.find?_cons_of_pos _ (by simpa using hK),
          List.find?_cons_of_pos _ (by simpa using hK)]
        simp
      · have hK : ¬ kv.1 = K := fun he => hKK (hk.symm.trans he)
        unfold assocAppend bucketOf
        rw [if_pos hk, if_neg hKK,
          List.find?_cons_of_neg _ (by simpa using hK),
          List.find?_cons_of_neg _ (by simpa using hK)]
    · by_cases hKK : key = K
      · have hK : ¬ kv.1 = K := fun he => hk (he.trans hKK.symm)
        unfold assocAppend bucketOf
        rw [if_neg hk, if_pos hKK,
          List.find?_cons_of_neg _ (by simpa using hK),
          List.find?_cons_of_neg _ (by simpa using hK)]
        have hrec := ih key o
        unfold bucketOf at hrec
        rw [if_pos hKK] at hrec
        exact hrec
      · by_cases hK : kv.1 = K
        · unfold assocAppend bucketOf
          rw [if_neg hk, if_neg hKK,
            List.find?_cons_of_pos _ (by simpa using hK),
            List.find?_cons_of_pos _ (by simpa using hK)]
        · unfold assocAppend bucketOf
          rw [if_neg hk, if_neg hKK,
            List.find?_cons_of_neg _ (by simpa using hK),
            List.find?_cons_of_neg _ (by simpa using hK)]
          have hrec := ih key o
          unfold bucketOf at hrec
          rw [if_neg hKK] at hrec
          exact hrec

theorem bucketOf_build_groups (pos : Nat) (K : Pat) :
    ∀ (l : List Pat) (gs0 : List (Pat × List Pat)),
      bucketOf (l.foldl (fun gs o =>
          if o.getD pos ' ' = 'X' ∨ o.getD pos ' ' = 'D' then gs
          else assocAppend gs (get_merge_key o pos) o) gs0) K =
        bucketOf gs0 K ++
          l.filter (fun o => decide (¬(o.getD pos ' ' = 'X' ∨ o.getD pos ' ' = 'D') ∧
            get_merge_key o pos = K)) := by
  intro l
  induction l with
  | nil => intro gs0; simp
  | cons o0 rest ih =>
    intro gs0
    rw [List.foldl_cons, List.filter_cons]
    by_cases hskip : o0.getD pos ' ' = 'X' ∨ o0.getD pos ' ' = 'D'
    · rw [if_pos hskip,
        if_neg (by simp only [decide_eq_true_eq]; exact fun hcon => hcon.1 hskip), ih]
    · rw [if_neg hskip]
      by_cases hK : get_merge_key o0 pos = K
      · rw [if_pos (by simp only [decide_eq_true_eq]; exact ⟨hskip, hK⟩), ih,
          bucketOf_assocAppend, if_pos hK,
          List.append_assoc, List.singleton_append]
      · rw [if_neg (by simp only [decide_eq_true_eq]; exact fun hcon => hK hcon.2),
          ih, bucketOf_assocAppend, if_neg hK]

/-- Every non-skipped outcome is in its bucket. -/
theorem mem_bucketOf_build_groups (pos : Nat) (l : List Pat) (x : Pat)
    (hx : x ∈ l) (hX : x.getD pos ' ' ≠ 'X') (hD : x.getD pos ' ' ≠ 'D') :
    x ∈ bucketOf (build_groups_at pos l) (get_merge_key x pos) := by
  unfold build_groups_at
  rw [bucketOf_build_groups]
  refine List.mem_append.mpr (Or.inr ?_)
  refine List.mem_filter.mpr ⟨hx, ?_⟩
  simp only [decide_eq_true_eq]
  exact ⟨fun h => h.elim hX hD, trivial⟩

/-- A nonempty bucket belongs to the group list. -/
theorem bucketOf_mem (gs : List (Pat × List Pat)) (K : Pat)
    (hne : bucketOf gs K ≠ []) : ∃ g ∈ gs, g.2 = bucketOf gs K := by
  unfold bucketOf at hne ⊢
  rcases hfind : gs.find? (fun g => g.1 = K) with _ | g0
  · rw [hfind] at hne
    simp at hne
  · rw [hfind]
    exact ⟨g0, List.mem_of_find?_eq_some hfind, rfl⟩

/-- If a pass reports no change, no two current outcomes are mergeable
at any scanned position (assuming no `'D'` characters appear). -/
theorem merge_pass_exhaustive (positions : List Nat) (current : OutcomeMap)
    (hD : ∀ k ∈ omKeys current, ∀ c ∈ k, c ≠ 'D')
    (hfalse : (merge_pass positions current).2 = false) :
    ∀ pos ∈ positions, ∀ k1 ∈ omKeys current, ∀ k2 ∈ omKeys current,
      can_merge_outcomes k1 k2 ≠ some pos := by
  intro pos hpos k1 hk1 k2 hk2 hc
  have hne : k1 ≠ k2 := can_merge_ne hc
  obtain ⟨hlen, hi, hdne, hx1, hx2, hall⟩ := (can_merge_eq_some_iff k1 k2 pos).mp hc
  have hgd1 : k1.getD pos ' ' ∈ k1 := by
    rw [List.getD_eq_getElem _ _ hi]
    exact List.getElem_mem hi
  have hi2 : pos < k2.length := by omega
  have hgd2 : k2.getD pos ' ' ∈ k2 := by
    rw [List.getD_eq_getElem _ _ hi2]
    exact List.getElem_mem hi2
  have hD1 : k1.getD pos ' ' ≠ 'D' := hD k1 hk1 _ hgd1
  have hD2 : k2.getD pos ' ' ≠ 'D' := hD k2 hk2 _ hgd2
  have hkey : get_merge_key k1 pos = get_merge_key k2 pos := by
    unfold get_merge_key
    exact can_merge_set_eq hc
  have hb1 : k1 ∈ bucketOf (build_groups_at pos (omKeys current))
      (get_merge_key k1 pos) :=
    mem_bucketOf_build_groups pos (omKeys current) k1 hk1 hx1 hD1
  have hb2 : k2 ∈ bucketOf (build_groups_at pos (omKeys current))
      (get_merge_key k1 pos) := by
    rw [hkey]
    exact mem_bucketOf_build_groups pos (omKeys current) k2 hk2 hx2 hD2
  obtain ⟨g, hg, hgB⟩ := bucketOf_mem (build_groups_at pos (omKeys current))
    (get_merge_key k1 pos) (fun he => by rw [he] at hb1; cases hb1)
  rw [← hgB] at hb1 hb2
  have hfires : ∃ a b, ListOrdPair g.2 a b ∧ can_merge_outcomes a b = some pos := by
    rcases mem_ord_pair g.2 k1 k2 hb1 hb2 hne with hp | hp
    · exact ⟨k1, k2, hp, hc⟩
    · exact ⟨k2, k1, hp, can_merge_symm hc⟩
  have hchanged : (positions.foldl (fun st pos =>
      scan_groups current pos (build_groups_at pos (omKeys current)) st)
      ⟨[], [], false⟩).changed = true := by
    clear hfalse
    have hgen : ∀ (ps : List Nat) (st : PassState), st.mergedAway = [] →
        pos ∈ ps →
        (ps.foldl (fun st pos =>
          scan_groups current pos (build_groups_at pos (omKeys current)) st)
          st).changed = true := by
      intro ps
      induction ps with
      | nil => intro st _ hmem; cases hmem
      | cons p ps' ih =>
        intro st hempty hmem
        rw [List.foldl_cons]
        have hmono : ∀ (qs : List Nat) (st' : PassState), st'.changed = true →
            (qs.foldl (fun st pos =>
              scan_groups current pos (build_groups_at pos (omKeys current)) st)
              st').changed = true := by
          intro qs
          induction qs with
          | nil => intro st' h; exact h
          | cons q qs' ihq =>
            intro st' h
            rw [List.foldl_cons]
            exact ihq _ (scan_groups_changed current q _ st' h)
        rcases List.mem_cons.mp hmem with rfl | hmem'
        · refine hmono ps' _ ?_
          exact scan_groups_fires current pos _ st hempty ⟨g, hg, hfires⟩
        · rcases scan_groups_eq_or current p (build_groups_at p (omKeys current)) st
            with heq | hch
          · rw [heq]
            exact ih st hempty hmem'
          · exact hmono ps' _ hch
    exact hgen positions ⟨[], [], false⟩ rfl hpos
  unfold merge_pass at hfalse
  dsimp only at hfalse
  rw [hchanged] at hfalse
  cases hfalse

theorem mem_of_mem_set {α : Type} :
    ∀ (l : List α) (i : Nat) (a c : α), c ∈ l.set i a → c = a ∨ c ∈ l := by
  intro l
  induction l with
  | nil => intro i a c hc; rw [List.set_nil] at hc; cases hc
  | cons x xs ih =>
    intro i a c hc
    cases i with
    | zero =>
      rw [List.set_cons_zero] at hc
      rcases List.mem_cons.mp hc with rfl | h
      · exact Or.inl rfl
      · exact Or.inr (List.mem_cons_of_mem _ h)
    | succ i =>
      rw [List.set_cons_succ] at hc
      rcases List.mem_cons.mp hc with rfl | h
      · exact Or.inr (List.mem_cons_self _ _)
      · rcases ih i a c h with h1 | h1
        · exact Or.inl h1
        · exact Or.inr (List.mem_cons_of_mem _ h1)

/-- Propagation of a per-key property (closed under wildcarding) through
the scan phase: every key of `new_outcomes` satisfies it. -/
theorem do_merge_keysP {P : Pat → Prop} (current : OutcomeMap) (pos : Nat)
    (out1 out2 : Pat) (st : PassState)
    (hcur : ∀ k ∈ omKeys current, P k)
    (hclosed : ∀ k, P k → ∀ p, P (k.set p 'X'))
    (h1 : out1 ∈ omKeys current)
    (hst : ∀ k ∈ omKeys st.newOutcomes, P k) :
    ∀ k ∈ omKeys (do_merge current pos out1 out2 st).newOutcomes, P k := by
  have hmerged : P (out1.set pos 'X') := hclosed out1 (hcur out1 h1) pos
  unfold do_merge merge_two_outcomes
  dsimp only
  split_ifs with hb1 hb2
  · rw [omKeys_omAdd_mem _ _ _ hb1]
    exact hst
  · intro k hk
    rw [omKeys_append] at hk
    rcases List.mem_append.mp hk with h | h
    · exact hst k h
    · rw [show omKeys [(out1.set pos 'X', (omGet current (out1.set pos 'X')).getD 0 +
          (omGet current out1).getD 0 + (omGet current out2).getD 0)] =
          [out1.set pos 'X'] from rfl, List.mem_singleton] at h
      exact h ▸ hmerged
  · intro k hk
    rw [omKeys_append] at hk
    rcases List.mem_append.mp hk with h | h
    · exact hst k h
    · rw [show omKeys [(out1.set pos 'X', (omGet current out1).getD 0 +
          (omGet current out2).getD 0)] = [out1.set pos 'X'] from rfl,
        List.mem_singleton] at h
      exact h ▸ hmerged

theorem scan_partner_keysP {P : Pat → Prop} (current : OutcomeMap) (pos : Nat)
    (out1 : Pat) (hcur : ∀ k ∈ omKeys current, P k)
    (hclosed : ∀ k, P k → ∀ p, P (k.set p 'X'))
    (h1 : out1 ∈ omKeys current) :
    ∀ (rest : List Pat) (st : PassState),
      (∀ k ∈ omKeys st.newOutcomes, P k) →
      ∀ k ∈ omKeys (scan_partner current pos out1 rest st).newOutcomes, P k := by
  intro rest
  induction rest with
  | nil => intro st hst; exact hst
  | cons out2 rest' ih =>
    intro st hst
    show ∀ k ∈ omKeys (if out2 ∈ st.mergedAway then
        scan_partner current pos out1 rest' st
      else if can_merge_outcomes out1 out2 = some pos then
        do_merge current pos out1 out2 st
      else scan_partner current pos out1 rest' st).newOutcomes, P k
    split_ifs with ha hb
    · exact ih st hst
    · exact do_merge_keysP current pos out1 out2 st hcur hclosed h1 hst
    · exact ih st hst

theorem scan_members_keysP {P : Pat → Prop} (current : OutcomeMap) (pos : Nat)
    (hcur : ∀ k ∈ omKeys current, P k)
    (hclosed : ∀ k, P k → ∀ p, P (k.set p 'X')) :
    ∀ (members : List Pat) (st : PassState),
      (∀ o ∈ members, o ∈ omKeys current) →
      (∀ k ∈ omKeys st.newOutcomes, P k) →
      ∀ k ∈ omKeys (scan_members current pos members st).newOutcomes, P k := by
  intro members
  induction members with
  | nil => intro st _ hst; exact hst
  | cons out1 rest ih =>
    intro st hsub hst
    cases rest with
    | nil => exact hst
    | cons out2 rest' =>
      show ∀ k ∈ omKeys (scan_members current pos (out2 :: rest')
        (if out1 ∈ st.mergedAway then st
         else scan_partner current pos out1 (out2 :: rest') st)).newOutcomes, P k
      refine ih _ (fun o ho => hsub o (List.mem_cons_of_mem _ ho)) ?_
      split_ifs with hmem
      · exact hst
      · exact scan_partner_keysP current pos out1 hcur hclosed
          (hsub out1 (List.mem_cons_self _ _)) (out2 :: rest') st hst

theorem scan_groups_keysP {P : Pat → Prop} (current : OutcomeMap) (pos : Nat)
    (hcur : ∀ k ∈ omKeys current, P k)
    (hclosed : ∀ k, P k → ∀ p, P (k.set p 'X')) :
    ∀ (groups : List (Pat × List Pat)) (st : PassState),
      (∀ g ∈ groups, ∀ o ∈ g.2, o ∈ omKeys current) →
      (∀ k ∈ omKeys st.newOutcomes, P k) →
      ∀ k ∈ omKeys (scan_groups current pos groups st).newOutcomes, P k := by
  intro groups
  induction groups with
  | nil => intro st _ hst; exact hst
  | cons g rest ih =>
    intro st hsub hst
    show ∀ k ∈ omKeys (scan_groups current pos rest
      (scan_members current pos g.2 st)).newOutcomes, P k
    refine ih _ (fun g' hg' o ho => hsub g' (List.mem_cons_of_mem _ hg') o ho) ?_
    exact scan_members_keysP current pos hcur hclosed g.2 st
      (fun o ho => hsub g (List.mem_cons_self _ _) o ho) hst

/-- A merge pass preserves any per-key property closed under
wildcarding. -/
theorem merge_pass_keysP {P : Pat → Prop} (positions : List Nat)
    (current : OutcomeMap) (hcur : ∀ k ∈ omKeys current, P k)
    (hclosed : ∀ k, P k → ∀ p, P (k.set p 'X')) :
    ∀ k ∈ omKeys (merge_pass positions current).1, P k := by
  unfold merge_pass
  dsimp only
  intro k hk
  rcases rebuild_fold_keys _ _ k hk with h | h
  · -- a surviving key of `current`
    have hmem : k ∈ omKeys current := by
      unfold omKeys at h ⊢
      obtain ⟨kv, hkv, rfl⟩ := List.mem_map.mp h
      exact List.mem_map.mpr ⟨kv, List.mem_of_mem_filter hkv, rfl⟩
    exact hcur k hmem
  · -- a key of the accumulated `new_outcomes`
    refine (foldl_preserves
      (fun st : PassState => ∀ k ∈ omKeys st.newOutcomes, P k) _ positions _
      (by intro k hk; cases hk) ?_) k h
    intro pos _ st hst
    refine scan_groups_keysP current pos hcur hclosed _ st ?_ hst
    unfold build_groups_at
    exact mem_build_groups_at pos (omKeys current) [] (fun x hx => hx) (by simp)

theorem scan_partner_nofire (current : OutcomeMap) (pos : Nat) (out1 : Pat) :
    ∀ (rest : List Pat) (st : PassState),
      (∀ o2 ∈ rest, can_merge_outcomes out1 o2 ≠ some pos) →
      scan_partner current pos out1 rest st = st := by
  intro rest
  induction rest with
  | nil => intro st _; rfl
  | cons o2 rest' ih =>
    intro st hno
    show (if o2 ∈ st.mergedAway then scan_partner current pos out1 rest' st
       else if can_merge_outcomes out1 o2 = some pos then
         do_merge current pos out1 o2 st
       else scan_partner current pos out1 rest' st) = st
    split_ifs with ha hb
    · exact ih st (fun o ho => hno o (List.mem_cons_of_mem _ ho))
    · exact absurd hb (hno o2 (List.mem_cons_self _ _))
    · exact ih st (fun o ho => hno o (List.mem_cons_of_mem _ ho))

theorem scan_members_noop (current : OutcomeMap) (pos : Nat) :
    ∀ (members : List Pat) (st : PassState),
      (∀ a ∈ members, ∀ b ∈ members, can_merge_outcomes a b ≠ some pos) →
      scan_members current pos members st = st := by
  intro members
  induction members with
  | nil => intro st _; rfl
  | cons out1 rest ih =>
    intro st hno
    cases rest with
    | nil => rfl
    | cons out2 rest' =>
      show scan_members current pos (out2 :: rest')
        (if out1 ∈ st.mergedAway then st
         else scan_partner current pos out1 (out2 :: rest') st) = st
      have hsp : scan_partner current pos out1 (out2 :: rest') st = st :=
        scan_partner_nofire current pos out1 (out2 :: rest') st
          (fun o ho => hno out1 (List.mem_cons_self _ _) o (List.mem_cons_of_mem _ ho))
      have hst' : (if out1 ∈ st.mergedAway then st
          else scan_partner current pos out1 (out2 :: rest') st) = st := by
        split_ifs with h
        · rfl
        · exact hsp
      rw [hst']
      exact ih st (fun a ha b hb =>
        hno a (List.mem_cons_of_mem _ ha) b (List.mem_cons_of_mem _ hb))

theorem scan_groups_noop (current : OutcomeMap) (pos : Nat) :
    ∀ (groups : List (Pat × List Pat)) (st : PassState),
      (∀ g ∈ groups, ∀ a ∈ g.2, ∀ b ∈ g.2, can_merge_outcomes a b ≠ some pos) →
      scan_groups current pos groups st = st := by
  intro groups
  induction groups with
  | nil => intro st _; rfl
  | cons g rest ih =>
    intro st hno
    show scan_groups current pos rest (scan_members current pos g.2 st) = st
    rw [scan_members_noop current pos g.2 st (hno g (List.mem_cons_self _ _))]
    exact ih st (fun g' hg' => hno g' (List.mem_cons_of_mem _ hg'))

/-- When no two current outcomes are mergeable at any scanned position,
the pass is the identity and reports no change. -/
theorem merge_pass_nochange (positions : List Nat) (current : OutcomeMap)
    (hno : ∀ pos ∈ positions, ∀ k1 ∈ omKeys current, ∀ k2 ∈ omKeys current,
      can_merge_outcomes k1 k2 ≠ some pos) :
    merge_pass positions current = (current, false) := by
  have hfold : positions.foldl (fun st pos =>
      scan_groups current pos (build_groups_at pos (omKeys current)) st)
      ⟨[], [], false⟩ = ⟨[], [], false⟩ := by
    have hgen : ∀ (ps : List Nat), (∀ p ∈ ps, p ∈ positions) →
        ∀ st : PassState, ps.foldl (fun st pos =>
          scan_groups current pos (build_groups_at pos (omKeys current)) st)
          st = st := by
      intro ps
      induction ps with
      | nil => intro _ st; rfl
      | cons p ps' ih =>
        intro hsub st
        rw [List.foldl_cons]
        have hstep : scan_groups current p
            (build_groups_at p (omKeys current)) st = st := by
          refine scan_groups_noop current p _ st ?_
          intro g hg a ha b hb
          have hak : a ∈ omKeys current := by
            have := mem_build_groups_at (P := fun x => x ∈ omKeys current) p
              (omKeys current) [] (fun x hx => hx) (by simp)
            exact this g (by unfold build_groups_at at hg; exact hg) a ha
          have hbk : b ∈ omKeys current := by
            have := mem_build_groups_at (P := fun x => x ∈ omKeys current) p
              (omKeys current) [] (fun x hx => hx) (by simp)
            exact this g (by unfold build_groups_at at hg; exact hg) b hb
          exact hno p (hsub p (List.mem_cons_self _ _)) a hak b hbk
        rw [hstep]
        exact ih (fun q hq => hsub q (List.mem_cons_of_mem _ hq)) st
    exact hgen positions (fun p hp => hp) ⟨[], [], false⟩
  unfold merge_pass
  dsimp only
  rw [hfold]
  dsimp only
  rw [List.foldl_nil]
  have hfilter : current.filter (fun kv => decide (kv.1 ∉ ([] : List Pat))) =
      current := by
    refine List.filter_eq_self.mpr ?_
    intro kv _
    simp
  rw [hfilter]

/-- The fuelled loop with sufficient fuel reaches a fixpoint of the
pass, preserving key distinctness and any wildcard-closed key
property. -/
theorem merge_round_loop_exit {P : Pat → Prop}
    (hclosed : ∀ k, P k → ∀ p, P (k.set p 'X')) (positions : List Nat) :
    ∀ (fuel : Nat) (current : OutcomeMap), (omKeys current).Nodup →
      (∀ k ∈ omKeys current, P k) → current.length < fuel →
      (omKeys (merge_round_loop positions fuel current)).Nodup ∧
      (∀ k ∈ omKeys (merge_round_loop positions fuel current), P k) ∧
      merge_pass positions (merge_round_loop positions fuel current) =
        (merge_round_loop positions fuel current, false) := by
  intro fuel
  induction fuel with
  | zero => intro current _ _ hlt; omega
  | succ fuel ih =>
    intro current hnd hP hlt
    have hstep : merge_round_loop positions (fuel + 1) current =
        (if (merge_pass positions current).2 then
          merge_round_loop positions fuel (merge_pass positions current).1
        else (merge_pass positions current).1) := rfl
    rcases hch : (merge_pass positions current).2 with _ | _
    · have huncg := merge_pass_unchanged positions current hnd hch
      have hloop : merge_round_loop positions (fuel + 1) current = current := by
        rw [hstep, hch]
        simp only [Bool.false_eq_true, if_false]
        exact huncg
      rw [hloop]
      refine ⟨hnd, hP, ?_⟩
      have hpair : merge_pass positions current =
          ((merge_pass positions current).1, (merge_pass positions current).2) := rfl
      rw [hpair, huncg, hch]
    · have hloop : merge_round_loop positions (fuel + 1) current =
          merge_round_loop positions fuel (merge_pass positions current).1 := by
        rw [hstep, hch]
        simp only [if_true]
      rw [hloop]
      refine ih (merge_pass positions current).1
        (merge_pass_nodup positions current hnd)
        (merge_pass_keysP positions current hP hclosed) ?_
      have := merge_pass_shrink positions current hnd hch
      omega

/-- C4 (amended): for the unsynchronised merge (`remaining_games =
None`, merging over all positions together) on a finite map of
equal-length `{0,1,X}` outcome strings, no two returned outcomes are
mergeable and re-running `merge_outcomes` on the output returns it
unchanged.  (The round-synchronised path of `merge_outcomes` does not
satisfy this: see the counterexample.) -/
theorem merge_idempotent_unsync (m : OutcomeMap) (n : Nat)
    (hnd : (omKeys m).Nodup)
    (hkeys : ∀ k ∈ omKeys m, k.length = n ∧
      ∀ c ∈ k, c = '0' ∨ c = '1' ∨ c = 'X') :
    (∀ k1 ∈ omKeys (merge_outcomes m none), ∀ k2 ∈ omKeys (merge_outcomes m none),
      ∀ i, can_merge_outcomes k1 k2 ≠ some i) ∧
    merge_outcomes (merge_outcomes m none) none = merge_outcomes m none := by
  have hclosed : ∀ k : Pat, (k.length = n ∧ ∀ c ∈ k, c = '0' ∨ c = '1' ∨ c = 'X') →
      ∀ p, ((k.set p 'X').length = n ∧
        ∀ c ∈ k.set p 'X', c = '0' ∨ c = '1' ∨ c = 'X') := by
    rintro k ⟨hl, hc⟩ p
    refine ⟨by rw [List.length_set]; exact hl, ?_⟩
    intro c hcm
    rcases mem_of_mem_set _ _ _ _ hcm with rfl | h
    · right; right; rfl
    · exact hc c h
  by_cases hle : m.length ≤ 1
  · have hout : merge_outcomes m none = m := by
      unfold merge_outcomes
      rw [if_pos hle]
    rw [hout]
    constructor
    · intro k1 hk1 k2 hk2 i hc
      have hk12 : k1 = k2 := by
        cases m with
        | nil => cases hk1
        | cons kv rest =>
          cases rest with
          | nil =>
            simp only [omKeys, List.map_cons, List.map_nil,
              List.mem_singleton] at hk1 hk2
            rw [hk1, hk2]
          | cons kv2 rest2 => simp at hle
      exact can_merge_self k2 i (hk12 ▸ hc)
    · unfold merge_outcomes
      rw [if_pos hle]
  · have hmne : m ≠ [] := by
      intro he
      rw [he] at hle
      simp at hle
    have hkne : omKeys m ≠ [] := by
      unfold omKeys
      rw [ne_eq, List.map_eq_nil]
      exact hmne
    have hhead : ((omKeys m).headD []).length = n :=
      (hkeys _ (mem_of_headD hkne [])).1
    have hout : merge_outcomes m none =
        merge_round_loop (List.range n) (m.length + 1) m := by
      unfold merge_outcomes
      rw [if_neg hle]
      dsimp only
      rw [hhead, List.foldl_cons, List.foldl_nil]
    obtain ⟨hndR, hPR, hpassR⟩ := merge_round_loop_exit hclosed (List.range n)
      (m.length + 1) m hnd hkeys (by omega)
    rw [hout]
    have hD : ∀ k ∈ omKeys (merge_round_loop (List.range n) (m.length + 1) m),
        ∀ c ∈ k, c ≠ 'D' := by
      intro k hk c hc
      rcases (hPR k hk).2 c hc with rfl | rfl | rfl <;> decide
    have hnopair : ∀ k1 ∈ omKeys (merge_round_loop (List.range n) (m.length + 1) m),
        ∀ k2 ∈ omKeys (merge_round_loop (List.range n) (m.length + 1) m),
        ∀ i, can_merge_outcomes k1 k2 ≠ some i := by
      intro k1 hk1 k2 hk2 i hc
      have hi : i < k1.length := ((can_merge_eq_some_iff k1 k2 i).mp hc).2.1
      have hlen1 : k1.length = n := (hPR k1 hk1).1
      refine merge_pass_exhaustive (List.range n)
        (merge_round_loop (List.range n) (m.length + 1) m) hD
        (by rw [hpassR]) i (List.mem_range.mpr (by omega)) k1 hk1 k2 hk2 hc
    refine ⟨hnopair, ?_⟩
    by_cases hleR : (merge_round_loop (List.range n) (m.length + 1) m).length ≤ 1
    · unfold merge_outcomes
      rw [if_pos hleR]
    · have hRne : merge_round_loop (List.range n) (m.length + 1) m ≠ [] := by
        intro he
        rw [he] at hleR
        simp at hleR
      have hkRne : omKeys (merge_round_loop (List.range n) (m.length + 1) m) ≠ [] := by
        unfold omKeys
        rw [ne_eq, List.map_eq_nil]
        exact hRne
      have hheadR : ((omKeys (merge_round_loop (List.range n)
          (m.length + 1) m)).headD []).length = n :=
        (hPR _ (mem_of_headD hkRne [])).1
      unfold merge_outcomes
      rw [if_neg hleR]
      dsimp only
      rw [hheadR, List.foldl_cons, List.foldl_nil]
      have hstep : merge_round_loop (List.range n)
          ((merge_round_loop (List.range n) (m.length + 1) m).length + 1)
          (merge_round_loop (List.range n) (m.length + 1) m) =
          (if (merge_pass (List.range n)
              (merge_round_loop (List.range n) (m.length + 1) m)).2 then
            merge_round_loop (List.range n)
              (merge_round_loop (List.range n) (m.length + 1) m).length
              (merge_pass (List.range n)
                (merge_round_loop (List.range n) (m.length + 1) m)).1
          else (merge_pass (List.range n)
            (merge_round_loop (List.range n) (m.length + 1) m)).1) := rfl
      rw [hstep, hpassR]
      rfl

/-- Outcome map for the C4 counterexample (probabilities 1/2, 1/4, 1/4
on outcomes `0X`, `10`, `11`). -/
def mergeFixtureC4 : OutcomeMap :=
  [(['0', 'X'], (1 : ℚ) / 2), (['1', '0'], 1 / 4), (['1', '1'], 1 / 4)]

/-- The remaining games for the C4 counterexample: position 0 is a
round-1 game, position 1 a round-2 game. -/
def remainingC4 : List (String × Nat) := [("round1", 0), ("round2", 0)]

/-- C4 counterexample: on the round-synchronised path the returned set
`{0X, 1X}` contains a mergeable pair, and re-running `merge_outcomes`
on it changes it (to `{XX}`). -/
theorem merge_idempotence_counterexample :
    omKeys (merge_outcomes mergeFixtureC4 (some remainingC4)) =
      [['0', 'X'], ['1', 'X']] ∧
    can_merge_outcomes ['0', 'X'] ['1', 'X'] = some 0 ∧
    omKeys (merge_outcomes (merge_outcomes mergeFixtureC4 (some remainingC4))
      (some remainingC4)) = [['X', 'X']] ∧
    merge_outcomes (merge_outcomes mergeFixtureC4 (some remainingC4))
      (some remainingC4) ≠ merge_outcomes mergeFixtureC4 (some remainingC4) := by
  refine ⟨by decide, by decide, by decide, ?_⟩
  intro he
  exact absurd (congrArg omKeys he) (by decide)

/-- Outcome map for the C4 witness. -/
def mergeFixtureC4w : OutcomeMap :=
  [(['0', '0'], (1 : ℚ) / 2), (['0', '1'], 1 / 4), (['1', '0'], 1 / 4)]

/-- Witness for the amended C4 theorem at a concrete map. -/
theorem merge_idempotent_unsync_witness :
    ((omKeys mergeFixtureC4w).Nodup ∧
      ∀ k ∈ omKeys mergeFixtureC4w, k.length = 2 ∧
        ∀ c ∈ k, c = '0' ∨ c = '1' ∨ c = 'X') ∧
    ((∀ k1 ∈ omKeys (merge_outcomes mergeFixtureC4w none),
      ∀ k2 ∈ omKeys (merge_outcomes mergeFixtureC4w none),
      ∀ i, can_merge_outcomes k1 k2 ≠ some i) ∧
    merge_outcomes (merge_outcomes mergeFixtureC4w none) none =
      merge_outcomes mergeFixtureC4w none) :=
  ⟨⟨by decide, by decide⟩,
    merge_idempotent_unsync mergeFixtureC4w 2 (by decide) (by decide)⟩

/-! ### Monte-Carlo outcome generation (C8) -/

/-- `generate_random_outcome`: one uniformly random `{0,1}` string of
`num_games` bits, drawn from the explicit random stream `rng` starting
at counter `ctr`; returns the new counter. -/
def generate_random_outcome (rng : Nat → Bool) (ctr : Nat) (num_games : Nat) :
    Pat × Nat :=
  ((List.range num_games).map (fun j => if rng (ctr + j) then '1' else '0'),
    ctr + num_games)

/-- `[random.randint(0, 1) for _ in range(k)]` as a list of ints. -/
def randBits (rng : Nat → Bool) (ctr : Nat) (k : Nat) : List Nat × Nat :=
  ((List.range k).map (fun j => if rng (ctr + j) then 1 else 0), ctr + k)

/-- `set.add` on an insertion-ordered list (Python set contents; the
iteration order of a CPython set is unspecified, only membership and
cardinality are). -/
def addUnique (l : List String) (x : String) : List String :=
  if x ∈ l then l else l ++ [x]

/-- `find_remaining_teams`: teams that never lost a game. -/
def find_remaining_teams (b : Bracket) : List String :=
  let eliminated := ROUND_KEYS.foldl (fun elim round_key =>
    (b.getRound round_key).foldl (fun elim game =>
      match get_winner_name game with
      | none => elim
      | some winner =>
        let elim1 := match get_team_name game.team1 with
          | some t1 => if t1 ≠ winner then addUnique elim t1 else elim
          | none => elim
        match get_team_name game.team2 with
        | some t2 => if t2 ≠ winner then addUnique elim1 t2 else elim1
        | none => elim1) elim) []
  ROUND_KEYS.foldl (fun rem round_key =>
    (b.getRound round_key).foldl (fun rem game =>
      let rem1 := match get_team_name game.team1 with
        | some t1 => if t1 ∉ eliminated then addUnique rem t1 else rem
        | none => rem
      match get_team_name game.team2 with
      | some t2 => if t2 ∉ eliminated then addUnique rem1 t2 else rem1
      | none => rem1) rem) []

/-- `find_next_games`: undecided games whose two teams are set and (for
round ≥ 2) whose feeder games both have winners. -/
def find_next_games (b : Bracket) :
    List (String × Nat × Option Team × Option Team) :=
  ROUND_KEYS.foldl (fun acc round_key =>
    let round_num := ROUND_KEYS.indexOf round_key + 1
    acc ++ (b.getRound round_key).enum.filterMap (fun p =>
      let game := p.2
      if (get_winner_name game).isSome then none
      else if game.team1.isNone ∨ game.team2.isNone then none
      else if round_num = 1 then some (round_key, p.1, game.team1, game.team2)
      else
        match get_feeder_games round_key p.1 with
        | none => none
        | some (prev_round_key, f1_idx, f2_idx) =>
          let prev_round := b.getRound prev_round_key
          let f1_game := if f1_idx < prev_round.length then
              some (prev_round.getD f1_idx defaultGame) else none
          let f2_game := if f2_idx < prev_round.length then
              some (prev_round.getD f2_idx defaultGame) else none
          match f1_game, f2_game with
          | some g1, some g2 =>
            if (get_winner_name g1).isSome ∧ (get_winner_name g2).isSome then
              some (round_key, p.1, game.team1, game.team2)
            else none
          | _, _ => none)) []

/-- One remaining game of the champion-stratified generator's inner
loop: decide the winner from the current bit, force the target team to
win when present, record the bit, and propagate the winner. -/
def champ_step (team_name : String) (st : Bracket × List Nat)
    (p : Nat × String × Nat) : Bracket × List Nat :=
  let hypo := st.1
  let ol := st.2
  let game := gameAt hypo p.2.1 p.2.2
  let team1 := get_team_name game.team1
  let team2 := get_team_name game.team2
  let winner : Option Team :=
    if team1 = some team_name then game.team1
    else if team2 = some team_name then game.team2
    else if ol.getD p.1 0 = 1 then game.team1 else game.team2
  let ol' :=
    if team1 = some team_name then ol.set p.1 1
    else if team2 = some team_name then ol.set p.1 0
    else ol
  let hypo1 := setGame hypo p.2.1 p.2.2 { game with winner := winner }
  let hypo2 :=
    match get_parent_game_info p.2.1 p.2.2 with
    | none => hypo1
    | some (parent_round, parent_index, slot) =>
      if ROUND_KEYS.indexOf parent_round < hypo1.rounds.length then
        if parent_index < (hypo1.getRound parent_round).length then
          let parent_game := gameAt hypo1 parent_round parent_index
          if slot = 0 then
            setGame hypo1 parent_round parent_index
              { parent_game with team1 := winner }
          else
            setGame hypo1 parent_round parent_index
              { parent_game with team2 := winner }
        else hypo1
      else hypo1
  (hypo2, ol')

/-- One champion-stratified outcome from a random base (`str(b)` on the
final `{0,1}` ints renders as `'1'`/`'0'`). -/
def champion_outcome (results : Bracket) (remaining : List (String × Nat))
    (team_name : String) (base : List Nat) : Pat :=
  ((remaining.enum.foldl (champ_step team_name) (results, base)).2).map
    (fun b => if b = 1 then '1' else '0')

/-- `generate_champion_stratified_outcomes`. -/
def generate_champion_stratified_outcomes (results : Bracket)
    (remaining : List (String × Nat)) (remaining_teams : List String)
    (num_per_team : Nat) (rng : Nat → Bool) (ctr : Nat) : List Pat × Nat :=
  remaining_teams.foldl (fun acc team_name =>
    (List.range num_per_team).foldl (fun acc2 _ =>
      let bc := randBits rng acc2.2 remaining.length
      (acc2.1 ++ [champion_outcome results remaining team_name bc.1], bc.2)) acc)
    ([], ctr)

/-- `format(v, '0{w}b')`: `v` in binary, `w` digits with leading zeros
(faithful for `v < 2^w`, the only use). -/
def natToBits : Nat → Nat → Pat
  | 0, _ => []
  | w + 1, v => natToBits w (v / 2) ++ [if v % 2 = 1 then '1' else '0']

/-- `generate_next_game_stratified_outcomes`. -/
def generate_next_game_stratified_outcomes (remaining : List (String × Nat))
    (next_games : List (String × Nat)) (num_outcomes : Nat)
    (rng : Nat → Bool) (ctr : Nat) : List Pat × Nat :=
  let num_next := next_games.length
  let num_remaining := remaining.length
  let next_game_indices := next_games.filterMap (fun ng => remaining.indexOf? ng)
  let total_next_combos := 2 ^ num_next
  if total_next_combos ≤ num_outcomes then
    let outcomes_per_combo := max 1 (num_outcomes / total_next_combos)
    (List.range total_next_combos).foldl (fun acc combo_idx =>
      let next_game_bits := natToBits num_next combo_idx
      (List.range outcomes_per_combo).foldl (fun acc2 _ =>
        let bc := randBits rng acc2.2 num_remaining
        let ol2 := next_game_indices.enum.foldl (fun l p =>
          l.set p.2 (if next_game_bits.getD p.1 '0' = '1' then 1 else 0)) bc.1
        (acc2.1 ++ [ol2.map (fun b => if b = 1 then '1' else '0')], bc.2)) acc)
      ([], ctr)
  else
    (List.range num_outcomes).foldl (fun acc _ =>
      let sc := generate_random_outcome rng acc.2 num_remaining
      (acc.1 ++ [sc.1], sc.2)) ([], ctr)

/-- The Monte-Carlo stratification counts of `calculate_win_probabilities`
(lines 2293-2335): `(num_next_stratified, num_champion_stratified,
num_random, num_per_team)`.  `int(M * 0.25)` is modelled as `M / 4`
(the double product is exact for every budget fitting a double) and
`int(M * 0.15)` as `3 * M / 20`; Python's `max(0, ...)` subtraction
coincides with truncated `Nat` subtraction. -/
def mc_stratification (num_simulations num_next_games num_remaining_teams : Nat) :
    Nat × Nat × Nat × Nat :=
  let total_next_combos := 2 ^ num_next_games
  let min_next_stratified := num_simulations / 4
  let counts :=
    if total_next_combos < min_next_stratified then
      (min_next_stratified, min_next_stratified / 2,
        num_simulations - min_next_stratified - min_next_stratified / 2)
    else if total_next_combos < 2 * num_simulations then
      (total_next_combos, total_next_combos / 2,
        num_simulations - total_next_combos - total_next_combos / 2)
    else
      (num_simulations / 4, 3 * num_simulations / 20,
        num_simulations - num_simulations / 4 - 3 * num_simulations / 20)
  (counts.1, counts.2.1, counts.2.2,
    if num_remaining_teams > 0 then
      max 1 (counts.2.1 / num_remaining_teams) else 0)

/-- The Monte-Carlo "Step 1" of `calculate_win_probabilities`: generate
the champion-stratified, next-game-stratified and uniform-random outcome
strings and concatenate them. -/
def mc_outcome_strings (results : Bracket) (num_simulations : Nat)
    (rng : Nat → Bool) : List Pat :=
  let remaining := find_remaining_games results
  let next_games_list := (find_next_games results).map (fun q => (q.1, q.2.1))
  let remaining_teams := find_remaining_teams results
  let params := mc_stratification num_simulations next_games_list.length
    remaining_teams.length
  let num_next_stratified := params.1
  let num_random := params.2.2.1
  let num_per_team := params.2.2.2
  let champ := if num_per_team > 0 then
      generate_champion_stratified_outcomes results remaining remaining_teams
        num_per_team rng 0
    else ([], 0)
  let nextg := if num_next_stratified > 0 then
      generate_next_game_stratified_outcomes remaining next_games_list
        num_next_stratified rng champ.2
    else ([], champ.2)
  let rand := (List.range num_random).foldl (fun acc _ =>
      let sc := generate_random_outcome rng acc.2 remaining.length
      (acc.1 ++ [sc.1], sc.2)) ([], nextg.2)
  champ.1 ++ nextg.1 ++ rand.1

/-- Folding a step that appends a fixed-size block of elements
satisfying `Q` appends `l.length` such blocks. -/
theorem fold_append_block {α β : Type} (Q : β → Prop) (k : Nat) :
    ∀ (l : List α) (step : List β × Nat → α → List β × Nat),
      (∀ (acc : List β × Nat) (x : α), ∃ es c, step acc x = (acc.1 ++ es, c) ∧
        es.length = k ∧ ∀ e ∈ es, Q e) →
      ∀ acc : List β × Nat,
        ∃ es c, l.foldl step acc = (acc.1 ++ es, c) ∧
          es.length = l.length * k ∧ ∀ e ∈ es, Q e := by
  intro l
  induction l with
  | nil =>
    intro step _ acc
    exact ⟨[], acc.2, by simp, by simp, by simp⟩
  | cons x xs ih =>
    intro step hstep acc
    obtain ⟨es1, c1, he1, hlen1, hQ1⟩ := hstep acc x
    obtain ⟨es2, c2, he2, hlen2, hQ2⟩ := ih step hstep (acc.1 ++ es1, c1)
    refine ⟨es1 ++ es2, c2, ?_, ?_, ?_⟩
    · rw [List.foldl_cons, he1, he2]
      simp [List.append_assoc]
    · rw [List.length_append, hlen1, hlen2, List.length_cons]
      ring
    · intro e he
      rcases List.mem_append.mp he with h | h
      · exact hQ1 e h
      · exact hQ2 e h

theorem generate_random_outcome_spec (rng : Nat → Bool) (ctr n : Nat) :
    (generate_random_outcome rng ctr n).1.length = n ∧
      ∀ c ∈ (generate_random_outcome rng ctr n).1, c = '0' ∨ c = '1' := by
  constructor
  · simp [generate_random_outcome]
  · intro c hc
    simp only [generate_random_outcome, List.mem_map] at hc
    obtain ⟨j, _, rfl⟩ := hc
    by_cases h : rng (ctr + j)
    · rw [if_pos h]; right; rfl
    · rw [if_neg h]; left; rfl

theorem render_chars (l : List Nat) :
    ∀ c ∈ l.map (fun b => if b = 1 then '1' else '0'), c = '0' ∨ c = '1' := by
  intro c hc
  rw [List.mem_map] at hc
  obtain ⟨b, _, rfl⟩ := hc
  by_cases h : b = 1
  · rw [if_pos h]; right; rfl
  · rw [if_neg h]; left; rfl

theorem champ_step_snd (tn : String) (st : Bracket × List Nat)
    (p : Nat × String × Nat) :
    (champ_step tn st p).2 =
      (if get_team_name (gameAt st.1 p.2.1 p.2.2).team1 = some tn then
        st.2.set p.1 1
      else if get_team_name (gameAt st.1 p.2.1 p.2.2).team2 = some tn then
        st.2.set p.1 0
      else st.2) := rfl

theorem champ_fold_len (tn : String) :
    ∀ (l : List (Nat × String × Nat)) (st : Bracket × List Nat),
      ((l.foldl (champ_step tn) st).2).length = st.2.length := by
  intro l
  induction l with
  | nil => intro st; rfl
  | cons x xs ih =>
    intro st
    rw [List.foldl_cons, ih, champ_step_snd]
    split_ifs <;> simp [List.length_set]

theorem champion_outcome_spec (results : Bracket)
    (remaining : List (String × Nat)) (tn : String) (base : List Nat) :
    (champion_outcome results remaining tn base).length = base.length ∧
      ∀ c ∈ champion_outcome results remaining tn base, c = '0' ∨ c = '1' := by
  constructor
  · unfold champion_outcome
    rw [List.length_map, champ_fold_len]
  · exact render_chars _

theorem fold_set_len (f : Nat × Nat → Nat) :
    ∀ (idxs : List (Nat × Nat)) (l0 : List Nat),
      (idxs.foldl (fun l p => l.set p.2 (f p)) l0).length = l0.length := by
  intro idxs
  induction idxs with
  | nil => intro l0; rfl
  | cons x xs ih =>
    intro l0
    rw [List.foldl_cons, ih, List.length_set]

theorem generate_champion_spec (results : Bracket)
    (remaining : List (String × Nat)) (remaining_teams : List String)
    (num_per_team : Nat) (rng : Nat → Bool) (ctr : Nat) :
    ∃ es c, generate_champion_stratified_outcomes results remaining
        remaining_teams num_per_team rng ctr = (es, c) ∧
      es.length = remaining_teams.length * num_per_team ∧
      ∀ s ∈ es, s.length = remaining.length ∧ ∀ ch ∈ s, ch = '0' ∨ ch = '1' := by
  have hinner : ∀ (acc : List Pat × Nat) (tn : String),
      ∃ es c, (List.range num_per_team).foldl (fun acc2 _ =>
          let bc := randBits rng acc2.2 remaining.length
          (acc2.1 ++ [champion_outcome results remaining tn bc.1], bc.2)) acc =
        (acc.1 ++ es, c) ∧ es.length = num_per_team ∧
        ∀ s ∈ es, s.length = remaining.length ∧ ∀ ch ∈ s, ch = '0' ∨ ch = '1' := by
    intro acc tn
    have h := fold_append_block
      (fun s : Pat => s.length = remaining.length ∧ ∀ ch ∈ s, ch = '0' ∨ ch = '1') 1
      (List.range num_per_team)
      (fun acc2 _ =>
        let bc := randBits rng acc2.2 remaining.length
        (acc2.1 ++ [champion_outcome results remaining tn bc.1], bc.2))
      (fun acc2 _ => by
        refine ⟨[champion_outcome results remaining tn
          (randBits rng acc2.2 remaining.length).1],
          (randBits rng acc2.2 remaining.length).2, rfl, rfl, ?_⟩
        intro s hs
        rw [List.mem_singleton] at hs
        subst hs
        obtain ⟨h1, h2⟩ := champion_outcome_spec results remaining tn
          (randBits rng acc2.2 remaining.length).1
        refine ⟨?_, h2⟩
        rw [h1]
        simp [randBits]) acc
    obtain ⟨es, c, he, hlen, hQ⟩ := h
    rw [List.length_range, Nat.mul_one] at hlen
    exact ⟨es, c, he, hlen, hQ⟩
  have h := fold_append_block
    (fun s : Pat => s.length = remaining.length ∧ ∀ ch ∈ s, ch = '0' ∨ ch = '1')
    num_per_team remaining_teams
    (fun acc team_name =>
      (List.range num_per_team).foldl (fun acc2 _ =>
        let bc := randBits rng acc2.2 remaining.length
        (acc2.1 ++ [champion_outcome results remaining team_name bc.1], bc.2)) acc)
    (fun acc tn => by
      obtain ⟨es, c, he, hlen, hQ⟩ := hinner acc tn
      exact ⟨es, c, he, hlen, hQ⟩) ([], ctr)
  obtain ⟨es, c, he, hlen, hQ⟩ := h
  refine ⟨es, c, ?_, hlen, hQ⟩
  unfold generate_champion_stratified_outcomes
  rw [he]
  rfl

theorem generate_next_game_spec (remaining : List (String × Nat))
    (next_games : List (String × Nat)) (num_outcomes : Nat)
    (rng : Nat → Bool) (ctr : Nat) :
    ∃ es c, generate_next_game_stratified_outcomes remaining next_games
        num_outcomes rng ctr = (es, c) ∧
      es.length = (if 2 ^ next_games.length ≤ num_outcomes then
        2 ^ next_games.length * max 1 (num_outcomes / 2 ^ next_games.length)
      else num_outcomes) ∧
      ∀ s ∈ es, s.length = remaining.length ∧ ∀ ch ∈ s, ch = '0' ∨ ch = '1' := by
  unfold generate_next_game_stratified_outcomes
  dsimp only
  split_ifs with hen
  · -- enumerate every next-game combination
    have hinner : ∀ (acc : List Pat × Nat) (combo_idx : Nat),
        ∃ es c, (List.range (max 1 (num_outcomes / 2 ^ next_games.length))).foldl
            (fun acc2 _ =>
              let bc := randBits rng acc2.2 remaining.length
              let ol2 := (next_games.filterMap
                  (fun ng => remaining.indexOf? ng)).enum.foldl (fun l p =>
                l.set p.2 (if (natToBits next_games.length combo_idx).getD p.1 '0'
                  = '1' then 1 else 0)) bc.1
              (acc2.1 ++ [ol2.map (fun b => if b = 1 then '1' else '0')], bc.2))
            acc = (acc.1 ++ es, c) ∧
          es.length = max 1 (num_outcomes / 2 ^ next_games.length) ∧
          ∀ s ∈ es, s.length = remaining.length ∧
            ∀ ch ∈ s, ch = '0' ∨ ch = '1' := by
      intro acc combo_idx
      have h := fold_append_block
        (fun s : Pat => s.length = remaining.length ∧
          ∀ ch ∈ s, ch = '0' ∨ ch = '1') 1
        (List.range (max 1 (num_outcomes / 2 ^ next_games.length)))
        (fun acc2 _ =>
          let bc := randBits rng acc2.2 remaining.length
          let ol2 := (next_games.filterMap
              (fun ng => remaining.indexOf? ng)).enum.foldl (fun l p =>
            l.set p.2 (if (natToBits next_games.length combo_idx).getD p.1 '0'
              = '1' then 1 else 0)) bc.1
          (acc2.1 ++ [ol2.map (fun b => if b = 1 then '1' else '0')], bc.2))
        (fun acc2 _ => by
          refine ⟨[((next_games.filterMap
              (fun ng => remaining.indexOf? ng)).enum.foldl (fun l p =>
            l.set p.2 (if (natToBits next_games.length combo_idx).getD p.1 '0'
              = '1' then 1 else 0))
            (randBits rng acc2.2 remaining.length).1).map
              (fun b => if b = 1 then '1' else '0')],
            (randBits rng acc2.2 remaining.length).2, rfl, rfl, ?_⟩
          intro s hs
          rw [List.mem_singleton] at hs
          subst hs
          refine ⟨?_, render_chars _⟩
          rw [List.length_map, fold_set_len]
          simp [randBits]) acc
      obtain ⟨es, c, he, hlen, hQ⟩ := h
      rw [List.length_range, Nat.mul_one] at hlen
      exact ⟨es, c, he, hlen, hQ⟩
    have h := fold_append_block
      (fun s : Pat => s.length = remaining.length ∧ ∀ ch ∈ s, ch = '0' ∨ ch = '1')
      (max 1 (num_outcomes / 2 ^ next_games.length))
      (List.range (2 ^ next_games.length)) _
      (fun acc combo_idx => hinner acc combo_idx) ([], ctr)
    obtain ⟨es, c, he, hlen, hQ⟩ := h
    rw [List.length_range] at hlen
    exact ⟨es, c, he, hlen, hQ⟩
  · -- uniform sampling
    have h := fold_append_block
      (fun s : Pat => s.length = remaining.length ∧ ∀ ch ∈ s, ch = '0' ∨ ch = '1') 1
      (List.range num_outcomes)
      (fun acc _ =>
        let sc := generate_random_outcome rng acc.2 remaining.length
        (acc.1 ++ [sc.1], sc.2))
      (fun acc _ => by
        refine ⟨[(generate_random_outcome rng acc.2 remaining.length).1],
          (generate_random_outcome rng acc.2 remaining.length).2, rfl, rfl, ?_⟩
        intro s hs
        rw [List.mem_singleton] at hs
        subst hs
        exact generate_random_outcome_spec rng acc.2 remaining.length) ([], ctr)
    obtain ⟨es, c, he, hlen, hQ⟩ := h
    rw [List.length_range, Nat.mul_one] at hlen
    exact ⟨es, c, he, hlen, hQ⟩

theorem random_fold_spec (rng : Nat → Bool) (n count : Nat)
    (acc : List Pat × Nat) :
    ∃ es c, (List.range count).foldl (fun acc _ =>
        (acc.1 ++ [(generate_random_outcome rng acc.2 n).1],
          (generate_random_outcome rng acc.2 n).2)) acc = (acc.1 ++ es, c) ∧
      es.length = count ∧
      ∀ s ∈ es, s.length = n ∧ ∀ ch ∈ s, ch = '0' ∨ ch = '1' := by
  have h := fold_append_block
    (fun s : Pat => s.length = n ∧ ∀ ch ∈ s, ch = '0' ∨ ch = '1') 1
    (List.range count)
    (fun acc _ =>
      (acc.1 ++ [(generate_random_outcome rng acc.2 n).1],
        (generate_random_outcome rng acc.2 n).2))
    (fun acc _ => by
      refine ⟨[(generate_random_outcome rng acc.2 n).1],
        (generate_random_outcome rng acc.2 n).2, rfl, rfl, ?_⟩
      intro s hs
      rw [List.mem_singleton] at hs
      subst hs
      exact generate_random_outcome_spec rng acc.2 n) acc
  obtain ⟨es, c, he, hlen, hQ⟩ := h
  rw [List.length_range, Nat.mul_one] at hlen
  exact ⟨es, c, he, hlen, hQ⟩

/-- C8 (amended): in Monte-Carlo mode (`2^n > M`) the generated outcome
strings number exactly the code's stratification total — the
champion-stratified part contributes `num_remaining_teams *
num_per_team` strings (with `num_per_team = max(1, num_champion_stratified
/ num_remaining_teams)`), the next-game part `2^N * max(1,
num_next_stratified / 2^N)` when all `N` next-game combinations are
enumerated and `num_next_stratified` otherwise, plus `num_random`
uniform strings — which in general differs from the requested budget
`M`; every generated string has length `n` over `{0,1}`. -/
theorem mc_sample_count (results : Bracket) (M : Nat) (rng : Nat → Bool)
    (hmc : M < 2 ^ (find_remaining_games results).length) :
    (mc_outcome_strings results M rng).length =
      (if (mc_stratification M
          ((find_next_games results).map (fun q => (q.1, q.2.1))).length
          (find_remaining_teams results).length).2.2.2 > 0 then
        (find_remaining_teams results).length *
          (mc_stratification M
            ((find_next_games results).map (fun q => (q.1, q.2.1))).length
            (find_remaining_teams results).length).2.2.2
      else 0) +
      ((if (mc_stratification M
          ((find_next_games results).map (fun q => (q.1, q.2.1))).length
          (find_remaining_teams results).length).1 > 0 then
        (if 2 ^ ((find_next_games results).map (fun q => (q.1, q.2.1))).length ≤
            (mc_stratification M
              ((find_next_games results).map (fun q => (q.1, q.2.1))).length
              (find_remaining_teams results).length).1 then
          2 ^ ((find_next_games results).map (fun q => (q.1, q.2.1))).length *
            max 1 ((mc_stratification M
              ((find_next_games results).map (fun q => (q.1, q.2.1))).length
              (find_remaining_teams results).length).1 /
              2 ^ ((find_next_games results).map (fun q => (q.1, q.2.1))).length)
        else (mc_stratification M
          ((find_next_games results).map (fun q => (q.1, q.2.1))).length
          (find_remaining_teams results).length).1)
      else 0) +
      (mc_stratification M
        ((find_next_games results).map (fun q => (q.1, q.2.1))).length
        (find_remaining_teams results).length).2.2.1) ∧
    ∀ s ∈ mc_outcome_strings results M rng,
      s.length = (find_remaining_games results).length ∧
      ∀ c ∈ s, c = '0' ∨ c = '1' := by
  clear hmc
  unfold mc_outcome_strings
  dsimp only
  set rem := find_remaining_games results with hrem
  set ngl := (find_next_games results).map (fun q => (q.1, q.2.1)) with hngl
  set teams := find_remaining_teams results with hteams
  set params := mc_stratification M ngl.length teams.length with hparams
  obtain ⟨esC, cC, heC, hlenC, hQC⟩ :=
    generate_champion_spec results rem teams params.2.2.2 rng 0
  by_cases hPT : params.2.2.2 > 0
  · rw [if_pos hPT, heC]
    dsimp only
    by_cases hNS : params.1 > 0
    · obtain ⟨esN, cN, heN, hlenN, hQN⟩ :=
        generate_next_game_spec rem ngl params.1 rng cC
      rw [if_pos hNS, heN]
      dsimp only
      obtain ⟨esR, cR, heR, hlenR, hQR⟩ := random_fold_spec rng rem.length
        params.2.2.1 ([], cN)
      rw [heR]
      dsimp only
      constructor
      · simp only [List.length_append, List.length_nil, List.nil_append]
        rw [hlenC, hlenN, hlenR, if_pos hPT, if_pos hNS]
        ring
      · intro s hs
        simp only [List.mem_append, List.nil_append] at hs
        rcases hs with (h | h) | h
        · exact hQC s h
        · exact hQN s h
        · exact hQR s h
    · rw [if_neg hNS]
      dsimp only
      obtain ⟨esR, cR, heR, hlenR, hQR⟩ := random_fold_spec rng rem.length
        params.2.2.1 ([], cC)
      rw [heR]
      dsimp only
      constructor
      · simp only [List.length_append, List.length_nil, List.nil_append]
        rw [hlenC, hlenR, if_pos hPT, if_neg hNS]
        ring
      · intro s hs
        simp only [List.mem_append, List.nil_append, List.not_mem_nil,
          or_false, false_or] at hs
        rcases hs with h | h
        · exact hQC s h
        · exact hQR s h
  · rw [if_neg hPT]
    dsimp only
    by_cases hNS : params.1 > 0
    · obtain ⟨esN, cN, heN, hlenN, hQN⟩ :=
        generate_next_game_spec rem ngl params.1 rng 0
      rw [if_pos hNS, heN]
      dsimp only
      obtain ⟨esR, cR, heR, hlenR, hQR⟩ := random_fold_spec rng rem.length
        params.2.2.1 ([], cN)
      rw [heR]
      dsimp only
      constructor
      · simp only [List.length_append, List.length_nil, List.nil_append]
        rw [hlenN, hlenR, if_neg hPT, if_pos hNS]
        ring
      · intro s hs
        simp only [List.mem_append, List.nil_append, List.not_mem_nil,
          or_false, false_or] at hs
        rcases hs with h | h
        · exact hQN s h
        · exact hQR s h
    · rw [if_neg hNS]
      dsimp only
      obtain ⟨esR, cR, heR, hlenR, hQR⟩ := random_fold_spec rng rem.length
        params.2.2.1 ([], 0)
      rw [heR]
      dsimp only
      constructor
      · simp only [List.length_append, List.length_nil, List.nil_append]
        rw [hlenR, if_neg hPT, if_neg hNS]
        ring
      · intro s hs
        simp only [List.mem_append, List.nil_append, List.not_mem_nil,
          or_false, false_or] at hs
        exact hQR s hs

/-- Bracket for the C8 counterexample and witness: one semifinal
decided, the other and the final open (`n = 2` remaining games, no
playable next game, three remaining teams). -/
def mcFixtureC8 : Bracket :=
  ⟨[[], [], [], [],
    [⟨some ⟨"A", 1⟩, some ⟨"B", 2⟩, some ⟨"A", 1⟩⟩,
     ⟨some ⟨"C", 3⟩, some ⟨"D", 4⟩, none⟩],
    [⟨some ⟨"A", 1⟩, none, none⟩]], none⟩

/-- C8 counterexample: with budget `M = 1` and `n = 2` remaining games
(`2^n = 4 > M`, Monte-Carlo mode), the generator emits 4 outcome
strings, not `M = 1`: `num_champion_stratified` is 0 but `num_per_team
= max(1, 0 // 3) = 1` forces one outcome per remaining team, plus one
next-game-stratified outcome. -/
theorem mc_sample_count_counterexample :
    1 < 2 ^ (find_remaining_games mcFixtureC8).length ∧
    (mc_outcome_strings mcFixtureC8 1 (fun _ => false)).length = 4 ∧
    (mc_outcome_strings mcFixtureC8 1 (fun _ => false)).length ≠ 1 :=
  ⟨by decide, by decide, by decide⟩

/-- Witness for the amended C8 theorem at the concrete fixture. -/
theorem mc_sample_count_witness :
    1 < 2 ^ (find_remaining_games mcFixtureC8).length ∧
    ((mc_outcome_strings mcFixtureC8 1 (fun _ => false)).length =
      (if (mc_stratification 1
          ((find_next_games mcFixtureC8).map (fun q => (q.1, q.2.1))).length
          (find_remaining_teams mcFixtureC8).length).2.2.2 > 0 then
        (find_remaining_teams mcFixtureC8).length *
          (mc_stratification 1
            ((find_next_games mcFixtureC8).map (fun q => (q.1, q.2.1))).length
            (find_remaining_teams mcFixtureC8).length).2.2.2
      else 0) +
      ((if (mc_stratification 1
          ((find_next_games mcFixtureC8).map (fun q => (q.1, q.2.1))).length
          (find_remaining_teams mcFixtureC8).length).1 > 0 then
        (if 2 ^ ((find_next_games mcFixtureC8).map (fun q => (q.1, q.2.1))).length ≤
            (mc_stratification 1
              ((find_next_games mcFixtureC8).map (fun q => (q.1, q.2.1))).length
              (find_remaining_teams mcFixtureC8).length).1 then
          2 ^ ((find_next_games mcFixtureC8).map (fun q => (q.1, q.2.1))).length *
            max 1 ((mc_stratification 1
              ((find_next_games mcFixtureC8).map (fun q => (q.1, q.2.1))).length
              (find_remaining_teams mcFixtureC8).length).1 /
              2 ^ ((find_next_games mcFixtureC8).map (fun q => (q.1, q.2.1))).length)
        else (mc_stratification 1
          ((find_next_games mcFixtureC8).map (fun q => (q.1, q.2.1))).length
          (find_remaining_teams mcFixtureC8).length).1)
      else 0) +
      (mc_stratification 1
        ((find_next_games mcFixtureC8).map (fun q => (q.1, q.2.1))).length
        (find_remaining_teams mcFixtureC8).length).2.2.1) ∧
    ∀ s ∈ mc_outcome_strings mcFixtureC8 1 (fun _ => false),
      s.length = (find_remaining_games mcFixtureC8).length ∧
      ∀ c ∈ s, c = '0' ∨ c = '1') :=
  ⟨by decide, mc_sample_count mcFixtureC8 1 (fun _ => false) (by decide)⟩

/-- A small concrete results bracket: round-5 game 0 decided, round-5
game 1 and the championship still open. -/
def resultsFixture : Bracket :=
  ⟨[[], [], [], [],
    [⟨some ⟨"A", 1⟩, some ⟨"B", 4⟩, some ⟨"A", 1⟩⟩,
     ⟨some ⟨"C", 2⟩, some ⟨"D", 3⟩, none⟩],
    [⟨some ⟨"A", 1⟩, none, none⟩]], none⟩

/-- A fully decided picks bracket for the same fixture. -/
def picksFixture : Bracket :=
  ⟨[[], [], [], [],
    [⟨some ⟨"A", 1⟩, some ⟨"B", 4⟩, some ⟨"A", 1⟩⟩,
     ⟨some ⟨"C", 2⟩, some ⟨"D", 3⟩, some ⟨"C", 2⟩⟩],
    [⟨some ⟨"A", 1⟩, some ⟨"C", 2⟩, some ⟨"C", 2⟩⟩]], some ⟨"C", 2⟩⟩

/-- A concrete scoring configuration (index 0 unused). -/
def cfgFixture : ScoringConfig :=
  ⟨[0, 10, 20, 40, 80, 130, 160], [0, 1, 1, 2, 2, 3, 4]⟩

/-- Witness for C1 at the concrete fixture and outcome string "10". -/
theorem scoring_equivalence_witness :
    (compute_score cfgFixture []
        (create_hypothetical_bracket resultsFixture
          (find_remaining_games resultsFixture) ['1', '0'])
        picksFixture true).1 =
      (compute_score cfgFixture [] resultsFixture picksFixture true).1 +
        compute_score_delta cfgFixture []
          (create_hypothetical_bracket resultsFixture
            (find_remaining_games resultsFixture) ['1', '0'])
          picksFixture true (find_remaining_games resultsFixture) :=
  scoring_equivalence cfgFixture [] true resultsFixture picksFixture ['1', '0']
    (by decide) (by decide) (by decide)

/-- C7: when the result winner and the pick agree and all three seeds are
non-zero, seed-bonus scoring adds `SCORE_FOR_ROUND[r]` plus an upset
bonus of `(seed(winner) - min(seed(team1), seed(team2))) * SEED_FACTOR[r]`
exactly when the winner's seed exceeds the minimum seed; the bonus is
non-negative for non-negative `SEED_FACTOR`, and is zero whenever the
winner's seed equals the minimum seed.  The same holds for the delta
variant. -/
theorem upset_bonus_formula (cfg : ScoringConfig) (td : TeamsData) (round_num : Nat)
    (rg pg : Game) (w : String)
    (hw : get_winner_name rg = some w) (hp : get_winner_name pg = some w)
    (h1 : get_team_seed rg.team1 td ≠ 0) (h2 : get_team_seed rg.team2 td ≠ 0)
    (hw0 : get_team_seed rg.winner td ≠ 0) :
    (score_game cfg td true round_num rg pg).1 =
        cfg.scoreForRound.getD round_num 0 +
          (if min (get_team_seed rg.team1 td) (get_team_seed rg.team2 td) <
              get_team_seed rg.winner td then
            (get_team_seed rg.winner td -
                min (get_team_seed rg.team1 td) (get_team_seed rg.team2 td)) *
              cfg.seedFactor.getD round_num 0
          else 0) ∧
      (score_game cfg td true round_num rg pg).2.2 =
        (if min (get_team_seed rg.team1 td) (get_team_seed rg.team2 td) <
            get_team_seed rg.winner td then
          (get_team_seed rg.winner td -
              min (get_team_seed rg.team1 td) (get_team_seed rg.team2 td)) *
            cfg.seedFactor.getD round_num 0
        else 0) ∧
      delta_game cfg td true round_num rg pg = (score_game cfg td true round_num rg pg).1 ∧
      (0 ≤ cfg.seedFactor.getD round_num 0 →
        0 ≤ (score_game cfg td true round_num rg pg).2.2) ∧
      (get_team_seed rg.winner td =
          min (get_team_seed rg.team1 td) (get_team_seed rg.team2 td) →
        (score_game cfg td true round_num rg pg).2.2 = 0) := by
  simp only [score_game, delta_game, hw, hp, if_pos rfl, h1, h2, hw0, ne_eq,
    not_false_eq_true, and_self, if_true, gt_iff_lt]
  split_ifs with hmin
  · refine ⟨rfl, rfl, rfl, fun hf => ?_, fun he => ?_⟩
    · exact mul_nonneg (by omega) hf
    · omega
  · refine ⟨by omega, rfl, rfl, fun _ => le_refl 0, fun _ => rfl⟩

/-- Witness for C7 at a concrete game. -/
theorem upset_bonus_formula_witness :
    (score_game ⟨[0, 0, 0, 0, 0, 0, 130], [0, 0, 0, 0, 0, 0, 6]⟩ [] true 6
        ⟨some ⟨"Alpha", 1⟩, some ⟨"Beta", 8⟩, some ⟨"Beta", 8⟩⟩
        ⟨some ⟨"Alpha", 1⟩, some ⟨"Beta", 8⟩, some ⟨"Beta", 8⟩⟩).1 =
      130 + (8 - 1) * 6 := by
  have h := upset_bonus_formula ⟨[0, 0, 0, 0, 0, 0, 130], [0, 0, 0, 0, 0, 0, 6]⟩ [] 6
    ⟨some ⟨"Alpha", 1⟩, some ⟨"Beta", 8⟩, some ⟨"Beta", 8⟩⟩
    ⟨some ⟨"Alpha", 1⟩, some ⟨"Beta", 8⟩, some ⟨"Beta", 8⟩⟩ "Beta"
    (by decide) (by decide) (by decide) (by decide) (by decide)
  rw [h.1]
  decide

end MM
